import Mathlib

/-!
# OpSys: user-space synchronisation primitives

A shallow embedding of the C sources `task3/cond_var.c`, `hw1/task1/tas_semaphore.c`,
`hw1/task2/tl_semaphore.c`, `hw1/task4/rw_lock.c`, `task5/local_storage.c` and
`task6/cp_pattern.c`.

Concurrency is modelled by interleaving: every atomic operation of the source
(`atomic_fetch_add`, `atomic_load`, `atomic_flag_test_and_set`, ...) is one step of the
thread that executes it, and a schedule is the list of thread ids in the order in which
the threads take their steps.  A thread that is never scheduled again models a thread
that is arbitrarily slow.  `atomic_int` values are 32-bit two's-complement integers:
the read-modify-write operations wrap around silently (C11 7.17.7.5).
-/

namespace OpSys

/-! ## Machine integers -/

/-- The value of type `int` that an `atomic_int` holds after an arithmetic
read-modify-write whose mathematical result is `x` (two's-complement wrap-around). -/
def wrap32 (x : Int) : Int := (x + 2147483648) % 4294967296 - 2147483648

/-- The largest `int`. -/
def INT_MAX : Int := 2147483647

/-- Run a step function along a schedule. -/
def runSched {S A : Type} (step : S → A → S) (init : S) (sched : List A) : S :=
  sched.foldl step init

/-! ## Ticket lock (`task3/cond_var.c`, `hw1/task3/cond_var.h`) -/

/-- The struct `ticket_lock` of `cond_var.h`. -/
structure ticket_lock where
  cur_ticket : Int
  ticket : Int
deriving DecidableEq, Repr

/-- The function `ticketlock_init`: both counters start at 0. -/
def ticketlock_init : ticket_lock := { cur_ticket := 0, ticket := 0 }

/-- First statement of `ticketlock_acquire`:
`int my_ticket = atomic_fetch_add(&lock->ticket, 1)`; returns `my_ticket` and the lock. -/
def ticketlock_acquire_fetch (lock : ticket_lock) : Int × ticket_lock :=
  (lock.ticket, { lock with ticket := wrap32 (lock.ticket + 1) })

/-- The loop condition of `ticketlock_acquire`:
`atomic_load(&lock->cur_ticket) != my_ticket`. -/
def ticketlock_acquire_spins (lock : ticket_lock) (my_ticket : Int) : Bool :=
  lock.cur_ticket != my_ticket

/-- The function `ticketlock_release`: `atomic_fetch_add(&lock->cur_ticket, 1)`. -/
def ticketlock_release (lock : ticket_lock) : ticket_lock :=
  { lock with cur_ticket := wrap32 (lock.cur_ticket + 1) }

/-- Where a thread stands with respect to one ticket lock: outside, spinning in
`ticketlock_acquire` with its ticket, or holding the lock. -/
inductive Phase where
  | out
  | spin (my_ticket : Int)
  | held
deriving DecidableEq, Repr

/-- Ticket discipline: `q` lists the threads that drew a ticket and did not release yet,
in draw order; `R` counts the releases so far. -/
def TLInv (n : Nat) (l : ticket_lock) (ph : Nat → Phase) (q : List Nat) (R : Nat) : Prop :=
  q.Nodup ∧ (∀ t ∈ q, t < n) ∧ l.cur_ticket = wrap32 (R : Int) ∧
  l.ticket = wrap32 ((R : Int) + (q.length : Int)) ∧
  (∀ t, t ∉ q → ph t = Phase.out) ∧
  (∀ (i t : Nat), q[i]? = some t →
    ph t = Phase.spin (wrap32 ((R : Int) + (i : Int))) ∨ (i = 0 ∧ ph t = Phase.held))

/-! ### A client of the ticket lock

Each of the `n` threads runs `ticketlock_acquire`, a critical section and
`ticketlock_release` on the same lock, any number of times. -/

/-- Program counter of a client thread. -/
inductive TLPc where
  | idle
  | spin (my_ticket : Int)
  | crit
deriving DecidableEq, Repr

/-- Lock, program counters, and two history variables: the threads in the order in which
they drew tickets and in the order in which they left the spin loop. -/
structure TLState where
  lock : ticket_lock
  pc : Nat → TLPc
  drawn : List Nat
  entered : List Nat

/-- State after `ticketlock_init`, before any thread runs. -/
def tl_init : TLState :=
  { lock := ticketlock_init, pc := fun _ => TLPc.idle, drawn := [], entered := [] }

/-- One atomic step of thread `t` (threads `t ≥ n` do not exist). -/
def tl_step (n : Nat) (s : TLState) (t : Nat) : TLState :=
  if t < n then
    match s.pc t with
    | TLPc.idle =>
      { s with lock := (ticketlock_acquire_fetch s.lock).2,
               pc := Function.update s.pc t (TLPc.spin (ticketlock_acquire_fetch s.lock).1),
               drawn := s.drawn ++ [t] }
    | TLPc.spin my_ticket =>
      if ticketlock_acquire_spins s.lock my_ticket then s
      else { s with pc := Function.update s.pc t TLPc.crit, entered := s.entered ++ [t] }
    | TLPc.crit =>
      { s with lock := ticketlock_release s.lock, pc := Function.update s.pc t TLPc.idle }
  else s

/-- The state reached from `tl_init` along a schedule. -/
def tl_run (n : Nat) (sched : List Nat) : TLState := runSched (tl_step n) tl_init sched

/-- Lock phase of a client program counter. -/
def TLPc.phase : TLPc → Phase
  | TLPc.idle => Phase.out
  | TLPc.spin m => Phase.spin m
  | TLPc.crit => Phase.held

/-- Invariant of the client: ticket discipline plus the meaning of the two histories. -/
def TLClientInv (n : Nat) (s : TLState) : Prop :=
  ∃ (q : List Nat) (R : Nat) (pre h : List Nat),
    TLInv n s.lock (fun t => (s.pc t).phase) q R ∧
    s.drawn = pre ++ q ∧ s.entered = pre ++ h ∧ h <+: q ∧ h.length ≤ 1 ∧
    (∀ t, t ∈ h ↔ s.pc t = TLPc.crit)

/-! ## Condition variable (`task3/cond_var.c`, `hw1/task3/cond_var.h`) -/

/-- The struct `condition_variable` of `cond_var.h`: the `atomic_flag lock`
(`true` = set) and the counter `waiters`. -/
structure condition_variable where
  lock : Bool
  waiters : Int
deriving DecidableEq, Repr

/-- The function `condition_variable_init`: the flag is cleared, `waiters` is 0. -/
def condition_variable_init : condition_variable := { lock := false, waiters := 0 }

/-- The atomic operation at which a thread inside `condition_variable_wait` stands. -/
inductive CvPc where
  /-- `atomic_fetch_add(&cv->waiters, 1)`. -/
  | inc
  /-- `ticketlock_release(ext_lock)`. -/
  | release
  /-- `while (atomic_flag_test_and_set(&cv->lock))`. -/
  | spin
  /-- `ticketlock_acquire(ext_lock)`, the fetch-and-add. -/
  | fetch
  /-- `ticketlock_acquire(ext_lock)`, the spin loop. -/
  | acquire (my_ticket : Int)
  /-- `atomic_fetch_sub(&cv->waiters, 1)`. -/
  | dec
deriving DecidableEq, Repr

/-- One atomic step of `condition_variable_wait(cv, ext_lock)`: the condition variable,
the external lock, and the next operation (`none`: the call returns). -/
def condition_variable_wait_step (cv : condition_variable) (ext_lock : ticket_lock) :
    CvPc → condition_variable × ticket_lock × Option CvPc
  | CvPc.inc => ({ cv with waiters := wrap32 (cv.waiters + 1) }, ext_lock, some CvPc.release)
  | CvPc.release => (cv, ticketlock_release ext_lock, some CvPc.spin)
  | CvPc.spin =>
    if cv.lock then (cv, ext_lock, some CvPc.spin)
    else ({ cv with lock := true }, ext_lock, some CvPc.fetch)
  | CvPc.fetch =>
    (cv, (ticketlock_acquire_fetch ext_lock).2,
      some (CvPc.acquire (ticketlock_acquire_fetch ext_lock).1))
  | CvPc.acquire my_ticket =>
    if ticketlock_acquire_spins ext_lock my_ticket then (cv, ext_lock, some (CvPc.acquire my_ticket))
    else (cv, ext_lock, some CvPc.dec)
  | CvPc.dec => ({ cv with waiters := wrap32 (cv.waiters - 1) }, ext_lock, none)

/-- The condition variable, the external lock and the next operation after `k` steps of one
thread inside `condition_variable_wait` while no other thread runs. -/
def condition_variable_wait_steps : Nat → condition_variable → ticket_lock → Option CvPc →
    condition_variable × ticket_lock × Option CvPc
  | 0, cv, ext_lock, c => (cv, ext_lock, c)
  | _ + 1, cv, ext_lock, none => (cv, ext_lock, none)
  | k + 1, cv, ext_lock, some c =>
    condition_variable_wait_steps k (condition_variable_wait_step cv ext_lock c).1
      (condition_variable_wait_step cv ext_lock c).2.1
      (condition_variable_wait_step cv ext_lock c).2.2

/-- The test of `condition_variable_signal`: `atomic_load(&cv->waiters) > 0`. -/
def condition_variable_signal_test (cv : condition_variable) : Bool :=
  decide (cv.waiters > 0)

/-- The statement `atomic_flag_clear(&cv->lock)` of `condition_variable_signal` and of
the loop body of `condition_variable_broadcast`. -/
def condition_variable_clear (cv : condition_variable) : condition_variable :=
  { cv with lock := false }

/-- Phase, with respect to the external lock, of a thread inside
`condition_variable_wait`. -/
def CvPc.phase : CvPc → Phase
  | CvPc.inc => Phase.held
  | CvPc.release => Phase.held
  | CvPc.spin => Phase.out
  | CvPc.fetch => Phase.out
  | CvPc.acquire m => Phase.spin m
  | CvPc.dec => Phase.held

/-- Phase after the step of `condition_variable_wait`: on return the lock is held. -/
def CvPc.phaseAfter : Option CvPc → Phase
  | none => Phase.held
  | some c => c.phase

/-! ## Test-and-set semaphore (`hw1/task1/tas_semaphore.c`) -/

namespace tas_semaphore

/-- The struct `semaphore` of the TAS variant: an `atomic_int value` and an
`atomic_flag lock` (`true` = set). -/
structure semaphore where
  value : Int
  lock : Bool
deriving DecidableEq, Repr

/-- The function `semaphore_init`: stores the initial value and clears the flag. -/
def semaphore_init (initial_value : Int) : semaphore :=
  { value := initial_value, lock := false }

/-- The call a thread starts when it is scheduled while outside any call. -/
inductive Call where
  | wait
  | signal
deriving DecidableEq, Repr

/-- Program counter of a thread: the atomic operation it executes next. -/
inductive Pc where
  | idle
  /-- `semaphore_wait`, `while (atomic_flag_test_and_set(&sem->lock))`. -/
  | w_tas
  /-- `semaphore_wait`, `if (atomic_load(&sem->value) > 0)`. -/
  | w_load
  /-- `semaphore_wait`, `atomic_fetch_sub(&sem->value, 1)`. -/
  | w_sub
  /-- `semaphore_wait`, `atomic_flag_clear(&sem->lock); break`. -/
  | w_clear_done
  /-- `semaphore_wait`, `atomic_flag_clear(&sem->lock); sched_yield()` and retry. -/
  | w_clear_retry
  /-- `semaphore_signal`, `while (atomic_flag_test_and_set(&sem->lock))`. -/
  | s_tas
  /-- `semaphore_signal`, `atomic_fetch_add(&sem->value, 1)`. -/
  | s_add
  /-- `semaphore_signal`, `atomic_flag_clear(&sem->lock)`. -/
  | s_clear
deriving DecidableEq, Repr

/-- The operation at which a scheduled thread stands: an idle thread enters the call. -/
def Pc.enter : Pc → Call → Pc
  | Pc.idle, Call.wait => Pc.w_tas
  | Pc.idle, Call.signal => Pc.s_tas
  | p, _ => p

/-- The semaphore, the program counters, and three history counters: increments performed
by `semaphore_signal`, and calls of `semaphore_signal` and `semaphore_wait` that returned. -/
structure State where
  sem : semaphore
  pc : Nat → Pc
  incs : Nat
  signals : Nat
  waits : Nat

/-- State after `semaphore_init(&sem, n)`. -/
def init (n : Int) : State :=
  { sem := semaphore_init n, pc := fun _ => Pc.idle, incs := 0, signals := 0, waits := 0 }

/-- One atomic step of thread `a.1`; `a.2` is the call it starts if it is idle. -/
def step (s : State) (a : Nat × Call) : State :=
  match (s.pc a.1).enter a.2 with
  | Pc.idle => s
  | Pc.w_tas =>
    if s.sem.lock then { s with pc := Function.update s.pc a.1 Pc.w_tas }
    else { s with sem := { s.sem with lock := true }, pc := Function.update s.pc a.1 Pc.w_load }
  | Pc.w_load =>
    if s.sem.value > 0 then { s with pc := Function.update s.pc a.1 Pc.w_sub }
    else { s with pc := Function.update s.pc a.1 Pc.w_clear_retry }
  | Pc.w_sub =>
    { s with sem := { s.sem with value := wrap32 (s.sem.value - 1) },
             pc := Function.update s.pc a.1 Pc.w_clear_done }
  | Pc.w_clear_done =>
    { s with sem := { s.sem with lock := false }, pc := Function.update s.pc a.1 Pc.idle,
             waits := s.waits + 1 }
  | Pc.w_clear_retry =>
    { s with sem := { s.sem with lock := false }, pc := Function.update s.pc a.1 Pc.w_tas }
  | Pc.s_tas =>
    if s.sem.lock then { s with pc := Function.update s.pc a.1 Pc.s_tas }
    else { s with sem := { s.sem with lock := true }, pc := Function.update s.pc a.1 Pc.s_add }
  | Pc.s_add =>
    { s with sem := { s.sem with value := wrap32 (s.sem.value + 1) },
             pc := Function.update s.pc a.1 Pc.s_clear, incs := s.incs + 1 }
  | Pc.s_clear =>
    { s with sem := { s.sem with lock := false }, pc := Function.update s.pc a.1 Pc.idle,
             signals := s.signals + 1 }

/-- The state reached from `semaphore_init(&sem, n)` along a schedule. -/
def run (n : Int) (sched : List (Nat × Call)) : State := runSched step (init n) sched

/-- The program points at which the thread has won the test-and-set and not yet cleared
the flag. -/
def Pc.locked : Pc → Bool
  | Pc.w_load | Pc.w_sub | Pc.w_clear_done | Pc.w_clear_retry | Pc.s_add | Pc.s_clear => true
  | _ => false

/-- A decrement performed by a `semaphore_wait` that has not returned yet. -/
def Pc.pendingDec : Pc → Int
  | Pc.w_clear_done => 1
  | _ => 0

/-- An increment performed by a `semaphore_signal` that has not returned yet. -/
def Pc.pendingInc : Pc → Nat
  | Pc.s_clear => 1
  | _ => 0

/-- The flag is set exactly while one thread, `hold`, is in the locked region. -/
def LockInv (s : State) (hold : Option Nat) : Prop :=
  (∀ t, (s.pc t).locked = true ↔ hold = some t) ∧ s.sem.lock = hold.isSome

/-- Counting invariant of the TAS semaphore initialised with `n`. -/
def CountInv (n : Int) (s : State) : Prop :=
  ∃ hold : Option Nat, LockInv s hold ∧
    s.sem.value = n + (s.incs : Int) - (s.waits : Int) -
        (match hold with | none => 0 | some t => (s.pc t).pendingDec) ∧
    s.incs = s.signals + (match hold with | none => 0 | some t => (s.pc t).pendingInc) ∧
    0 ≤ s.sem.value ∧ (∀ t, s.pc t = Pc.w_sub → 1 ≤ s.sem.value)

/-- No `atomic_fetch_add(&sem->value, 1)` of the schedule, run from `s`, is executed
while `value == INT_MAX`: the counter never wraps around. -/
def no_overflow : State → List (Nat × Call) → Bool
  | _, [] => true
  | s, a :: rest =>
    decide ((s.pc a.1).enter a.2 = Pc.s_add → s.sem.value < INT_MAX) &&
      no_overflow (step s a) rest

end tas_semaphore
/-! ## Ticket-lock semaphore (`hw1/task2/tl_semaphore.c`, `task2/tl_semaphore.h`) -/

namespace tl_semaphore

/-- The struct `semaphore` of `tl_semaphore.h`. -/
structure semaphore where
  cur_ticket : Int
  ticket : Int
  value : Int
deriving DecidableEq, Repr

/-- The function `semaphore_init`. -/
def semaphore_init (initial_value : Int) : semaphore :=
  { cur_ticket := 0, ticket := 0, value := initial_value }

/-- The two ticket counters of the semaphore, seen as a ticket lock. -/
def semaphore.tickets (sem : semaphore) : ticket_lock :=
  { cur_ticket := sem.cur_ticket, ticket := sem.ticket }

/-- `semaphore_wait`, `int my_ticket = atomic_fetch_add(&sem->ticket, 1)`. -/
def wait_fetch (sem : semaphore) : Int × semaphore :=
  (sem.ticket, { sem with ticket := wrap32 (sem.ticket + 1) })

/-- `semaphore_wait`, loop condition `atomic_load(&sem->cur_ticket) != my_ticket`. -/
def wait_spins_ticket (sem : semaphore) (my_ticket : Int) : Bool :=
  sem.cur_ticket != my_ticket

/-- `semaphore_wait`, loop condition `atomic_load(&sem->value) <= 0`. -/
def wait_spins_value (sem : semaphore) : Bool :=
  decide (sem.value ≤ 0)

/-- `semaphore_wait`, `atomic_fetch_sub(&sem->value, 1)`. -/
def wait_sub (sem : semaphore) : semaphore :=
  { sem with value := wrap32 (sem.value - 1) }

/-- `semaphore_wait`, `atomic_fetch_add(&sem->cur_ticket, 1)`. -/
def wait_next (sem : semaphore) : semaphore :=
  { sem with cur_ticket := wrap32 (sem.cur_ticket + 1) }

/-- The function `semaphore_signal`: `atomic_fetch_add(&sem->value, 1)`. -/
def semaphore_signal (sem : semaphore) : semaphore :=
  { sem with value := wrap32 (sem.value + 1) }

/-- The call a thread starts when it is scheduled while outside any call. -/
inductive Call where
  | wait
  | signal
deriving DecidableEq, Repr

/-- Program counter of a thread inside `semaphore_wait`. -/
inductive Pc where
  | idle
  /-- At `while (atomic_load(&sem->cur_ticket) != my_ticket)`. -/
  | w_spin (my_ticket : Int)
  /-- At `while (atomic_load(&sem->value) <= 0)`. -/
  | w_value
  /-- At `atomic_fetch_sub(&sem->value, 1)`. -/
  | w_sub
  /-- At `atomic_fetch_add(&sem->cur_ticket, 1)`. -/
  | w_next
deriving DecidableEq, Repr

/-- The semaphore, the program counters, and two history counters: calls of
`semaphore_signal` and of `semaphore_wait` that returned. -/
structure State where
  sem : semaphore
  pc : Nat → Pc
  signals : Nat
  waits : Nat

/-- State after `semaphore_init(&sem, n)`. -/
def init (n : Int) : State :=
  { sem := semaphore_init n, pc := fun _ => Pc.idle, signals := 0, waits := 0 }

/-- One atomic step of thread `a.1` (threads `≥ nthreads` do not exist); `a.2` is the call
the thread starts if it is idle.  `semaphore_signal` is a single atomic operation. -/
def step (nthreads : Nat) (s : State) (a : Nat × Call) : State :=
  if a.1 < nthreads then
    match s.pc a.1 with
    | Pc.idle =>
      match a.2 with
      | Call.wait =>
        { s with sem := (wait_fetch s.sem).2,
                 pc := Function.update s.pc a.1 (Pc.w_spin (wait_fetch s.sem).1) }
      | Call.signal => { s with sem := semaphore_signal s.sem, signals := s.signals + 1 }
    | Pc.w_spin my_ticket =>
      if wait_spins_ticket s.sem my_ticket then s
      else { s with pc := Function.update s.pc a.1 Pc.w_value }
    | Pc.w_value =>
      if wait_spins_value s.sem then s
      else { s with pc := Function.update s.pc a.1 Pc.w_sub }
    | Pc.w_sub => { s with sem := wait_sub s.sem, pc := Function.update s.pc a.1 Pc.w_next }
    | Pc.w_next =>
      { s with sem := wait_next s.sem, pc := Function.update s.pc a.1 Pc.idle,
               waits := s.waits + 1 }
  else s

/-- The state reached from `semaphore_init(&sem, n)` along a schedule. -/
def run (nthreads : Nat) (n : Int) (sched : List (Nat × Call)) : State :=
  runSched (step nthreads) (init n) sched

/-- Ticket phase of a program counter. -/
def Pc.phase : Pc → Phase
  | Pc.idle => Phase.out
  | Pc.w_spin m => Phase.spin m
  | Pc.w_value => Phase.held
  | Pc.w_sub => Phase.held
  | Pc.w_next => Phase.held

/-- Counting invariant of the ticket semaphore initialised with `n`. -/
def CountInv (nthreads : Nat) (n : Int) (s : State) : Prop :=
  (∃ (q : List Nat) (R : Nat), TLInv nthreads s.sem.tickets (fun t => (s.pc t).phase) q R) ∧
  (∀ t, s.pc t = Pc.w_next → s.sem.value = n + (s.signals : Int) - (s.waits : Int) - 1) ∧
  ((∀ t, s.pc t ≠ Pc.w_next) → s.sem.value = n + (s.signals : Int) - (s.waits : Int)) ∧
  0 ≤ s.sem.value ∧ (∀ t, s.pc t = Pc.w_sub → 1 ≤ s.sem.value)

/-- No `semaphore_signal` of the schedule, run from `s`, is executed while
`value == INT_MAX`: the counter never wraps around. -/
def no_overflow (nthreads : Nat) : State → List (Nat × Call) → Bool
  | _, [] => true
  | s, a :: rest =>
    decide (a.1 < nthreads → s.pc a.1 = Pc.idle → a.2 = Call.signal →
        s.sem.value < INT_MAX) &&
      no_overflow nthreads (step nthreads s a) rest

end tl_semaphore
/-! ## The ticket semaphore used as a mutex (`hw1/testmain.c`) -/

namespace testmain

open tl_semaphore

/-- Program counter of a thread running `thread_func`. -/
inductive Pc where
  /-- At the test `i < NUM_ITERATIONS` of the `for` loop. -/
  | loop
  /-- `semaphore_wait`, at `while (atomic_load(&sem->cur_ticket) != my_ticket)`. -/
  | w_spin (my_ticket : Int)
  /-- `semaphore_wait`, at `while (atomic_load(&sem->value) <= 0)`. -/
  | w_value
  /-- `semaphore_wait`, at `atomic_fetch_sub(&sem->value, 1)`. -/
  | w_sub
  /-- `semaphore_wait`, at `atomic_fetch_add(&sem->cur_ticket, 1)`. -/
  | w_next
  /-- `shared_counter++`, before the read of `shared_counter`. -/
  | cs_load
  /-- `shared_counter++`, holding the value read, before the write. -/
  | cs_store (tmp : Int)
  /-- At `semaphore_signal(&sem)`. -/
  | signal
  /-- After `return NULL`. -/
  | done
deriving DecidableEq, Repr

/-- The globals `sem` and `shared_counter`, and for each thread its program counter and
its loop variable `i`. -/
structure State where
  sem : semaphore
  shared_counter : Int
  pc : Nat → Pc
  i : Nat → Nat

/-- State after `semaphore_init(&sem, 1)` in `main`, when the threads are created. -/
def init : State :=
  { sem := semaphore_init 1, shared_counter := 0, pc := fun _ => Pc.loop, i := fun _ => 0 }

/-- One atomic step of thread `t` of `NUM_THREADS` threads.  The read and the write of the
non-atomic `shared_counter++` are separate steps. -/
def step (NUM_THREADS NUM_ITERATIONS : Nat) (s : State) (t : Nat) : State :=
  if t < NUM_THREADS then
    match s.pc t with
    | Pc.loop =>
      if s.i t < NUM_ITERATIONS then
        { s with sem := (wait_fetch s.sem).2,
                 pc := Function.update s.pc t (Pc.w_spin (wait_fetch s.sem).1) }
      else { s with pc := Function.update s.pc t Pc.done }
    | Pc.w_spin my_ticket =>
      if wait_spins_ticket s.sem my_ticket then s
      else { s with pc := Function.update s.pc t Pc.w_value }
    | Pc.w_value =>
      if wait_spins_value s.sem then s
      else { s with pc := Function.update s.pc t Pc.w_sub }
    | Pc.w_sub => { s with sem := wait_sub s.sem, pc := Function.update s.pc t Pc.w_next }
    | Pc.w_next => { s with sem := wait_next s.sem, pc := Function.update s.pc t Pc.cs_load }
    | Pc.cs_load => { s with pc := Function.update s.pc t (Pc.cs_store s.shared_counter) }
    | Pc.cs_store tmp =>
      { s with shared_counter := wrap32 (tmp + 1), pc := Function.update s.pc t Pc.signal }
    | Pc.signal =>
      { s with sem := semaphore_signal s.sem, pc := Function.update s.pc t Pc.loop,
               i := Function.update s.i t (s.i t + 1) }
    | Pc.done => s
  else s

/-- The state reached from `init` along a schedule. -/
def run (NUM_THREADS NUM_ITERATIONS : Nat) (sched : List Nat) : State :=
  runSched (step NUM_THREADS NUM_ITERATIONS) init sched

/-- Ticket phase of a program counter. -/
def Pc.phase : Pc → Phase
  | Pc.w_spin m => Phase.spin m
  | Pc.w_value => Phase.held
  | Pc.w_sub => Phase.held
  | Pc.w_next => Phase.held
  | _ => Phase.out

/-- Between the decrement of `value` in `semaphore_wait` and the increment in
`semaphore_signal`. -/
def Pc.owns : Pc → Bool
  | Pc.w_next | Pc.cs_load | Pc.cs_store _ | Pc.signal => true
  | _ => false

/-- Inside an iteration of the loop body. -/
def Pc.inBody : Pc → Bool
  | Pc.loop | Pc.done => false
  | _ => true

/-- An increment of `shared_counter` whose iteration is not yet counted in `i`. -/
def Pc.stored : Pc → Nat
  | Pc.signal => 1
  | _ => 0

/-- The increment stored by the thread `occ` between `semaphore_wait` and
`semaphore_signal`, if it is not yet counted in its `i`. -/
def occStored (pc : Nat → Pc) : Option Nat → Nat
  | none => 0
  | some u => (pc u).stored

/-- Invariant of the test program. -/
def Inv (T K : Nat) (s : State) : Prop :=
  (∃ (q : List Nat) (R : Nat), TLInv T s.sem.tickets (fun t => (s.pc t).phase) q R) ∧
  (∃ occ : Option Nat, (∀ u, (s.pc u).owns = true ↔ occ = some u) ∧
    s.sem.value = (if occ.isSome then 0 else 1) ∧
    s.shared_counter = wrap32 (((∑ u in Finset.range T, s.i u : Nat) : Int) +
      (occStored s.pc occ : Int))) ∧
  (∀ u, s.pc u = Pc.w_sub → 1 ≤ s.sem.value) ∧
  (∀ u tmp, s.pc u = Pc.cs_store tmp → tmp = s.shared_counter) ∧
  (∀ u, s.i u ≤ K ∧ ((s.pc u).inBody = true → s.i u < K) ∧ (s.pc u = Pc.done → s.i u = K)) ∧
  (∀ u, T ≤ u → s.pc u = Pc.loop)

end testmain

/-! ## Thread-local storage table (`task5/local_storage.c`)

Every operation runs between `tls_lock_acquire` and `tls_lock_release`, so the operations
are atomic with respect to each other; an operation is a function on the table `g_tls`.
`exit(code)` is `Except.error code`.  A `void*` is its address, `NULL` is `0`.
`MAX_THREADS` (declared in `local_storage.h`) is the length of the table.  The id of a
thread is `(int64_t)(uintptr_t)pthread_self()`; `-1` marks a free slot and is the id of
no thread. -/

namespace local_storage

/-- One slot of `g_tls`. -/
structure tls_data_t where
  thread_id : Int
  data : Nat
deriving DecidableEq, Repr

/-- The function `init_storage`: every slot becomes `(-1, NULL)`. -/
def init_storage (MAX_THREADS : Nat) : List tls_data_t :=
  List.replicate MAX_THREADS { thread_id := -1, data := 0 }

/-- The loop of `tls_thread_alloc` from index `i` on, with the current `first_free_slot`:
`none` when a slot of `tid` is met (early return), else the final `first_free_slot`. -/
def alloc_scan (tid : Int) : List tls_data_t → Nat → Int → Option Int
  | [], _, first_free_slot => some first_free_slot
  | slot :: rest, i, first_free_slot =>
    if slot.thread_id = tid then none
    else alloc_scan tid rest (i + 1)
      (if slot.thread_id = -1 ∧ first_free_slot = -1 then (i : Int) else first_free_slot)

/-- The function `tls_thread_alloc` run by the thread with id `tid`. -/
def tls_thread_alloc (tid : Int) (g_tls : List tls_data_t) : Except Nat (List tls_data_t) :=
  match alloc_scan tid g_tls 0 (-1) with
  | none => Except.ok g_tls
  | some first_free_slot =>
    if first_free_slot = -1 then Except.error 1
    else Except.ok (g_tls.set first_free_slot.toNat { thread_id := tid, data := 0 })

/-- The loop of `get_tls_data`: the data of the first slot of `tid`. -/
def get_scan (tid : Int) : List tls_data_t → Option Nat
  | [] => none
  | slot :: rest => if slot.thread_id = tid then some slot.data else get_scan tid rest

/-- The function `get_tls_data` run by the thread with id `tid`. -/
def get_tls_data (tid : Int) (g_tls : List tls_data_t) : Except Nat Nat :=
  match get_scan tid g_tls with
  | some result => Except.ok result
  | none => Except.error 2

/-- The loop of `set_tls_data`: store `data` in the first slot of `tid`. -/
def set_scan (tid : Int) (data : Nat) : List tls_data_t → Option (List tls_data_t)
  | [] => none
  | slot :: rest =>
    if slot.thread_id = tid then some ({ slot with data := data } :: rest)
    else (set_scan tid data rest).map (fun r => slot :: r)

/-- The function `set_tls_data` run by the thread with id `tid`. -/
def set_tls_data (tid : Int) (data : Nat) (g_tls : List tls_data_t) :
    Except Nat (List tls_data_t) :=
  match set_scan tid data g_tls with
  | some g => Except.ok g
  | none => Except.error 2

/-- The function `tls_thread_free` run by the thread with id `tid`: the first slot of
`tid` becomes `(-1, NULL)`. -/
def tls_thread_free (tid : Int) : List tls_data_t → List tls_data_t
  | [] => []
  | slot :: rest =>
    if slot.thread_id = tid then { thread_id := -1, data := 0 } :: rest
    else slot :: tls_thread_free tid rest

/-- A call of the library. -/
inductive Op where
  | alloc
  | get
  | set (data : Nat)
  | free
deriving DecidableEq, Repr

/-- The table after thread `tid` ran `op` (the process exits on an error). -/
def apply_op (tid : Int) (op : Op) (g_tls : List tls_data_t) : Except Nat (List tls_data_t) :=
  match op with
  | Op.alloc => tls_thread_alloc tid g_tls
  | Op.get => (get_tls_data tid g_tls).map (fun _ => g_tls)
  | Op.set data => set_tls_data tid data g_tls
  | Op.free => Except.ok (tls_thread_free tid g_tls)

/-- The table after a sequence of calls, each by the named thread. -/
def apply_ops : List (Int × Op) → List tls_data_t → Except Nat (List tls_data_t)
  | [], g_tls => Except.ok g_tls
  | (tid, op) :: rest, g_tls =>
    match apply_op tid op g_tls with
    | Except.ok g => apply_ops rest g
    | Except.error code => Except.error code

/-- The loop of `set_tls_data` as it acts on the memory of `g_tls`: the table when the loop
ends, and whether it ended by the `return` inside (a slot of `tid` was met). -/
def set_loop (tid : Int) (data : Nat) : List tls_data_t → List tls_data_t × Bool
  | [] => ([], false)
  | slot :: rest =>
    if slot.thread_id = tid then ({ slot with data := data } :: rest, true)
    else (slot :: (set_loop tid data rest).1, (set_loop tid data rest).2)

/-- Effect of one call on whether thread `tid` has allocated a slot and not freed it
since: an `alloc` of `tid` makes it so, a `free` of `tid` ends it. -/
def allocated_step (tid : Int) (before : Bool) (c : Int × Op) : Bool :=
  if c.1 = tid then
    match c.2 with
    | Op.alloc => true
    | Op.free => false
    | _ => before
  else before

/-- Whether, by the calls made since `init_storage`, thread `tid` has allocated a slot and
not freed it since. -/
def allocated (tid : Int) (calls : List (Int × Op)) : Bool :=
  calls.foldl (allocated_step tid) false

/-- Each thread id other than `-1` is the `thread_id` of at most one slot. -/
def Uniq (g : List tls_data_t) : Prop :=
  ∀ (i j : Nat) (s s' : tls_data_t), g[i]? = some s → g[j]? = some s' →
    s.thread_id = s'.thread_id → s.thread_id ≠ -1 → i = j

end local_storage
/-! ## Readers-writer lock (`hw1/task4/rw_lock.c`) -/

namespace rw_lock

/-- The struct `rwlock` set up by `rwlock_init`: reader count, writer flag, condition
variable and the internal ticket lock. -/
structure rwlock where
  readers : Int
  writer : Bool
  cv : condition_variable
  lock : ticket_lock
deriving DecidableEq, Repr

/-- The function `rwlock_init`. -/
def rwlock_init : rwlock :=
  { readers := 0, writer := false, cv := condition_variable_init, lock := ticketlock_init }

/-- The pair of calls a thread starts when it is scheduled while idle. -/
inductive Call where
  /-- `rwlock_acquire_read`, later `rwlock_release_read`. -/
  | read
  /-- `rwlock_acquire_write`, later `rwlock_release_write`. -/
  | write
deriving DecidableEq, Repr

/-- Program counter: the atomic operation the thread executes next. -/
inductive Pc where
  | idle
  /-- `rwlock_acquire_read`: `ticketlock_acquire(&lock->lock)`, the fetch-and-add. -/
  | r_fetch
  /-- `rwlock_acquire_read`: `ticketlock_acquire(&lock->lock)`, the spin loop. -/
  | r_spin (my_ticket : Int)
  /-- `rwlock_acquire_read`: `if (!atomic_flag_test_and_set(&lock->writer))`. -/
  | r_tas
  /-- `rwlock_acquire_read`: `atomic_flag_clear(&lock->writer)`, "just a peek". -/
  | r_clear
  /-- `rwlock_acquire_read`: `atomic_fetch_add(&lock->readers, 1)`. -/
  | r_inc
  /-- `rwlock_acquire_read`: `ticketlock_release(&lock->lock); break`. -/
  | r_release
  /-- `rwlock_acquire_read`: inside `condition_variable_wait(&lock->cv, &lock->lock)`. -/
  | r_wait (c : CvPc)
  /-- `rwlock_acquire_read`: `ticketlock_release(&lock->lock)` after the wait; loop again. -/
  | r_retry
  /-- In the read section; next `rwlock_release_read`: `atomic_fetch_sub(&lock->readers, 1)`. -/
  | reading
  /-- `rwlock_release_read`: `condition_variable_signal`, the load of `waiters`. -/
  | rr_signal
  /-- `rwlock_release_read`: `condition_variable_signal`, `atomic_flag_clear(&cv->lock)`. -/
  | rr_clear
  /-- `rwlock_acquire_write`: `ticketlock_acquire(&lock->lock)`, the fetch-and-add. -/
  | w_fetch
  /-- `rwlock_acquire_write`: `ticketlock_acquire(&lock->lock)`, the spin loop. -/
  | w_spin (my_ticket : Int)
  /-- `rwlock_acquire_write`: loop condition, `atomic_load(&lock->readers) > 0`. -/
  | w_readers
  /-- `rwlock_acquire_write`: loop condition, `atomic_flag_test_and_set(&lock->writer)`. -/
  | w_tas
  /-- `rwlock_acquire_write`: inside `condition_variable_wait(&lock->cv, &lock->lock)`. -/
  | w_wait (c : CvPc)
  /-- `rwlock_acquire_write`: the second `atomic_flag_test_and_set(&lock->writer)`. -/
  | w_tas2
  /-- `rwlock_acquire_write`: `ticketlock_release(&lock->lock)`. -/
  | w_release
  /-- In the write section; next `rwlock_release_write`: `atomic_flag_clear(&lock->writer)`. -/
  | writing
  /-- `rwlock_release_write`: `condition_variable_broadcast`, `int w = atomic_load(...)`. -/
  | wb_load
  /-- `rwlock_release_write`: `condition_variable_broadcast`, loop test `i < w`. -/
  | wb_loop (i w : Int)
deriving DecidableEq, Repr

/-- The operation at which a scheduled thread stands: an idle thread enters the call. -/
def Pc.enter : Pc → Call → Pc
  | Pc.idle, Call.read => Pc.r_fetch
  | Pc.idle, Call.write => Pc.w_fetch
  | p, _ => p

/-- The lock `g_lock` and the program counters. -/
structure State where
  lock : rwlock
  pc : Nat → Pc

/-- State after `rwlock_init(&g_lock)`. -/
def init : State := { lock := rwlock_init, pc := fun _ => Pc.idle }

/-- Continuation of `rwlock_acquire_read` after a step of `condition_variable_wait`. -/
def r_after : Option CvPc → Pc
  | some c => Pc.r_wait c
  | none => Pc.r_retry

/-- Continuation of `rwlock_acquire_write` after a step of `condition_variable_wait`. -/
def w_after : Option CvPc → Pc
  | some c => Pc.w_wait c
  | none => Pc.w_readers

/-- One atomic step of thread `a.1` of `n` threads; `a.2` is the call an idle thread
starts. -/
def step (n : Nat) (s : State) (a : Nat × Call) : State :=
  if a.1 < n then
    match (s.pc a.1).enter a.2 with
    | Pc.idle => s
    | Pc.r_fetch =>
      { lock := { s.lock with lock := (ticketlock_acquire_fetch s.lock.lock).2 },
        pc := Function.update s.pc a.1 (Pc.r_spin (ticketlock_acquire_fetch s.lock.lock).1) }
    | Pc.r_spin my_ticket =>
      if ticketlock_acquire_spins s.lock.lock my_ticket then s
      else { s with pc := Function.update s.pc a.1 Pc.r_tas }
    | Pc.r_tas =>
      if s.lock.writer then { s with pc := Function.update s.pc a.1 (Pc.r_wait CvPc.inc) }
      else { lock := { s.lock with writer := true }, pc := Function.update s.pc a.1 Pc.r_clear }
    | Pc.r_clear =>
      { lock := { s.lock with writer := false }, pc := Function.update s.pc a.1 Pc.r_inc }
    | Pc.r_inc =>
      { lock := { s.lock with readers := wrap32 (s.lock.readers + 1) },
        pc := Function.update s.pc a.1 Pc.r_release }
    | Pc.r_release =>
      { lock := { s.lock with lock := ticketlock_release s.lock.lock },
        pc := Function.update s.pc a.1 Pc.reading }
    | Pc.r_wait c =>
      { lock := { s.lock with
                  cv := (condition_variable_wait_step s.lock.cv s.lock.lock c).1,
                  lock := (condition_variable_wait_step s.lock.cv s.lock.lock c).2.1 },
        pc := Function.update s.pc a.1
          (r_after (condition_variable_wait_step s.lock.cv s.lock.lock c).2.2) }
    | Pc.r_retry =>
      { lock := { s.lock with lock := ticketlock_release s.lock.lock },
        pc := Function.update s.pc a.1 Pc.r_fetch }
    | Pc.reading =>
      { lock := { s.lock with readers := wrap32 (s.lock.readers - 1) },
        pc := Function.update s.pc a.1
          (if s.lock.readers - 1 = 0 then Pc.rr_signal else Pc.idle) }
    | Pc.rr_signal =>
      if condition_variable_signal_test s.lock.cv then
        { s with pc := Function.update s.pc a.1 Pc.rr_clear }
      else { s with pc := Function.update s.pc a.1 Pc.idle }
    | Pc.rr_clear =>
      { lock := { s.lock with cv := condition_variable_clear s.lock.cv },
        pc := Function.update s.pc a.1 Pc.idle }
    | Pc.w_fetch =>
      { lock := { s.lock with lock := (ticketlock_acquire_fetch s.lock.lock).2 },
        pc := Function.update s.pc a.1 (Pc.w_spin (ticketlock_acquire_fetch s.lock.lock).1) }
    | Pc.w_spin my_ticket =>
      if ticketlock_acquire_spins s.lock.lock my_ticket then s
      else { s with pc := Function.update s.pc a.1 Pc.w_readers }
    | Pc.w_readers =>
      if s.lock.readers > 0 then
        { s with pc := Function.update s.pc a.1 (Pc.w_wait CvPc.inc) }
      else { s with pc := Function.update s.pc a.1 Pc.w_tas }
    | Pc.w_tas =>
      if s.lock.writer then { s with pc := Function.update s.pc a.1 (Pc.w_wait CvPc.inc) }
      else { lock := { s.lock with writer := true }, pc := Function.update s.pc a.1 Pc.w_tas2 }
    | Pc.w_wait c =>
      { lock := { s.lock with
                  cv := (condition_variable_wait_step s.lock.cv s.lock.lock c).1,
                  lock := (condition_variable_wait_step s.lock.cv s.lock.lock c).2.1 },
        pc := Function.update s.pc a.1
          (w_after (condition_variable_wait_step s.lock.cv s.lock.lock c).2.2) }
    | Pc.w_tas2 =>
      { lock := { s.lock with writer := true }, pc := Function.update s.pc a.1 Pc.w_release }
    | Pc.w_release =>
      { lock := { s.lock with lock := ticketlock_release s.lock.lock },
        pc := Function.update s.pc a.1 Pc.writing }
    | Pc.writing =>
      { lock := { s.lock with writer := false }, pc := Function.update s.pc a.1 Pc.wb_load }
    | Pc.wb_load =>
      { s with pc := Function.update s.pc a.1 (Pc.wb_loop 0 s.lock.cv.waiters) }
    | Pc.wb_loop i w =>
      if i < w then
        { lock := { s.lock with cv := condition_variable_clear s.lock.cv },
          pc := Function.update s.pc a.1 (Pc.wb_loop (i + 1) w) }
      else { s with pc := Function.update s.pc a.1 Pc.idle }
  else s

/-- The state reached from `init` along a schedule. -/
def run (n : Nat) (sched : List (Nat × Call)) : State := runSched (step n) init sched

/-- Phase of a program counter with respect to the internal ticket lock. -/
def Pc.phase : Pc → Phase
  | Pc.r_spin m => Phase.spin m
  | Pc.w_spin m => Phase.spin m
  | Pc.r_wait c => c.phase
  | Pc.w_wait c => c.phase
  | Pc.r_tas | Pc.r_clear | Pc.r_inc | Pc.r_release | Pc.r_retry => Phase.held
  | Pc.w_readers | Pc.w_tas | Pc.w_tas2 | Pc.w_release => Phase.held
  | _ => Phase.out

/-- What a program counter means for the reader count and the writer flag. -/
inductive Mode where
  | plain
  /-- A reader that set the writer flag by its peek and has not cleared it yet. -/
  | peek
  /-- A reader about to increment `readers`. -/
  | rinc
  /-- A reader counted in `readers`. -/
  | counted
  /-- A writer that found `readers == 0` and is about to test-and-set the flag. -/
  | wtas
  /-- A writer that set the writer flag and has not cleared it yet. -/
  | wowner
deriving DecidableEq, Repr

/-- Mode of a program counter. -/
def Pc.mode : Pc → Mode
  | Pc.r_clear => Mode.peek
  | Pc.r_inc => Mode.rinc
  | Pc.r_release | Pc.reading => Mode.counted
  | Pc.w_tas => Mode.wtas
  | Pc.w_tas2 | Pc.w_release | Pc.writing => Mode.wowner
  | _ => Mode.plain

/-- The thread has set the writer flag and not cleared it. -/
def Mode.holdsFlag : Mode → Bool
  | Mode.peek | Mode.wowner => true
  | _ => false

/-- Invariant of the readers-writer lock, in terms of phases and modes. -/
def InvV (n : Nat) (l : ticket_lock) (writer : Bool) (readers : Int)
    (ph : Nat → Phase) (md : Nat → Mode) : Prop :=
  (∃ (q : List Nat) (R : Nat), TLInv n l ph q R) ∧
  (∃ own : Option Nat, (∀ u, (md u).holdsFlag = true ↔ own = some u) ∧ writer = own.isSome) ∧
  (∃ rs : List Nat, rs.Nodup ∧ (∀ u ∈ rs, u < n) ∧ (∀ u, u ∈ rs ↔ md u = Mode.counted) ∧
    readers = (rs.length : Int)) ∧
  (∀ u v, md u = Mode.wowner → md v ≠ Mode.counted) ∧
  (∀ u v, md u = Mode.rinc → md v ≠ Mode.wowner) ∧
  (∀ u v, md u = Mode.wtas → md v ≠ Mode.counted) ∧
  (∀ u, md u = Mode.peek ∨ md u = Mode.rinc ∨ md u = Mode.wtas → ph u = Phase.held)

/-- Invariant of a state of the readers-writer lock. -/
def Inv (n : Nat) (s : State) : Prop :=
  InvV n s.lock.lock s.lock.writer s.lock.readers (fun u => (s.pc u).phase)
    (fun u => (s.pc u).mode)

end rw_lock

/-! ## Producer/consumer driver (`task6/cp_pattern.c`) -/

namespace cp_pattern

/-- The constant `MAX_NUM`. -/
def MAX_NUM : Nat := 1000000

/-- The queue globals `queue_head`, `queue_tail` and the memory of the nodes: the fields
`value` and `next` of the node at each address, and the addresses handed out by `malloc`
and not yet passed to `free`.  The address `0` is `NULL`. -/
structure Queue where
  queue_head : Nat
  queue_tail : Nat
  value : Nat → Nat
  next : Nat → Nat
  live : List Nat

/-- The producer's enqueue step with the node `new_node` returned by `malloc`:
`new_node->value = num; new_node->next = NULL; if (queue_tail) queue_tail->next = new_node;
else queue_head = new_node; queue_tail = new_node;`. -/
def enqueue (q : Queue) (new_node num : Nat) : Queue :=
  if q.queue_tail ≠ 0 then
    { queue_head := q.queue_head, queue_tail := new_node,
      value := Function.update q.value new_node num,
      next := Function.update (Function.update q.next new_node 0) q.queue_tail new_node,
      live := new_node :: q.live }
  else
    { queue_head := new_node, queue_tail := new_node,
      value := Function.update q.value new_node num,
      next := Function.update q.next new_node 0,
      live := new_node :: q.live }

/-- The consumer's dequeue step: `node = queue_head; num = node->value;
queue_head = node->next; if (queue_head == NULL) queue_tail = NULL;`. -/
def dequeue (q : Queue) : Queue :=
  { q with queue_head := q.next q.queue_head,
           queue_tail := if q.next q.queue_head = 0 then 0 else q.queue_tail }

/-- The call `free(node)`. -/
def free (q : Queue) (node : Nat) : Queue := { q with live := q.live.erase node }

/-- Program counter: the operation the thread executes next. -/
inductive Pc where
  /-- `producer_thread`: loop test `atomic_load(&produced_count) < MAX_NUM`, then `rand()`. -/
  | p_check
  /-- `producer_thread`: `ticketlock_acquire(&queue_lock)`, the fetch-and-add. -/
  | p_fetch (num : Nat)
  /-- `producer_thread`: `ticketlock_acquire(&queue_lock)`, the spin loop. -/
  | p_spin (num : Nat) (my_ticket : Int)
  /-- `producer_thread`: `if (!seen[num])`. -/
  | p_seen (num : Nat)
  /-- `producer_thread`: `seen[num] = 1` (and the `printf`). -/
  | p_mark (num : Nat)
  /-- `producer_thread`: `malloc` and the enqueue step. -/
  | p_enqueue (num : Nat)
  /-- `producer_thread`: `atomic_fetch_add(&produced_count, 1)`. -/
  | p_count
  /-- `producer_thread`: `condition_variable_signal(&produced_done)`, the load. -/
  | p_done_signal
  /-- `producer_thread`: `condition_variable_signal(&produced_done)`, the clear. -/
  | p_done_clear
  /-- `producer_thread`: `condition_variable_signal(&is_empty)`, the load. -/
  | p_empty_signal
  /-- `producer_thread`: `condition_variable_signal(&is_empty)`, the clear. -/
  | p_empty_clear
  /-- `producer_thread`: `ticketlock_release(&queue_lock)`. -/
  | p_release
  /-- `producer_thread` returned. -/
  | p_return
  /-- `consumer_thread`: `ticketlock_acquire(&queue_lock)`, the fetch-and-add. -/
  | c_fetch
  /-- `consumer_thread`: `ticketlock_acquire(&queue_lock)`, the spin loop. -/
  | c_spin (my_ticket : Int)
  /-- `consumer_thread`: loop test `queue_head == NULL`. -/
  | c_head
  /-- `consumer_thread`: `if (atomic_load(&stop_flag))`. -/
  | c_stop
  /-- `consumer_thread`: `ticketlock_release(&queue_lock); return NULL`. -/
  | c_exit_release
  /-- `consumer_thread`: inside `condition_variable_wait(&is_empty, &queue_lock)`. -/
  | c_wait (c : CvPc)
  /-- `consumer_thread`: the dequeue step. -/
  | c_dequeue
  /-- `consumer_thread`: `ticketlock_release(&queue_lock)` after the dequeue. -/
  | c_release (node num : Nat)
  /-- `consumer_thread`: `free(node)`. -/
  | c_free (node num : Nat)
  /-- `print_msg`: `ticketlock_acquire(&print_lock)`, the fetch-and-add. -/
  | c_print_fetch
  /-- `print_msg`: `ticketlock_acquire(&print_lock)`, the spin loop. -/
  | c_print_spin (my_ticket : Int)
  /-- `print_msg`: `printf`, then `ticketlock_release(&print_lock)`. -/
  | c_print_release
  /-- `consumer_thread` returned. -/
  | c_return
  /-- `wait_until_producers_produced_all_numbers`: `ticketlock_acquire`, the fetch-and-add. -/
  | m_fetch
  /-- `wait_until_producers_produced_all_numbers`: `ticketlock_acquire`, the spin loop. -/
  | m_spin (my_ticket : Int)
  /-- `wait_until_producers_produced_all_numbers`: loop test `produced_count < MAX_NUM`. -/
  | m_check
  /-- `wait_until_producers_produced_all_numbers`: inside
  `condition_variable_wait(&produced_done, &queue_lock)`. -/
  | m_wait (c : CvPc)
  /-- `wait_until_producers_produced_all_numbers`: `ticketlock_release(&queue_lock)`. -/
  | m_release
  /-- `wait_consumers_queue_empty`: `ticketlock_acquire`, the fetch-and-add. -/
  | e_fetch
  /-- `wait_consumers_queue_empty`: `ticketlock_acquire`, the spin loop. -/
  | e_spin (my_ticket : Int)
  /-- `wait_consumers_queue_empty`:
  `if (queue_head == NULL && atomic_load(&produced_count) == MAX_NUM)`. -/
  | e_check
  /-- `wait_consumers_queue_empty`: `ticketlock_release(&queue_lock); return`. -/
  | e_release_return
  /-- `wait_consumers_queue_empty`: `ticketlock_release(&queue_lock); sched_yield()`. -/
  | e_release_retry
  /-- `stop_consumers`: `atomic_store(&stop_flag, 1)`. -/
  | m_stop
  /-- `stop_consumers`: `condition_variable_broadcast(&is_empty)`, the load of `waiters`. -/
  | m_bc_load
  /-- `stop_consumers`: `condition_variable_broadcast(&is_empty)`, loop test `i < w`. -/
  | m_bc_loop (i w : Int)
  /-- `main`: the `pthread_join` loops. -/
  | m_join
  /-- `main` returned 0. -/
  | m_return
deriving DecidableEq, Repr

/-- The globals of `cp_pattern.c`, the program counters, whether `exit(1)` was called, and
two history variables: the values in the order in which they were enqueued and in the
order in which they were dequeued. -/
structure State where
  seen : Nat → Bool
  q : Queue
  queue_lock : ticket_lock
  is_empty : condition_variable
  produced_count : Int
  stop_flag : Int
  print_lock : ticket_lock
  produced_done : condition_variable
  pc : Nat → Pc
  exited : Bool
  enq : List Nat
  deq : List Nat

/-- State after `start_consumers_producers(consumers, producers, seed)`: thread 0 is
`main`, about to call `wait_until_producers_produced_all_numbers`; threads
`1 .. producers` run `producer_thread`; the next `consumers` threads run
`consumer_thread`. -/
def init (producers : Nat) : State :=
  { seen := fun _ => false,
    q := { queue_head := 0, queue_tail := 0, value := fun _ => 0, next := fun _ => 0, live := [] },
    queue_lock := ticketlock_init,
    is_empty := condition_variable_init,
    produced_count := 0,
    stop_flag := 0,
    print_lock := ticketlock_init,
    produced_done := condition_variable_init,
    pc := fun t => if t = 0 then Pc.m_fetch else if t ≤ producers then Pc.p_check else Pc.c_fetch,
    exited := false,
    enq := [],
    deq := [] }

/-- Continuation of `consumer_thread` after a step of `condition_variable_wait`. -/
def c_after : Option CvPc → Pc
  | some c => Pc.c_wait c
  | none => Pc.c_head

/-- Continuation of `wait_until_producers_produced_all_numbers` after a step of
`condition_variable_wait`. -/
def m_after : Option CvPc → Pc
  | some c => Pc.m_wait c
  | none => Pc.m_check

/-- Every producer and consumer thread has returned (what the `pthread_join` loops wait
for). -/
def all_joined (nthreads : Nat) (pc : Nat → Pc) : Bool :=
  (List.range nthreads).all (fun u => decide (u = 0 ∨ pc u = Pc.p_return ∨ pc u = Pc.c_return))

/-- A schedule entry: the thread that takes a step, the value `rand()` returns if the
step calls it, and the address `malloc` returns if the step calls it. -/
structure Act where
  t : Nat
  rand : Nat
  addr : Nat
deriving DecidableEq, Repr

/-- One atomic step of the thread `a.t` of `1 + producers + consumers` threads; after
`exit(1)` nothing runs. -/
def step (max_num producers consumers : Nat) (s : State) (a : Act) : State :=
  if s.exited = true ∨ ¬ (a.t < 1 + producers + consumers) then s
  else
    match s.pc a.t with
    | Pc.p_check =>
      if s.produced_count < (max_num : Int) then
        { s with pc := Function.update s.pc a.t (Pc.p_fetch (a.rand % max_num)) }
      else { s with pc := Function.update s.pc a.t Pc.p_return }
    | Pc.p_fetch num =>
      { s with queue_lock := (ticketlock_acquire_fetch s.queue_lock).2,
               pc := Function.update s.pc a.t
                 (Pc.p_spin num (ticketlock_acquire_fetch s.queue_lock).1) }
    | Pc.p_spin num my_ticket =>
      if ticketlock_acquire_spins s.queue_lock my_ticket then s
      else { s with pc := Function.update s.pc a.t (Pc.p_seen num) }
    | Pc.p_seen num =>
      if s.seen num then { s with pc := Function.update s.pc a.t Pc.p_release }
      else { s with pc := Function.update s.pc a.t (Pc.p_mark num) }
    | Pc.p_mark num =>
      { s with seen := Function.update s.seen num true,
               pc := Function.update s.pc a.t (Pc.p_enqueue num) }
    | Pc.p_enqueue num =>
      if a.addr = 0 then { s with exited := true }
      else if a.addr ∈ s.q.live then s
      else
        { s with q := enqueue s.q a.addr num, enq := s.enq ++ [num],
                 pc := Function.update s.pc a.t Pc.p_count }
    | Pc.p_count =>
      { s with produced_count := wrap32 (s.produced_count + 1),
               pc := Function.update s.pc a.t
                 (if s.produced_count + 1 = (max_num : Int) then Pc.p_done_signal
                  else Pc.p_empty_signal) }
    | Pc.p_done_signal =>
      if condition_variable_signal_test s.produced_done then
        { s with pc := Function.update s.pc a.t Pc.p_done_clear }
      else { s with pc := Function.update s.pc a.t Pc.p_empty_signal }
    | Pc.p_done_clear =>
      { s with produced_done := condition_variable_clear s.produced_done,
               pc := Function.update s.pc a.t Pc.p_empty_signal }
    | Pc.p_empty_signal =>
      if condition_variable_signal_test s.is_empty then
        { s with pc := Function.update s.pc a.t Pc.p_empty_clear }
      else { s with pc := Function.update s.pc a.t Pc.p_release }
    | Pc.p_empty_clear =>
      { s with is_empty := condition_variable_clear s.is_empty,
               pc := Function.update s.pc a.t Pc.p_release }
    | Pc.p_release =>
      { s with queue_lock := ticketlock_release s.queue_lock,
               pc := Function.update s.pc a.t Pc.p_check }
    | Pc.p_return => s
    | Pc.c_fetch =>
      { s with queue_lock := (ticketlock_acquire_fetch s.queue_lock).2,
               pc := Function.update s.pc a.t (Pc.c_spin (ticketlock_acquire_fetch s.queue_lock).1) }
    | Pc.c_spin my_ticket =>
      if ticketlock_acquire_spins s.queue_lock my_ticket then s
      else { s with pc := Function.update s.pc a.t Pc.c_head }
    | Pc.c_head =>
      if s.q.queue_head = 0 then { s with pc := Function.update s.pc a.t Pc.c_stop }
      else { s with pc := Function.update s.pc a.t Pc.c_dequeue }
    | Pc.c_stop =>
      if s.stop_flag ≠ 0 then { s with pc := Function.update s.pc a.t Pc.c_exit_release }
      else { s with pc := Function.update s.pc a.t (Pc.c_wait CvPc.inc) }
    | Pc.c_exit_release =>
      { s with queue_lock := ticketlock_release s.queue_lock,
               pc := Function.update s.pc a.t Pc.c_return }
    | Pc.c_wait c =>
      { s with is_empty := (condition_variable_wait_step s.is_empty s.queue_lock c).1,
               queue_lock := (condition_variable_wait_step s.is_empty s.queue_lock c).2.1,
               pc := Function.update s.pc a.t
                 (c_after (condition_variable_wait_step s.is_empty s.queue_lock c).2.2) }
    | Pc.c_dequeue =>
      { s with q := dequeue s.q, deq := s.deq ++ [s.q.value s.q.queue_head],
               pc := Function.update s.pc a.t
                 (Pc.c_release s.q.queue_head (s.q.value s.q.queue_head)) }
    | Pc.c_release node num =>
      { s with queue_lock := ticketlock_release s.queue_lock,
               pc := Function.update s.pc a.t (Pc.c_free node num) }
    | Pc.c_free node _ =>
      { s with q := free s.q node, pc := Function.update s.pc a.t Pc.c_print_fetch }
    | Pc.c_print_fetch =>
      { s with print_lock := (ticketlock_acquire_fetch s.print_lock).2,
               pc := Function.update s.pc a.t
                 (Pc.c_print_spin (ticketlock_acquire_fetch s.print_lock).1) }
    | Pc.c_print_spin my_ticket =>
      if ticketlock_acquire_spins s.print_lock my_ticket then s
      else { s with pc := Function.update s.pc a.t Pc.c_print_release }
    | Pc.c_print_release =>
      { s with print_lock := ticketlock_release s.print_lock,
               pc := Function.update s.pc a.t Pc.c_fetch }
    | Pc.c_return => s
    | Pc.m_fetch =>
      { s with queue_lock := (ticketlock_acquire_fetch s.queue_lock).2,
               pc := Function.update s.pc a.t (Pc.m_spin (ticketlock_acquire_fetch s.queue_lock).1) }
    | Pc.m_spin my_ticket =>
      if ticketlock_acquire_spins s.queue_lock my_ticket then s
      else { s with pc := Function.update s.pc a.t Pc.m_check }
    | Pc.m_check =>
      if s.produced_count < (max_num : Int) then
        { s with pc := Function.update s.pc a.t (Pc.m_wait CvPc.inc) }
      else { s with pc := Function.update s.pc a.t Pc.m_release }
    | Pc.m_wait c =>
      { s with produced_done := (condition_variable_wait_step s.produced_done s.queue_lock c).1,
               queue_lock := (condition_variable_wait_step s.produced_done s.queue_lock c).2.1,
               pc := Function.update s.pc a.t
                 (m_after (condition_variable_wait_step s.produced_done s.queue_lock c).2.2) }
    | Pc.m_release =>
      { s with queue_lock := ticketlock_release s.queue_lock,
               pc := Function.update s.pc a.t Pc.e_fetch }
    | Pc.e_fetch =>
      { s with queue_lock := (ticketlock_acquire_fetch s.queue_lock).2,
               pc := Function.update s.pc a.t (Pc.e_spin (ticketlock_acquire_fetch s.queue_lock).1) }
    | Pc.e_spin my_ticket =>
      if ticketlock_acquire_spins s.queue_lock my_ticket then s
      else { s with pc := Function.update s.pc a.t Pc.e_check }
    | Pc.e_check =>
      if s.q.queue_head = 0 ∧ s.produced_count = (max_num : Int) then
        { s with pc := Function.update s.pc a.t Pc.e_release_return }
      else { s with pc := Function.update s.pc a.t Pc.e_release_retry }
    | Pc.e_release_return =>
      { s with queue_lock := ticketlock_release s.queue_lock,
               pc := Function.update s.pc a.t Pc.m_stop }
    | Pc.e_release_retry =>
      { s with queue_lock := ticketlock_release s.queue_lock,
               pc := Function.update s.pc a.t Pc.e_fetch }
    | Pc.m_stop => { s with stop_flag := 1, pc := Function.update s.pc a.t Pc.m_bc_load }
    | Pc.m_bc_load =>
      { s with pc := Function.update s.pc a.t (Pc.m_bc_loop 0 s.is_empty.waiters) }
    | Pc.m_bc_loop i w =>
      if i < w then
        { s with is_empty := condition_variable_clear s.is_empty,
                 pc := Function.update s.pc a.t (Pc.m_bc_loop (i + 1) w) }
      else { s with pc := Function.update s.pc a.t Pc.m_join }
    | Pc.m_join =>
      if all_joined (1 + producers + consumers) s.pc then
        { s with pc := Function.update s.pc a.t Pc.m_return }
      else s
    | Pc.m_return => s

/-- The state reached from `init` along a schedule. -/
def run (max_num producers consumers : Nat) (sched : List Act) : State :=
  runSched (step max_num producers consumers) (init producers) sched

/-- The number of indices `n < max_num` with `seen[n]` set. -/
def seen_count (max_num : Nat) (s : State) : Nat :=
  ((Finset.range max_num).filter (fun v => s.seen v = true)).card

/-- Phase of a program counter with respect to `queue_lock`. -/
def Pc.phase : Pc → Phase
  | Pc.p_spin _ m => Phase.spin m
  | Pc.c_spin m => Phase.spin m
  | Pc.m_spin m => Phase.spin m
  | Pc.e_spin m => Phase.spin m
  | Pc.c_wait c => c.phase
  | Pc.m_wait c => c.phase
  | Pc.p_seen _ | Pc.p_mark _ | Pc.p_enqueue _ | Pc.p_count | Pc.p_done_signal
  | Pc.p_done_clear | Pc.p_empty_signal | Pc.p_empty_clear | Pc.p_release => Phase.held
  | Pc.c_head | Pc.c_stop | Pc.c_exit_release | Pc.c_dequeue | Pc.c_release _ _ => Phase.held
  | Pc.m_check | Pc.m_release | Pc.e_check | Pc.e_release_return | Pc.e_release_retry =>
    Phase.held
  | _ => Phase.out

/-- The node a consumer has dequeued and not yet freed. -/
def Pc.heldNode : Pc → Option Nat
  | Pc.c_release node _ => some node
  | Pc.c_free node _ => some node
  | _ => none

/-- What a producer's program counter says about the value it carries. -/
inductive VTag where
  | none
  /-- Drawn, not yet tested against `seen`. -/
  | num (v : Nat)
  /-- Found unseen, about to be marked. -/
  | mark (v : Nat)
  /-- Marked in `seen`, not yet enqueued. -/
  | enqueue (v : Nat)
deriving DecidableEq, Repr

/-- The value tag of a program counter. -/
def Pc.vtag : Pc → VTag
  | Pc.p_fetch v => VTag.num v
  | Pc.p_spin v _ => VTag.num v
  | Pc.p_seen v => VTag.num v
  | Pc.p_mark v => VTag.mark v
  | Pc.p_enqueue v => VTag.enqueue v
  | _ => VTag.none

/-- The producer has enqueued and not yet incremented `produced_count`. -/
def Pc.counting : Pc → Bool
  | Pc.p_count => true
  | _ => false

/-- The consumer is about to dequeue. -/
def Pc.dequeuing : Pc → Bool
  | Pc.c_dequeue => true
  | _ => false

/-- What a program counter says about the shutdown. -/
inductive Shut where
  | none
  /-- `wait_consumers_queue_empty` has decided to return or has returned; `stop_flag` is
  not yet stored. -/
  | ret
  /-- `stop_flag` is stored. -/
  | stopped
  /-- A consumer has read `stop_flag` set. -/
  | cexit
deriving DecidableEq, Repr

/-- The shutdown tag of a program counter. -/
def Pc.shut : Pc → Shut
  | Pc.e_release_return | Pc.m_stop => Shut.ret
  | Pc.m_bc_load | Pc.m_bc_loop _ _ | Pc.m_join | Pc.m_return => Shut.stopped
  | Pc.c_exit_release | Pc.c_return => Shut.cexit
  | _ => Shut.none

/-- The thread has returned from `wait_consumers_queue_empty`. -/
def Pc.returned : Pc → Bool
  | Pc.m_stop | Pc.m_bc_load | Pc.m_bc_loop _ _ | Pc.m_join | Pc.m_return => true
  | _ => false

/-- The list segment from `p` to `NULL`: the nodes with their values, in order. -/
def Chain (next value : Nat → Nat) : Nat → List (Nat × Nat) → Prop
  | p, [] => p = 0
  | p, (a, v) :: rest => p = a ∧ a ≠ 0 ∧ value a = v ∧ Chain next value (next a) rest

/-- The address of the last node of a list of nodes, `NULL` for the empty list. -/
def lastAddr : List (Nat × Nat) → Nat
  | [] => 0
  | [(a, _)] => a
  | _ :: b :: rest => lastAddr (b :: rest)

/-- The queue is a well-formed list whose values are the values enqueued and not yet
dequeued; nodes in the queue and nodes held by consumers are live and distinct. -/
def InvQ (q : Queue) (enq deq : List Nat) (hn : Nat → Option Nat) (dq : Nat → Bool) : Prop :=
  (∃ nodes : List (Nat × Nat), Chain q.next q.value q.queue_head nodes ∧
    q.queue_tail = lastAddr nodes ∧ (nodes.map Prod.fst).Nodup ∧
    (∀ a ∈ nodes.map Prod.fst, a ∈ q.live) ∧ enq = deq ++ nodes.map Prod.snd ∧
    (∀ u a, hn u = some a → a ∉ nodes.map Prod.fst)) ∧
  q.live.Nodup ∧ (∀ u a, hn u = some a → a ∈ q.live) ∧
  (∀ u v a, hn u = some a → hn v = some a → u = v) ∧
  (∀ u, dq u = true → q.queue_head ≠ 0)

/-- Each value is enqueued at most once, and `seen` holds the values enqueued plus the one
being enqueued. -/
def InvS (max_num : Nat) (seen : Nat → Bool) (enq : List Nat) (vt : Nat → VTag) : Prop :=
  enq.Nodup ∧ (∀ v ∈ enq, v < max_num) ∧
  (∀ v, seen v = true ↔ (v ∈ enq ∨ ∃ u, vt u = VTag.enqueue v)) ∧
  (∀ u v, vt u = VTag.num v ∨ vt u = VTag.mark v ∨ vt u = VTag.enqueue v → v < max_num) ∧
  (∀ u v, vt u = VTag.mark v → seen v = false) ∧
  (∀ u v, vt u = VTag.enqueue v → v ∉ enq)

/-- `produced_count` is the number of values enqueued, minus one while a producer stands
between its enqueue and its increment. -/
def InvC (count : Int) (enq : List Nat) (ct : Nat → Bool) : Prop :=
  (∀ u, ct u = true → count = (enq.length : Int) - 1) ∧
  ((∀ u, ct u = false) → count = (enq.length : Int))

/-- Shutdown: once `wait_consumers_queue_empty` decided to return, everything is produced
and the queue is empty; `stop_flag` is set only after that; a consumer exits only after
reading `stop_flag` set. -/
def InvE (max_num : Nat) (count : Int) (queue_head : Nat) (stop : Int) (sh : Nat → Shut) :
    Prop :=
  (∀ u, sh u = Shut.ret ∨ sh u = Shut.stopped → count = (max_num : Int) ∧ queue_head = 0) ∧
  (stop ≠ 0 → ∃ u, sh u = Shut.stopped) ∧
  (∀ u, sh u = Shut.cexit → stop ≠ 0)

/-- Invariant of the driver. -/
def Inv (max_num n : Nat) (s : State) : Prop :=
  (∃ (q : List Nat) (R : Nat), TLInv n s.queue_lock (fun u => (s.pc u).phase) q R) ∧
  InvQ s.q s.enq s.deq (fun u => (s.pc u).heldNode) (fun u => (s.pc u).dequeuing) ∧
  InvS max_num s.seen s.enq (fun u => (s.pc u).vtag) ∧
  InvC s.produced_count s.enq (fun u => (s.pc u).counting) ∧
  InvE max_num s.produced_count s.q.queue_head s.stop_flag (fun u => (s.pc u).shut)

/-- The driver hangs with the consumer `v` asleep: `main` is in the `pthread_join` loops,
every producer has returned, every consumer has returned or is in the test-and-set loop of
`condition_variable_wait(&is_empty, &queue_lock)`, the consumer `v` is in that loop, and
the flag of `is_empty` is set. -/
def Hung (producers consumers v : Nat) (s : State) : Prop :=
  s.pc 0 = Pc.m_join ∧ s.is_empty.lock = true ∧
  (∀ t, 1 ≤ t → t ≤ producers → s.pc t = Pc.p_return) ∧
  (∀ t, producers < t → t < 1 + producers + consumers →
    s.pc t = Pc.c_return ∨ s.pc t = Pc.c_wait CvPc.spin) ∧
  producers < v ∧ v < 1 + producers + consumers ∧ s.pc v = Pc.c_wait CvPc.spin

/-- Both consumers (threads 2 and 3) are asleep on `is_empty` with the flag set, `main` and
the producer (thread 1) have not taken the next step of their loops, the values below `k`
are produced and consumed, and the queue is empty. -/
def Asleep (k : Nat) (s : State) : Prop :=
  s.pc 0 = Pc.m_fetch ∧ s.pc 1 = Pc.p_check ∧ s.pc 2 = Pc.c_wait CvPc.spin ∧
  s.pc 3 = Pc.c_wait CvPc.spin ∧ s.is_empty = { lock := true, waiters := 2 } ∧
  s.produced_done.waiters = 0 ∧ s.produced_count = (k : Int) ∧ s.stop_flag = 0 ∧
  s.q.queue_head = 0 ∧ s.q.queue_tail = 0 ∧ s.q.live = [] ∧ (∀ v, k ≤ v → s.seen v = false) ∧
  s.queue_lock.cur_ticket = s.queue_lock.ticket ∧
  s.print_lock.cur_ticket = s.print_lock.ticket ∧ s.exited = false

/-- As `Asleep k`, after the producer has enqueued the value `k` in the node at address 5
and signalled `is_empty`. -/
def Produced (k : Nat) (s : State) : Prop :=
  s.pc 0 = Pc.m_fetch ∧ s.pc 1 = Pc.p_check ∧ s.pc 2 = Pc.c_wait CvPc.spin ∧
  s.pc 3 = Pc.c_wait CvPc.spin ∧ s.is_empty = { lock := false, waiters := 2 } ∧
  s.produced_done.waiters = 0 ∧ s.produced_count = ((k + 1 : Nat) : Int) ∧ s.stop_flag = 0 ∧
  s.q.queue_head = 5 ∧ s.q.queue_tail = 5 ∧ s.q.next 5 = 0 ∧ s.q.live = [5] ∧
  (∀ v, k + 1 ≤ v → s.seen v = false) ∧
  s.queue_lock.cur_ticket = s.queue_lock.ticket ∧
  s.print_lock.cur_ticket = s.print_lock.ticket ∧ s.exited = false

/-- Round `k` of `hang_schedule`: the producer produces the value `k` (and signals
`produced_done` when it is the last one), then consumer 2 wakes, dequeues the value, frees
the node, prints, and goes back to sleep on `is_empty`. -/
def hang_round (max_num k : Nat) : List Act :=
  List.replicate (if k + 1 = max_num then 11 else 10) ⟨1, k, 5⟩ ++ List.replicate 17 ⟨2, 0, 0⟩

/-- The first `k` rounds of `hang_schedule`. -/
def hang_rounds (max_num : Nat) : Nat → List Act
  | 0 => []
  | k + 1 => hang_rounds max_num k ++ hang_round max_num k

/-- A schedule of `main` (thread 0), one producer (thread 1) and two consumers (threads 2
and 3): both consumers go to sleep on `is_empty`; in `max_num` rounds the producer
produces every value and consumer 2 consumes it; the producer returns; `main` passes both
waits and runs `stop_consumers`, doing both `atomic_flag_clear` calls of the broadcast
before a consumer runs; consumer 2 wakes, sees `stop_flag` and returns. -/
def hang_schedule (max_num : Nat) : List Act :=
  List.replicate 14 ⟨2, 0, 0⟩ ++ List.replicate 6 ⟨3, 0, 0⟩ ++ hang_rounds max_num max_num ++
    [⟨1, 0, 0⟩] ++ List.replicate 13 ⟨0, 0, 0⟩ ++ List.replicate 7 ⟨2, 0, 0⟩

/-- A step on the queue: the producer's enqueue step with the node that `malloc` returned
and the value, the consumer's dequeue step by consumer `u`, or the `free(node)` of
consumer `u`. -/
inductive QOp where
  | enqueue (new_node num : Nat)
  | dequeue (u : Nat)
  | free (u : Nat)
deriving DecidableEq, Repr

/-- The queue, the local variable `node` of each consumer (set by its dequeue step, until
its `free`), and the values in the order enqueued and in the order dequeued. -/
structure QState where
  q : Queue
  node : Nat → Option Nat
  enq : List Nat
  deq : List Nat

/-- The empty queue: `queue_head == NULL`, `queue_tail == NULL`, nothing allocated. -/
def qinit : QState :=
  { q := { queue_head := 0, queue_tail := 0, value := fun _ => 0, next := fun _ => 0, live := [] },
    node := fun _ => none, enq := [], deq := [] }

/-- One step on the queue.  `malloc` returns a non-null address that is not in use (the
producer exits on `NULL`); the dequeue step runs only when `queue_head != NULL`. -/
def qstep (s : QState) : QOp → QState
  | QOp.enqueue new_node num =>
    if new_node = 0 ∨ new_node ∈ s.q.live then s
    else { s with q := enqueue s.q new_node num, enq := s.enq ++ [num] }
  | QOp.dequeue u =>
    if s.q.queue_head = 0 then s
    else
      { s with q := dequeue s.q, node := Function.update s.node u (some s.q.queue_head),
               deq := s.deq ++ [s.q.value s.q.queue_head] }
  | QOp.free u =>
    match s.node u with
    | none => s
    | some a => { s with q := free s.q a, node := Function.update s.node u none }

/-- The queue after a sequence of steps from the empty queue. -/
def qrun (ops : List QOp) : QState := runSched qstep qinit ops

end cp_pattern
/-! ## Generic lemmas -/

theorem runSched_inv {S A : Type} (step : S → A → S) (P : S → Prop)
    (hstep : ∀ s a, P s → P (step s a)) :
    ∀ (sched : List A) (s : S), P s → P (runSched step s sched) := by
  intro sched
  induction sched with
  | nil => intro s hs; exact hs
  | cons a l ih => intro s hs; exact ih (step s a) (hstep s a hs)

theorem runSched_append {S A : Type} (step : S → A → S) (s : S) (l1 l2 : List A) :
    runSched step s (l1 ++ l2) = runSched step (runSched step s l1) l2 := by
  simp [runSched, List.foldl_append]

theorem wrap32_succ (a : Int) : wrap32 (wrap32 a + 1) = wrap32 (a + 1) := by
  unfold wrap32; omega

theorem wrap32_pred (a : Int) : wrap32 (wrap32 a - 1) = wrap32 (a - 1) := by
  unfold wrap32; omega

theorem wrap32_le (a : Int) : wrap32 a ≤ 2147483647 := by
  unfold wrap32; omega

theorem wrap32_id (a : Int) (h1 : -2147483648 ≤ a) (h2 : a ≤ 2147483647) : wrap32 a = a := by
  unfold wrap32; omega

theorem wrap32_inj_near (a b : Int) (h : wrap32 a = wrap32 b) (h1 : a ≤ b)
    (h2 : b < a + 4294967296) : a = b := by
  unfold wrap32 at h; omega

theorem nodup_bounded_length (n : Nat) (q : List Nat) (hq : q.Nodup) (hb : ∀ t ∈ q, t < n) :
    q.length ≤ n := by
  have hsub : q ⊆ List.range n := fun t ht => List.mem_range.mpr (hb t ht)
  have := (List.Nodup.subperm hq hsub).length_le
  simpa using this

theorem nodup_index_unique (q : List Nat) (hq : q.Nodup) (i j : Nat) (t : Nat)
    (hi : q[i]? = some t) (hj : q[j]? = some t) : i = j := by
  obtain ⟨hi1, hi2⟩ := List.getElem?_eq_some.mp hi
  obtain ⟨hj1, hj2⟩ := List.getElem?_eq_some.mp hj
  exact (List.Nodup.getElem_inj_iff hq).mp (hi2.trans hj2.symm)

/-! ## Ticket discipline -/

theorem TLInv_init (n : Nat) : TLInv n ticketlock_init (fun _ => Phase.out) [] 0 := by
  refine ⟨List.nodup_nil, ?_, ?_, ?_, ?_, ?_⟩
  · intro t ht; simp at ht
  · simp [ticketlock_init, wrap32]
  · simp [ticketlock_init, wrap32]
  · intro t _; rfl
  · intro i t h; simp at h

theorem TLInv_mem_of_ne_out {n : Nat} {l : ticket_lock} {ph : Nat → Phase} {q : List Nat}
    {R : Nat} (hI : TLInv n l ph q R) {t : Nat} (ht : ph t ≠ Phase.out) : t ∈ q := by
  by_contra hn
  exact ht (hI.2.2.2.2.1 t hn)

theorem TLInv_held_head {n : Nat} {l : ticket_lock} {ph : Nat → Phase} {q : List Nat}
    {R : Nat} (hI : TLInv n l ph q R) {t : Nat} (ht : ph t = Phase.held) :
    ∃ q', q = t :: q' := by
  have hmem : t ∈ q := TLInv_mem_of_ne_out hI (by rw [ht]; simp)
  obtain ⟨i, hi⟩ := List.mem_iff_getElem?.mp hmem
  rcases hI.2.2.2.2.2 i t hi with h | ⟨h0, _⟩
  · rw [ht] at h; cases h
  · subst h0
    cases q with
    | nil => simp at hi
    | cons a q' => simp at hi; exact ⟨q', by rw [hi]⟩

theorem TLInv_mutex {n : Nat} {l : ticket_lock} {ph : Nat → Phase} {q : List Nat}
    {R : Nat} (hI : TLInv n l ph q R) (t1 t2 : Nat) (h1 : ph t1 = Phase.held)
    (h2 : ph t2 = Phase.held) : t1 = t2 := by
  obtain ⟨q1, e1⟩ := TLInv_held_head hI h1
  obtain ⟨q2, e2⟩ := TLInv_held_head hI h2
  rw [e1] at e2
  exact (List.cons.inj e2).1

theorem TLInv_congr {n : Nat} {l : ticket_lock} {ph ph' : Nat → Phase} {q : List Nat}
    {R : Nat} (hI : TLInv n l ph q R) (h : ∀ t, ph' t = ph t) : TLInv n l ph' q R := by
  have : ph' = ph := funext h
  rw [this]; exact hI

theorem TLInv_draw {n : Nat} {l : ticket_lock} {ph : Nat → Phase}
    {q : List Nat} {R : Nat} (hI : TLInv n l ph q R) {t : Nat} (htn : t < n)
    (ht : ph t = Phase.out) :
    TLInv n (ticketlock_acquire_fetch l).2
      (Function.update ph t (Phase.spin (ticketlock_acquire_fetch l).1)) (q ++ [t]) R := by
  obtain ⟨hnd, hb, hc, htk, hout, hidx⟩ := hI
  have htq : t ∉ q := by
    intro hmem
    obtain ⟨i, hi⟩ := List.mem_iff_getElem?.mp hmem
    rcases hidx i t hi with h | ⟨_, h⟩ <;> rw [ht] at h <;> cases h
  refine ⟨?_, ?_, ?_, ?_, ?_, ?_⟩
  · exact List.Nodup.append hnd (List.nodup_singleton t) (by simpa using htq)
  · intro u hu
    rcases List.mem_append.mp hu with h | h
    · exact hb u h
    · simp at h; rw [h]; exact htn
  · simpa [ticketlock_acquire_fetch] using hc
  · simp only [ticketlock_acquire_fetch, htk, List.length_append, List.length_singleton]
    rw [wrap32_succ]; push_cast; ring_nf
  · intro u hu
    have hut : u ≠ t := by intro e; apply hu; simp [e]
    have huq : u ∉ q := by intro e; apply hu; simp [e]
    rw [Function.update_noteq hut]; exact hout u huq
  · intro i u hi
    by_cases hlt : i < q.length
    · rw [List.getElem?_append_left hlt] at hi
      have huq : u ∈ q := List.mem_iff_getElem?.mpr ⟨i, hi⟩
      have hut : u ≠ t := by intro e; rw [e] at huq; exact htq huq
      rw [Function.update_noteq hut]; exact hidx i u hi
    · have hge : q.length ≤ i := Nat.le_of_not_lt hlt
      rw [List.getElem?_append_right hge] at hi
      have hi0 : i - q.length = 0 := by
        by_contra hne
        have : ([t] : List Nat)[i - q.length]? = none := by
          apply List.getElem?_eq_none; simp; omega
        rw [this] at hi; cases hi
      rw [hi0] at hi
      simp at hi
      subst hi
      have hiq : i = q.length := by omega
      left
      simp [ticketlock_acquire_fetch, htk, hiq]

theorem TLInv_pass {n : Nat} (hn : n ≤ 4294967296) {l : ticket_lock} {ph : Nat → Phase}
    {q : List Nat} {R : Nat} (hI : TLInv n l ph q R) {t : Nat} {m : Int}
    (ht : ph t = Phase.spin m) (hgo : ticketlock_acquire_spins l m = false) :
    (∃ q', q = t :: q') ∧ TLInv n l (Function.update ph t Phase.held) q R := by
  have hI0 := hI
  obtain ⟨hnd, hb, hc, htk, hout, hidx⟩ := hI
  have hlen := nodup_bounded_length n q hnd hb
  have hmem : t ∈ q := TLInv_mem_of_ne_out hI0 (by rw [ht]; simp)
  obtain ⟨i, hi⟩ := List.mem_iff_getElem?.mp hmem
  have hilt : i < q.length := (List.getElem?_eq_some.mp hi).1
  have hcm : l.cur_ticket = m := by
    simpa [ticketlock_acquire_spins] using hgo
  have hi0 : i = 0 := by
    rcases hidx i t hi with h | ⟨h0, _⟩
    · rw [ht] at h
      have hm : m = wrap32 (R + i) := by injection h
      have hw : wrap32 (R : Int) = wrap32 ((R : Int) + (i : Int)) := by
        rw [← hc, hcm, hm]
      have := wrap32_inj_near (R : Int) ((R : Int) + (i : Int)) hw (by omega) (by omega)
      omega
    · exact h0
  subst hi0
  refine ⟨?_, hnd, hb, hc, htk, ?_, ?_⟩
  · cases q with
    | nil => simp at hi
    | cons a q' => simp at hi; exact ⟨q', by rw [hi]⟩
  · intro u hu
    have hut : u ≠ t := by intro e; rw [e] at hu; exact hu hmem
    rw [Function.update_noteq hut]; exact hout u hu
  · intro j u hj
    by_cases hut : u = t
    · subst hut
      have := nodup_index_unique q hnd j 0 u hj hi
      right; exact ⟨this, by simp⟩
    · rw [Function.update_noteq hut]; exact hidx j u hj

theorem TLInv_release {n : Nat} {l : ticket_lock} {ph : Nat → Phase}
    {q : List Nat} {R : Nat} (hI : TLInv n l ph q R) {t : Nat}
    (ht : ph t = Phase.held) :
    ∃ q', q = t :: q' ∧
      TLInv n (ticketlock_release l) (Function.update ph t Phase.out) q' (R + 1) := by
  obtain ⟨q', hq⟩ := TLInv_held_head hI ht
  obtain ⟨hnd, hb, hc, htk, hout, hidx⟩ := hI
  subst hq
  have htq' : t ∉ q' := (List.nodup_cons.mp hnd).1
  refine ⟨q', rfl, (List.nodup_cons.mp hnd).2, ?_, ?_, ?_, ?_, ?_⟩
  · intro u hu; exact hb u (List.mem_cons_of_mem t hu)
  · simp only [ticketlock_release, hc]; rw [wrap32_succ]; push_cast; rfl
  · simp only [ticketlock_release, htk, List.length_cons]; push_cast; ring_nf
  · intro u hu
    by_cases hut : u = t
    · subst hut; simp
    · rw [Function.update_noteq hut]
      apply hout; intro hm
      rcases List.mem_cons.mp hm with h | h
      · exact hut h
      · exact hu h
  · intro i u hi
    have hi' : (t :: q')[i + 1]? = some u := by simpa using hi
    have huq : u ∈ q' := List.mem_iff_getElem?.mpr ⟨i, hi⟩
    have hut : u ≠ t := by intro e; rw [e] at huq; exact htq' huq
    rw [Function.update_noteq hut]
    rcases hidx (i + 1) u hi' with h | ⟨h0, _⟩
    · left; rw [h]
      have e : ((R : Int) + ((i + 1 : Nat) : Int)) = ((R + 1 : Nat) : Int) + (i : Int) := by
        push_cast; ring
      rw [e]
    · omega

/-! ## A region of the program occupied by at most one thread -/

theorem update_cases {α : Type} (pc : Nat → α) (t : Nat) (v : α) (u : Nat) :
    (u = t ∧ Function.update pc t v u = v) ∨ (u ≠ t ∧ Function.update pc t v u = pc u) := by
  by_cases h : u = t
  · left; subst h; exact ⟨rfl, by simp⟩
  · right; exact ⟨h, Function.update_noteq h _ _⟩

theorem occ_keep {α : Type} {P : α → Bool} {pc : Nat → α} {t : Nat} {v : α}
    (hocc : ∀ u, P (pc u) = true ↔ some t = some u) (hv : P v = true) :
    ∀ u, P (Function.update pc t v u) = true ↔ some t = some u := by
  intro u
  rcases update_cases pc t v u with ⟨h, e⟩ | ⟨h, e⟩
  · rw [e, h]; simp [hv]
  · rw [e]; exact hocc u

theorem occ_release {α : Type} {P : α → Bool} {pc : Nat → α} {t : Nat} {v : α}
    (hocc : ∀ u, P (pc u) = true ↔ some t = some u) (hv : P v = false) :
    ∀ u, P (Function.update pc t v u) = true ↔ (none : Option Nat) = some u := by
  intro u
  rcases update_cases pc t v u with ⟨h, e⟩ | ⟨h, e⟩
  · rw [e]; simp [hv]
  · rw [e]
    have := hocc u
    simp only [Option.some.injEq] at this
    simp only [reduceCtorEq, iff_false]
    intro hp; exact h (this.mp hp).symm

theorem occ_acquire {α : Type} {P : α → Bool} {pc : Nat → α} {t : Nat} {v : α}
    (hocc : ∀ u, P (pc u) = true ↔ (none : Option Nat) = some u) (hv : P v = true) :
    ∀ u, P (Function.update pc t v u) = true ↔ some t = some u := by
  intro u
  rcases update_cases pc t v u with ⟨h, e⟩ | ⟨h, e⟩
  · rw [e, h]; simp [hv]
  · rw [e]
    have := hocc u
    simp only [reduceCtorEq, iff_false] at this
    simp only [Option.some.injEq]
    constructor
    · intro hp; exact absurd hp this
    · intro hp; exact absurd hp.symm h

theorem occ_other {α : Type} {P : α → Bool} {pc : Nat → α} {t : Nat} {v : α}
    {occ : Option Nat} (hocc : ∀ u, P (pc u) = true ↔ occ = some u)
    (ht : P (pc t) = false) (hv : P v = false) :
    ∀ u, P (Function.update pc t v u) = true ↔ occ = some u := by
  intro u
  rcases update_cases pc t v u with ⟨h, e⟩ | ⟨h, e⟩
  · rw [e, h]
    simp only [hv, Bool.false_eq_true, false_iff]
    intro hp; have := (hocc t).mpr hp; rw [ht] at this; cases this
  · rw [e]; exact hocc u

theorem sum_range_le (T K : Nat) (f : Nat → Nat) (h : ∀ u, f u ≤ K) :
    ∑ u in Finset.range T, f u ≤ T * K := by
  have := Finset.sum_le_card_nsmul (Finset.range T) f K (fun u _ => h u)
  simpa using this

/-- A step of `condition_variable_wait` by a thread that obeys the ticket discipline keeps
the ticket discipline of the external lock. -/
theorem cv_wait_step_TLInv {n : Nat} (hn : n ≤ 4294967296) (cv : condition_variable)
    {l : ticket_lock} {ph : Nat → Phase} {q : List Nat} {R : Nat} (hI : TLInv n l ph q R)
    {t : Nat} (htn : t < n) (c : CvPc) (hc : ph t = c.phase) :
    ∃ q' R', TLInv n (condition_variable_wait_step cv l c).2.1
      (Function.update ph t (CvPc.phaseAfter (condition_variable_wait_step cv l c).2.2)) q' R' := by
  have hsame : ∀ p : Phase, p = ph t → TLInv n l (Function.update ph t p) q R := by
    intro p hp
    have : Function.update ph t p = ph := by rw [hp]; exact Function.update_eq_self t ph
    rw [this]; exact hI
  cases c with
  | inc => exact ⟨q, R, hsame _ hc.symm⟩
  | release =>
    obtain ⟨q', _, h⟩ := TLInv_release hI hc
    exact ⟨q', R + 1, h⟩
  | spin =>
    simp only [condition_variable_wait_step]
    split
    · exact ⟨q, R, hsame _ hc.symm⟩
    · exact ⟨q, R, hsame _ hc.symm⟩
  | fetch => exact ⟨q ++ [t], R, TLInv_draw hI htn hc⟩
  | acquire m =>
    simp only [condition_variable_wait_step]
    by_cases hsp : ticketlock_acquire_spins l m = true
    · simp only [hsp, if_true]; exact ⟨q, R, hsame _ hc.symm⟩
    · have hsp' : ticketlock_acquire_spins l m = false := by simpa using hsp
      simp only [hsp', Bool.false_eq_true, if_false]
      exact ⟨q, R, (TLInv_pass hn hI hc hsp').2⟩
  | dec => exact ⟨q, R, hsame _ hc.symm⟩

/-! ## Ticket lock client: mutual exclusion and FIFO admission -/

theorem TLPc_phase_update (pc : Nat → TLPc) (t : Nat) (v : TLPc) :
    (fun u => (Function.update pc t v u).phase) =
      Function.update (fun u => (pc u).phase) t v.phase := by
  funext u
  by_cases h : u = t
  · subst h; simp
  · simp [Function.update_noteq h]

theorem TLClientInv_init (n : Nat) : TLClientInv n tl_init := by
  refine ⟨[], 0, [], [], ?_, rfl, rfl, List.prefix_refl _, by simp, ?_⟩
  · exact TLInv_init n
  · intro t; simp [tl_init]

theorem TLClientInv_step (n : Nat) (hn : n ≤ 4294967296) (s : TLState) (t : Nat)
    (hI : TLClientInv n s) : TLClientInv n (tl_step n s t) := by
  obtain ⟨q, R, pre, h, hTL, hd, he, hpre, hlen, hcrit⟩ := hI
  unfold tl_step
  by_cases htn : t < n
  swap
  · simp only [htn, if_false]; exact ⟨q, R, pre, h, hTL, hd, he, hpre, hlen, hcrit⟩
  simp only [htn, if_true]
  cases hpc : s.pc t with
  | idle =>
    have hph : (fun u => (s.pc u).phase) t = Phase.out := by simp [hpc, TLPc.phase]
    have hTL' := TLInv_draw hTL htn hph
    refine ⟨q ++ [t], R, pre, h, ?_, ?_, he, ?_, hlen, ?_⟩
    · simp only; rw [TLPc_phase_update]; exact hTL'
    · simp [hd]
    · exact hpre.trans (List.prefix_append q [t])
    · intro u
      by_cases hut : u = t
      · subst hut
        simp only [Function.update_same]
        constructor
        · intro hm; have := (hcrit u).mp hm; rw [hpc] at this; cases this
        · intro hc; cases hc
      · simp only [Function.update_noteq hut]; exact hcrit u
  | spin m =>
    simp only
    by_cases hsp : ticketlock_acquire_spins s.lock m = true
    · simp only [hsp, if_true]; exact ⟨q, R, pre, h, hTL, hd, he, hpre, hlen, hcrit⟩
    · have hsp' : ticketlock_acquire_spins s.lock m = false := by simpa using hsp
      simp only [hsp', Bool.false_eq_true, if_false]
      have hph : (fun u => (s.pc u).phase) t = Phase.spin m := by simp [hpc, TLPc.phase]
      obtain ⟨⟨q', hq⟩, hTL'⟩ := TLInv_pass hn hTL hph hsp'
      have hh : h = [] := by
        cases h with
        | nil => rfl
        | cons a h' =>
          exfalso
          have ha : a = t := by
            rw [hq] at hpre
            obtain ⟨r, hr⟩ := hpre
            simp at hr; exact hr.1
          have := (hcrit a).mp (by simp)
          rw [ha, hpc] at this; cases this
      subst hh
      refine ⟨q, R, pre, [t], ?_, hd, ?_, ?_, by simp, ?_⟩
      · simp only; rw [TLPc_phase_update]; exact hTL'
      · simp [he]
      · rw [hq]; exact ⟨q', rfl⟩
      · intro u
        by_cases hut : u = t
        · subst hut; simp
        · simp only [Function.update_noteq hut, List.mem_singleton, hut, false_iff]
          intro hc; have := (hcrit u).mpr hc; simp at this
  | crit =>
    simp only
    have hph : (fun u => (s.pc u).phase) t = Phase.held := by simp [hpc, TLPc.phase]
    obtain ⟨q', hq, hTL'⟩ := TLInv_release hTL hph
    have hth : t ∈ h := (hcrit t).mpr hpc
    have hh : h = [t] := by
      cases h with
      | nil => simp at hth
      | cons a h' =>
        cases h' with
        | nil => simp at hth; rw [hth]
        | cons b h'' => simp at hlen
    subst hh
    refine ⟨q', R + 1, pre ++ [t], [], ?_, ?_, ?_, List.nil_prefix, by simp, ?_⟩
    · simp only; rw [TLPc_phase_update]; exact hTL'
    · simp [hd, hq]
    · simp [he]
    · intro u
      by_cases hut : u = t
      · subst hut; simp
      · simp only [Function.update_noteq hut, List.not_mem_nil, false_iff]
        intro hc; have := (hcrit u).mpr hc; simp at this; exact hut this

theorem TLClientInv_run (n : Nat) (hn : n ≤ 4294967296) (sched : List Nat) :
    TLClientInv n (tl_run n sched) :=
  runSched_inv (tl_step n) (TLClientInv n) (fun s t h => TLClientInv_step n hn s t h)
    sched tl_init (TLClientInv_init n)

/-- C1 (ticket lock mutual exclusion): with at most 2^32 threads, in every state reached
from `ticketlock_init` by any interleaving of threads that run `ticketlock_acquire`, a
critical section and `ticketlock_release`, at most one thread is between the return of
`ticketlock_acquire` and its own `ticketlock_release`. -/
theorem ticketlock_mutual_exclusion (n : Nat) (hn : n ≤ 4294967296) (sched : List Nat)
    (t1 t2 : Nat) (h1 : (tl_run n sched).pc t1 = TLPc.crit)
    (h2 : (tl_run n sched).pc t2 = TLPc.crit) : t1 = t2 := by
  obtain ⟨q, R, pre, h, hTL, _, _, _, _, _⟩ := TLClientInv_run n hn sched
  exact TLInv_mutex hTL t1 t2 (by simp [h1, TLPc.phase])
    (by simp [h2, TLPc.phase])

/-- Witness for C1: three threads, thread 1 holds the lock while threads 0 and 2 spin. -/
theorem ticketlock_mutual_exclusion_witness :
    (3 ≤ 4294967296) ∧ (tl_run 3 [1, 0, 1, 2, 0, 2]).pc 1 = TLPc.crit ∧ (1 : Nat) = 1 :=
  ⟨by decide, by decide,
    ticketlock_mutual_exclusion 3 (by decide) [1, 0, 1, 2, 0, 2] 1 1 (by decide) (by decide)⟩

namespace tas_semaphore

theorem tas_incs_mono (s : State) (a : Nat × Call) : s.incs ≤ (step s a).incs := by
  unfold step
  split <;> (try split) <;> simp

theorem tas_CountInv_init (n : Int) (h0 : 0 ≤ n) : CountInv n (init n) := by
  refine ⟨none, ⟨?_, rfl⟩, ?_, rfl, ?_, ?_⟩
  · intro t; simp [init, Pc.locked]
  · simp [init, semaphore_init]
  · simpa [init, semaphore_init] using h0
  · intro t h; simp [init] at h

theorem tas_enter_eq_of_ne_idle {p : Pc} (c : Call) (h : p ≠ Pc.idle) : p.enter c = p := by
  cases p <;> cases c <;> simp_all [Pc.enter]

theorem tas_enter_locked (p : Pc) (c : Call) (h : (p.enter c).locked = true) :
    p.enter c = p := by
  cases p <;> cases c <;> simp_all [Pc.enter, Pc.locked]

theorem tas_enter_not_locked (p : Pc) (c : Call) (h : (p.enter c).locked = false) :
    p.locked = false := by
  cases p <;> cases c <;> simp_all [Pc.enter, Pc.locked]

theorem tas_locked_update_keep {pc : Nat → Pc} {t : Nat} {v : Pc}
    (hlk : ∀ u, (pc u).locked = true ↔ some t = some u) (hv : v.locked = true) :
    ∀ u, ((Function.update pc t v) u).locked = true ↔ some t = some u := by
  intro u
  by_cases hut : u = t
  · subst hut; simp [hv]
  · rw [Function.update_noteq hut]; exact hlk u

theorem tas_locked_update_release {pc : Nat → Pc} {t : Nat} {v : Pc}
    (hlk : ∀ u, (pc u).locked = true ↔ some t = some u) (hv : v.locked = false) :
    ∀ u, ((Function.update pc t v) u).locked = true ↔ (none : Option Nat) = some u := by
  intro u
  by_cases hut : u = t
  · subst hut; simp [hv]
  · rw [Function.update_noteq hut]
    have := hlk u
    simp only [Option.some.injEq] at this
    simp only [reduceCtorEq, iff_false]
    intro h; exact hut (this.mp h).symm

theorem tas_locked_update_acquire {pc : Nat → Pc} {t : Nat} {v : Pc}
    (hlk : ∀ u, (pc u).locked = true ↔ (none : Option Nat) = some u) (hv : v.locked = true) :
    ∀ u, ((Function.update pc t v) u).locked = true ↔ some t = some u := by
  intro u
  by_cases hut : u = t
  · subst hut; simp [hv]
  · rw [Function.update_noteq hut]
    have := hlk u
    simp only [reduceCtorEq, iff_false] at this
    simp only [Option.some.injEq]
    constructor
    · intro h; exact absurd h this
    · intro h; exact absurd h.symm hut

theorem tas_locked_update_other {pc : Nat → Pc} {t : Nat} {v : Pc} {hold : Option Nat}
    (hlk : ∀ u, (pc u).locked = true ↔ hold = some u) (ht : (pc t).locked = false)
    (hv : v.locked = false) :
    ∀ u, ((Function.update pc t v) u).locked = true ↔ hold = some u := by
  intro u
  by_cases hut : u = t
  · subst hut
    simp only [Function.update_same, hv, Bool.false_eq_true, false_iff]
    intro h; have := (hlk u).mpr h; rw [ht] at this; cases this
  · rw [Function.update_noteq hut]; exact hlk u

theorem tas_CountInv_step (n : Int) (s : State) (a : Nat × Call)
    (hmaxv : s.sem.value ≤ 2147483647)
    (hb : (s.pc a.1).enter a.2 = Pc.s_add → s.sem.value < 2147483647) (hI : CountInv n s) :
    CountInv n (step s a) := by
  obtain ⟨hold, ⟨hlk, hflag⟩, hval, hinc, hnn, hsub⟩ := hI
  obtain ⟨t, c⟩ := a
  have hkeep : CountInv n s := ⟨hold, ⟨hlk, hflag⟩, hval, hinc, hnn, hsub⟩
  have hnotlocked : ∀ {v : Pc}, (s.pc t).locked = false → ∀ u, hold = some u →
      Function.update s.pc t v u = s.pc u := by
    intro v hl u hu
    have hut : u ≠ t := by
      intro e; subst e
      have := (hlk u).mpr hu; rw [hl] at this; cases this
    exact Function.update_noteq hut _ _
  unfold step
  simp only at hb ⊢
  cases hpc : (s.pc t).enter c with
  | idle => simp only [hpc]; exact hkeep
  | w_tas =>
    have hnl : (s.pc t).locked = false := tas_enter_not_locked _ c (by rw [hpc]; rfl)
    simp only [hpc]
    by_cases hl : s.sem.lock = true
    · simp only [hl, if_true]
      refine ⟨hold, ⟨tas_locked_update_other hlk hnl rfl, hflag⟩, ?_, ?_, hnn, ?_⟩
      · cases hold with
        | none => simpa using hval
        | some u => simp only [hnotlocked hnl u rfl]; exact hval
      · cases hold with
        | none => simpa using hinc
        | some u => simp only [hnotlocked hnl u rfl]; exact hinc
      · intro u hu
        by_cases hut : u = t
        · subst hut; simp at hu
        · simp only [Function.update_noteq hut] at hu; exact hsub u hu
    · have hl' : s.sem.lock = false := by simpa using hl
      simp only [hl', Bool.false_eq_true, if_false]
      have hnone : hold = none := by
        cases hold with
        | none => rfl
        | some u => rw [hl'] at hflag; simp at hflag
      subst hnone
      refine ⟨some t, ⟨tas_locked_update_acquire hlk rfl, rfl⟩, ?_, ?_, hnn, ?_⟩
      · simpa [Pc.pendingDec] using hval
      · simpa [Pc.pendingInc] using hinc
      · intro u hu
        by_cases hut : u = t
        · subst hut; simp at hu
        · simp only [Function.update_noteq hut] at hu; exact hsub u hu
  | s_tas =>
    have hnl : (s.pc t).locked = false := tas_enter_not_locked _ c (by rw [hpc]; rfl)
    simp only [hpc]
    by_cases hl : s.sem.lock = true
    · simp only [hl, if_true]
      refine ⟨hold, ⟨tas_locked_update_other hlk hnl rfl, hflag⟩, ?_, ?_, hnn, ?_⟩
      · cases hold with
        | none => simpa using hval
        | some u => simp only [hnotlocked hnl u rfl]; exact hval
      · cases hold with
        | none => simpa using hinc
        | some u => simp only [hnotlocked hnl u rfl]; exact hinc
      · intro u hu
        by_cases hut : u = t
        · subst hut; simp at hu
        · simp only [Function.update_noteq hut] at hu; exact hsub u hu
    · have hl' : s.sem.lock = false := by simpa using hl
      simp only [hl', Bool.false_eq_true, if_false]
      have hnone : hold = none := by
        cases hold with
        | none => rfl
        | some u => rw [hl'] at hflag; simp at hflag
      subst hnone
      refine ⟨some t, ⟨tas_locked_update_acquire hlk rfl, rfl⟩, ?_, ?_, hnn, ?_⟩
      · simpa [Pc.pendingDec] using hval
      · simpa [Pc.pendingInc] using hinc
      · intro u hu
        by_cases hut : u = t
        · subst hut; simp at hu
        · simp only [Function.update_noteq hut] at hu; exact hsub u hu
  | w_load =>
    have hpt : s.pc t = Pc.w_load := by
      have he := tas_enter_locked (s.pc t) c (by rw [hpc]; rfl)
      rw [he] at hpc; exact hpc
    have hh : hold = some t := (hlk t).mp (by rw [hpt]; rfl)
    subst hh
    simp only [hpc]
    have hothers : ∀ u, u ≠ t → s.pc u ≠ Pc.w_sub := by
      intro u hut hu
      have := (hlk u).mp (by rw [hu]; rfl)
      exact hut (Option.some.inj this).symm
    by_cases hv : s.sem.value > 0
    · simp only [hv, if_true]
      refine ⟨some t, ⟨tas_locked_update_keep hlk rfl, hflag⟩, ?_, ?_, hnn, ?_⟩
      · simpa [Pc.pendingDec, hpt] using hval
      · simpa [Pc.pendingInc, hpt] using hinc
      · intro u hu
        by_cases hut : u = t
        · simp only; omega
        · simp only [Function.update_noteq hut] at hu; exact absurd hu (hothers u hut)
    · simp only [hv, if_false]
      refine ⟨some t, ⟨tas_locked_update_keep hlk rfl, hflag⟩, ?_, ?_, hnn, ?_⟩
      · simpa [Pc.pendingDec, hpt] using hval
      · simpa [Pc.pendingInc, hpt] using hinc
      · intro u hu
        by_cases hut : u = t
        · subst hut; simp at hu
        · simp only [Function.update_noteq hut] at hu; exact absurd hu (hothers u hut)
  | w_sub =>
    have hpt : s.pc t = Pc.w_sub := by
      have he := tas_enter_locked (s.pc t) c (by rw [hpc]; rfl)
      rw [he] at hpc; exact hpc
    have hh : hold = some t := (hlk t).mp (by rw [hpt]; rfl)
    subst hh
    simp only [hpc]
    have h1 := hsub t hpt
    simp only [hpt, Pc.pendingDec] at hval
    simp only [hpt, Pc.pendingInc] at hinc
    have hw : wrap32 (s.sem.value - 1) = s.sem.value - 1 :=
      wrap32_id _ (by omega) (by omega)
    refine ⟨some t, ⟨tas_locked_update_keep hlk rfl, hflag⟩, ?_, ?_, ?_, ?_⟩
    · simp only [Function.update_same, Pc.pendingDec, hw]; omega
    · simpa [Pc.pendingInc] using hinc
    · simp only [hw]; omega
    · intro u hu
      by_cases hut : u = t
      · subst hut; simp at hu
      · simp only [Function.update_noteq hut] at hu
        have := (hlk u).mp (by rw [hu]; rfl)
        exact absurd (Option.some.inj this).symm hut
  | w_clear_done =>
    have hpt : s.pc t = Pc.w_clear_done := by
      have he := tas_enter_locked (s.pc t) c (by rw [hpc]; rfl)
      rw [he] at hpc; exact hpc
    have hh : hold = some t := (hlk t).mp (by rw [hpt]; rfl)
    subst hh
    simp only [hpc]
    simp only [hpt, Pc.pendingDec] at hval
    simp only [hpt, Pc.pendingInc] at hinc
    refine ⟨none, ⟨tas_locked_update_release hlk rfl, rfl⟩, ?_, ?_, hnn, ?_⟩
    · simp only; push_cast; omega
    · simpa using hinc
    · intro u hu
      by_cases hut : u = t
      · subst hut; simp at hu
      · simp only [Function.update_noteq hut] at hu
        have := (hlk u).mp (by rw [hu]; rfl)
        exact absurd (Option.some.inj this).symm hut
  | w_clear_retry =>
    have hpt : s.pc t = Pc.w_clear_retry := by
      have he := tas_enter_locked (s.pc t) c (by rw [hpc]; rfl)
      rw [he] at hpc; exact hpc
    have hh : hold = some t := (hlk t).mp (by rw [hpt]; rfl)
    subst hh
    simp only [hpc]
    simp only [hpt, Pc.pendingDec] at hval
    simp only [hpt, Pc.pendingInc] at hinc
    refine ⟨none, ⟨tas_locked_update_release hlk rfl, rfl⟩, ?_, ?_, hnn, ?_⟩
    · simpa using hval
    · simpa using hinc
    · intro u hu
      by_cases hut : u = t
      · subst hut; simp at hu
      · simp only [Function.update_noteq hut] at hu
        have := (hlk u).mp (by rw [hu]; rfl)
        exact absurd (Option.some.inj this).symm hut
  | s_add =>
    have hpt : s.pc t = Pc.s_add := by
      have he := tas_enter_locked (s.pc t) c (by rw [hpc]; rfl)
      rw [he] at hpc; exact hpc
    have hh : hold = some t := (hlk t).mp (by rw [hpt]; rfl)
    subst hh
    have hlt := hb hpc
    simp only [hpc]
    simp only [hpt, Pc.pendingDec] at hval
    simp only [hpt, Pc.pendingInc] at hinc
    have hw : wrap32 (s.sem.value + 1) = s.sem.value + 1 :=
      wrap32_id _ (by omega) (by omega)
    refine ⟨some t, ⟨tas_locked_update_keep hlk rfl, hflag⟩, ?_, ?_, ?_, ?_⟩
    · simp only [Function.update_same, Pc.pendingDec, hw]; push_cast; omega
    · simp only [Function.update_same, Pc.pendingInc]; omega
    · simp only [hw]; omega
    · intro u hu
      by_cases hut : u = t
      · subst hut; simp at hu
      · simp only [Function.update_noteq hut] at hu
        have := (hlk u).mp (by rw [hu]; rfl)
        exact absurd (Option.some.inj this).symm hut
  | s_clear =>
    have hpt : s.pc t = Pc.s_clear := by
      have he := tas_enter_locked (s.pc t) c (by rw [hpc]; rfl)
      rw [he] at hpc; exact hpc
    have hh : hold = some t := (hlk t).mp (by rw [hpt]; rfl)
    subst hh
    simp only [hpc]
    simp only [hpt, Pc.pendingDec] at hval
    simp only [hpt, Pc.pendingInc] at hinc
    refine ⟨none, ⟨tas_locked_update_release hlk rfl, rfl⟩, ?_, ?_, hnn, ?_⟩
    · simpa using hval
    · simp only; omega
    · intro u hu
      by_cases hut : u = t
      · subst hut; simp at hu
      · simp only [Function.update_noteq hut] at hu
        have := (hlk u).mp (by rw [hu]; rfl)
        exact absurd (Option.some.inj this).symm hut

theorem tas_value_le_step (s : State) (a : Nat × Call) (h : s.sem.value ≤ 2147483647) :
    (step s a).sem.value ≤ 2147483647 := by
  unfold step
  split <;> (try split) <;> first | exact h | exact wrap32_le _

theorem tas_CountInv_run (n : Int) (sched : List (Nat × Call)) :
    ∀ s : State, CountInv n s → s.sem.value ≤ 2147483647 → no_overflow s sched = true →
      CountInv n (runSched step s sched) := by
  induction sched with
  | nil => intro s hI _ _; exact hI
  | cons a rest ih =>
    intro s hI hv hb
    simp only [no_overflow, Bool.and_eq_true, decide_eq_true_eq, INT_MAX] at hb
    exact ih (step s a) (tas_CountInv_step n s a hv hb.1 hI) (tas_value_le_step s a hv) hb.2

/-- C4, as stated, fails: `semaphore_init(&sem, INT_MAX)` followed by one
`semaphore_signal` wraps `value` around to `INT_MIN`, so `value` is negative and differs
from `n + signals - waits` although no call is in progress. -/
theorem tas_counting_counterexample :
    (0 : Int) ≤ 2147483647 ∧
    (run 2147483647 [(0, Call.signal), (0, Call.signal), (0, Call.signal)]).sem.value < 0 ∧
    (run 2147483647 [(0, Call.signal), (0, Call.signal), (0, Call.signal)]).pc 0 = Pc.idle ∧
    (run 2147483647 [(0, Call.signal), (0, Call.signal), (0, Call.signal)]).sem.value ≠
      2147483647 +
        ((run 2147483647 [(0, Call.signal), (0, Call.signal), (0, Call.signal)]).signals : Int) -
        ((run 2147483647 [(0, Call.signal), (0, Call.signal), (0, Call.signal)]).waits : Int) := by
  decide

/-- C4 (amended): for every initial value `n ≥ 0` (an `int`) and every interleaving of
`semaphore_wait` and `semaphore_signal` calls in which no `atomic_fetch_add` of
`semaphore_signal` is executed while `value == INT_MAX`: `value ≥ 0`; when no call is in
progress `value = n + (completed signals) - (completed waits)`; a step changes `value`
only when the test-and-set flag is set and the stepping thread is the one that set it;
and at most one thread is between winning the flag and clearing it. -/
theorem tas_counting_invariant (n : Int) (h0 : 0 ≤ n) (hn : n ≤ INT_MAX)
    (sched : List (Nat × Call)) (hb : no_overflow (init n) sched = true) :
    0 ≤ (run n sched).sem.value ∧
    ((∀ t, (run n sched).pc t = Pc.idle) →
      (run n sched).sem.value =
        n + ((run n sched).signals : Int) - ((run n sched).waits : Int)) ∧
    (∀ a, (step (run n sched) a).sem.value ≠ (run n sched).sem.value →
      (run n sched).sem.lock = true ∧ ((run n sched).pc a.1).locked = true) ∧
    (∀ t1 t2, ((run n sched).pc t1).locked = true → ((run n sched).pc t2).locked = true →
      t1 = t2) := by
  have hI : CountInv n (run n sched) :=
    tas_CountInv_run n sched (init n) (tas_CountInv_init n h0) hn hb
  obtain ⟨hold, ⟨hlk, hflag⟩, hval, hinc, hnn, _⟩ := hI
  refine ⟨hnn, ?_, ?_, ?_⟩
  · intro hq
    have hnone : hold = none := by
      cases hold with
      | none => rfl
      | some u => have := (hlk u).mpr rfl; rw [hq u] at this; cases this
    subst hnone
    simp only at hval hinc
    omega
  · intro a hch
    have hl : ((run n sched).pc a.1).locked = true := by
      by_contra hnl
      apply hch
      unfold step
      cases hpc : ((run n sched).pc a.1).enter a.2 with
      | idle => rfl
      | w_tas => simp only; split <;> rfl
      | s_tas => simp only; split <;> rfl
      | w_load => simp only; split <;> rfl
      | w_clear_done => rfl
      | w_clear_retry => rfl
      | s_clear => rfl
      | w_sub =>
        exfalso; apply hnl
        have he := tas_enter_locked ((run n sched).pc a.1) a.2 (by rw [hpc]; rfl)
        rw [← he, hpc]; rfl
      | s_add =>
        exfalso; apply hnl
        have he := tas_enter_locked ((run n sched).pc a.1) a.2 (by rw [hpc]; rfl)
        rw [← he, hpc]; rfl
    refine ⟨?_, hl⟩
    rw [hflag, (hlk a.1).mp hl]; rfl
  · intro t1 t2 h1 h2
    have e1 := (hlk t1).mp h1
    have e2 := (hlk t2).mp h2
    rw [e1] at e2
    exact Option.some.inj e2

/-- Witness for C4: initial value `INT_MAX`; thread 0 completes a wait and then a signal;
no call is in progress and `value` is `INT_MAX = n + 1 - 1` again. -/
theorem tas_counting_invariant_witness :
    ((0 : Int) ≤ 2147483647 ∧ (2147483647 : Int) ≤ INT_MAX ∧
      no_overflow (init 2147483647) [(0, Call.wait), (0, Call.wait), (0, Call.wait),
        (0, Call.wait), (0, Call.signal), (0, Call.signal), (0, Call.signal)] = true) ∧
    (run 2147483647 [(0, Call.wait), (0, Call.wait), (0, Call.wait), (0, Call.wait),
      (0, Call.signal), (0, Call.signal), (0, Call.signal)]).signals = 1 ∧
    (run 2147483647 [(0, Call.wait), (0, Call.wait), (0, Call.wait), (0, Call.wait),
      (0, Call.signal), (0, Call.signal), (0, Call.signal)]).waits = 1 ∧
    (run 2147483647 [(0, Call.wait), (0, Call.wait), (0, Call.wait), (0, Call.wait),
      (0, Call.signal), (0, Call.signal), (0, Call.signal)]).sem.value =
      2147483647 +
        ((run 2147483647 [(0, Call.wait), (0, Call.wait), (0, Call.wait), (0, Call.wait),
          (0, Call.signal), (0, Call.signal), (0, Call.signal)]).signals : Int) -
        ((run 2147483647 [(0, Call.wait), (0, Call.wait), (0, Call.wait), (0, Call.wait),
          (0, Call.signal), (0, Call.signal), (0, Call.signal)]).waits : Int) := by
  have h := tas_counting_invariant 2147483647 (by decide) (by decide) [(0, Call.wait),
    (0, Call.wait), (0, Call.wait), (0, Call.wait), (0, Call.signal), (0, Call.signal),
    (0, Call.signal)] (by decide)
  refine ⟨⟨by decide, by decide, by decide⟩, by decide, by decide, h.2.1 ?_⟩
  intro t
  by_cases ht : t = 0
  · subst ht; decide
  · simp [run, runSched, step, init, semaphore_init, Pc.enter, Function.update_noteq ht]

end tas_semaphore
/-! ## Ticket semaphore: counting invariant -/

namespace tl_semaphore

theorem tl_signals_mono (nthreads : Nat) (s : State) (a : Nat × Call) :
    s.signals ≤ (step nthreads s a).signals := by
  unfold step
  split
  · split
    · split <;> simp
    · split <;> simp
    · split <;> simp
    · simp
    · simp
  · simp

theorem tl_phase_update (pc : Nat → Pc) (t : Nat) (v : Pc) :
    (fun u => (Function.update pc t v u).phase) =
      Function.update (fun u => (pc u).phase) t v.phase := by
  funext u
  by_cases h : u = t
  · subst h; simp
  · simp [Function.update_noteq h]

theorem tl_phase_update_same (pc : Nat → Pc) (t : Nat) (v : Pc) (h : v.phase = (pc t).phase) :
    (fun u => (Function.update pc t v u).phase) = (fun u => (pc u).phase) := by
  funext u
  by_cases hu : u = t
  · subst hu; simp [h]
  · simp [Function.update_noteq hu]

theorem tl_CountInv_init (nthreads : Nat) (n : Int) (h0 : 0 ≤ n) :
    CountInv nthreads n (init n) := by
  refine ⟨⟨[], 0, TLInv_init nthreads⟩, ?_, ?_, ?_, ?_⟩
  · intro t h; simp [init] at h
  · intro _; simp [init, semaphore_init]
  · simpa [init, semaphore_init] using h0
  · intro t h; simp [init] at h

theorem tl_CountInv_step (nthreads : Nat) (hT : nthreads ≤ 4294967296) (n : Int) (s : State)
    (a : Nat × Call) (hmaxv : s.sem.value ≤ 2147483647)
    (hb : a.1 < nthreads → s.pc a.1 = Pc.idle → a.2 = Call.signal →
      s.sem.value < 2147483647)
    (hI : CountInv nthreads n s) : CountInv nthreads n (step nthreads s a) := by
  obtain ⟨⟨q, R, hTL⟩, hA, hB, hnn, hsub⟩ := hI
  obtain ⟨t, c⟩ := a
  have hkeep : CountInv nthreads n s := ⟨⟨q, R, hTL⟩, hA, hB, hnn, hsub⟩
  have hmutex : ∀ u v, (s.pc u).phase = Phase.held → (s.pc v).phase = Phase.held → u = v :=
    fun u v hu hv => TLInv_mutex hTL u v hu hv
  unfold step
  simp only at hb ⊢
  by_cases htn : t < nthreads
  swap
  · simp only [htn, if_false]; exact hkeep
  simp only [htn, if_true]
  cases hpc : s.pc t with
  | idle =>
    simp only [hpc]
    cases c with
    | wait =>
      simp only
      refine ⟨⟨q ++ [t], R, ?_⟩, ?_, ?_, hnn, ?_⟩
      · rw [tl_phase_update]
        exact TLInv_draw hTL htn (by simp [hpc, Pc.phase])
      · intro u hu
        by_cases hut : u = t
        · subst hut; simp at hu
        · simp only [Function.update_noteq hut] at hu; exact hA u hu
      · intro hall
        apply hB
        intro u hu
        by_cases hut : u = t
        · subst hut; rw [hpc] at hu; cases hu
        · apply hall u; simp only [Function.update_noteq hut]; exact hu
      · intro u hu
        by_cases hut : u = t
        · subst hut; simp at hu
        · simp only [Function.update_noteq hut] at hu; exact hsub u hu
    | signal =>
      have hlt := hb htn hpc rfl
      simp only
      have hw : wrap32 (s.sem.value + 1) = s.sem.value + 1 :=
        wrap32_id _ (by omega) (by omega)
      refine ⟨⟨q, R, hTL⟩, ?_, ?_, ?_, ?_⟩
      · intro u hu
        simp only [semaphore_signal, hw]; push_cast; have := hA u hu; omega
      · intro hall
        simp only [semaphore_signal, hw]; push_cast; have := hB hall; omega
      · simp only [semaphore_signal, hw]; omega
      · intro u hu
        simp only [semaphore_signal, hw]; have := hsub u hu; omega
  | w_spin m =>
    simp only [hpc]
    by_cases hsp : wait_spins_ticket s.sem m = true
    · simp only [hsp, if_true]; exact hkeep
    · have hsp' : wait_spins_ticket s.sem m = false := by simpa using hsp
      simp only [hsp', Bool.false_eq_true, if_false]
      have hpass := TLInv_pass hT hTL (t := t) (m := m) (by simp [hpc, Pc.phase])
        (by simpa [wait_spins_ticket, ticketlock_acquire_spins, semaphore.tickets] using hsp')
      refine ⟨⟨q, R, ?_⟩, ?_, ?_, hnn, ?_⟩
      · rw [tl_phase_update]; exact hpass.2
      · intro u hu
        by_cases hut : u = t
        · subst hut; simp at hu
        · simp only [Function.update_noteq hut] at hu; exact hA u hu
      · intro hall
        apply hB
        intro u hu
        by_cases hut : u = t
        · subst hut; rw [hpc] at hu; cases hu
        · apply hall u; simp only [Function.update_noteq hut]; exact hu
      · intro u hu
        by_cases hut : u = t
        · subst hut; simp at hu
        · simp only [Function.update_noteq hut] at hu; exact hsub u hu
  | w_value =>
    simp only [hpc]
    by_cases hsp : wait_spins_value s.sem = true
    · simp only [hsp, if_true]; exact hkeep
    · have hsp' : wait_spins_value s.sem = false := by simpa using hsp
      simp only [hsp', Bool.false_eq_true, if_false]
      have hpos : 1 ≤ s.sem.value := by
        simp only [wait_spins_value, decide_eq_false_iff_not, not_le] at hsp'; omega
      refine ⟨⟨q, R, ?_⟩, ?_, ?_, hnn, ?_⟩
      · rw [tl_phase_update_same _ _ _ (by simp [hpc, Pc.phase])]; exact hTL
      · intro u hu
        by_cases hut : u = t
        · subst hut; simp at hu
        · simp only [Function.update_noteq hut] at hu; exact hA u hu
      · intro hall
        apply hB
        intro u hu
        by_cases hut : u = t
        · subst hut; rw [hpc] at hu; cases hu
        · apply hall u; simp only [Function.update_noteq hut]; exact hu
      · intro u _; exact hpos
  | w_sub =>
    simp only [hpc]
    have h1 := hsub t hpc
    have hw : wrap32 (s.sem.value - 1) = s.sem.value - 1 :=
      wrap32_id _ (by omega) (by omega)
    have hnonext : ∀ u, s.pc u ≠ Pc.w_next := by
      intro u hu
      have := hmutex u t (by simp [hu, Pc.phase]) (by simp [hpc, Pc.phase])
      subst this; rw [hpc] at hu; cases hu
    have hv := hB hnonext
    refine ⟨⟨q, R, ?_⟩, ?_, ?_, ?_, ?_⟩
    · have : (wait_sub s.sem).tickets = s.sem.tickets := rfl
      rw [this, tl_phase_update_same _ _ _ (by simp [hpc, Pc.phase])]; exact hTL
    · intro u _
      simp only [wait_sub, hw]; omega
    · intro hall
      exfalso; exact hall t (by simp)
    · simp only [wait_sub, hw]; omega
    · intro u hu
      by_cases hut : u = t
      · subst hut; simp at hu
      · simp only [Function.update_noteq hut] at hu
        exact absurd (hmutex u t (by simp [hu, Pc.phase]) (by simp [hpc, Pc.phase])) hut
  | w_next =>
    simp only [hpc]
    have hv := hA t hpc
    obtain ⟨q', _, hrel⟩ := TLInv_release hTL (t := t) (by simp [hpc, Pc.phase])
    have hothers : ∀ u, u ≠ t → (s.pc u).phase ≠ Phase.held := by
      intro u hut hu
      exact hut (hmutex u t hu (by simp [hpc, Pc.phase]))
    refine ⟨⟨q', R + 1, ?_⟩, ?_, ?_, ?_, ?_⟩
    · rw [tl_phase_update]; exact hrel
    · intro u hu
      by_cases hut : u = t
      · subst hut; simp at hu
      · simp only [Function.update_noteq hut] at hu
        exact absurd (by simp [hu, Pc.phase]) (hothers u hut)
    · intro _
      simp only [wait_next]; push_cast; omega
    · simpa [wait_next] using hnn
    · intro u hu
      by_cases hut : u = t
      · subst hut; simp at hu
      · simp only [Function.update_noteq hut] at hu
        exact absurd (by simp [hu, Pc.phase]) (hothers u hut)

theorem tl_value_le_step (nthreads : Nat) (s : State) (a : Nat × Call)
    (h : s.sem.value ≤ 2147483647) : (step nthreads s a).sem.value ≤ 2147483647 := by
  unfold step
  split
  · split
    · split
      · exact h
      · exact wrap32_le _
    · split <;> exact h
    · split <;> exact h
    · exact wrap32_le _
    · exact h
  · exact h

theorem tl_CountInv_run (nthreads : Nat) (hT : nthreads ≤ 4294967296) (n : Int)
    (sched : List (Nat × Call)) :
    ∀ s : State, CountInv nthreads n s → s.sem.value ≤ 2147483647 →
      no_overflow nthreads s sched = true →
      CountInv nthreads n (runSched (step nthreads) s sched) := by
  induction sched with
  | nil => intro s hI _ _; exact hI
  | cons a rest ih =>
    intro s hI hv hb
    simp only [no_overflow, Bool.and_eq_true, decide_eq_true_eq, INT_MAX] at hb
    exact ih (step nthreads s a) (tl_CountInv_step nthreads hT n s a hv hb.1 hI)
      (tl_value_le_step nthreads s a hv) hb.2

theorem tl_no_overflow_initial (nthreads : Nat) (p r : List (Nat × Call)) :
    ∀ s : State, no_overflow nthreads s (p ++ r) = true → no_overflow nthreads s p = true := by
  induction p with
  | nil => intro s _; rfl
  | cons a p ih =>
    intro s h
    simp only [List.cons_append, no_overflow, Bool.and_eq_true] at h ⊢
    exact ⟨h.1, ih _ h.2⟩

/-- C5, as stated, fails: `semaphore_init(&sem, INT_MAX)` followed by one
`semaphore_signal` wraps `value` around to `INT_MIN`: `value` is negative and differs from
`n + signals - waits` although no call is in progress. -/
theorem tl_counting_counterexample :
    (0 : Int) ≤ 2147483647 ∧
    (run 1 2147483647 [(0, Call.signal)]).sem.value < 0 ∧
    (run 1 2147483647 [(0, Call.signal)]).pc 0 = Pc.idle ∧
    (run 1 2147483647 [(0, Call.signal)]).sem.value ≠
      2147483647 + ((run 1 2147483647 [(0, Call.signal)]).signals : Int) -
        ((run 1 2147483647 [(0, Call.signal)]).waits : Int) := by
  decide

/-- C5 (amended): for at most 2^32 threads, every initial value `n ≥ 0` (an `int`) and
every interleaving of `semaphore_wait` and `semaphore_signal` calls in which no
`semaphore_signal` is executed while `value == INT_MAX`: `value` is non-negative in the
final state and in
every state passed on the way, although `semaphore_signal` takes no ticket and
`semaphore_wait` tests and decrements `value` in separate atomic steps; at most one thread
is between leaving the ticket loop and advancing `cur_ticket`; and when no call is in
progress `value = n + (signals) - (completed waits)`. -/
theorem tl_counting_invariant (nthreads : Nat) (hT : nthreads ≤ 4294967296) (n : Int)
    (h0 : 0 ≤ n) (hn : n ≤ INT_MAX) (sched : List (Nat × Call))
    (hb : no_overflow nthreads (init n) sched = true) :
    (∀ p, p <+: sched → 0 ≤ (run nthreads n p).sem.value) ∧
    (∀ t1 t2, ((run nthreads n sched).pc t1).phase = Phase.held →
      ((run nthreads n sched).pc t2).phase = Phase.held → t1 = t2) ∧
    ((∀ t, (run nthreads n sched).pc t = Pc.idle) →
      (run nthreads n sched).sem.value =
        n + ((run nthreads n sched).signals : Int) - ((run nthreads n sched).waits : Int)) := by
  have hrun : ∀ p, no_overflow nthreads (init n) p = true →
      CountInv nthreads n (run nthreads n p) :=
    fun p hp => tl_CountInv_run nthreads hT n p (init n) (tl_CountInv_init nthreads n h0) hn hp
  refine ⟨?_, ?_, ?_⟩
  · intro p hp
    obtain ⟨r, hr⟩ := hp
    rw [← hr] at hb
    exact (hrun p (tl_no_overflow_initial nthreads p r (init n) hb)).2.2.2.1
  · obtain ⟨⟨q, R, hTL⟩, _, _, _, _⟩ := hrun sched hb
    intro t1 t2 h1 h2
    exact TLInv_mutex hTL t1 t2 h1 h2
  · obtain ⟨_, _, hB, _, _⟩ := hrun sched hb
    intro hq
    apply hB
    intro t ht
    rw [hq t] at ht; cases ht

/-- Witness for C5: two threads, initial value `INT_MAX`; thread 0 completes a wait, then
thread 1 signals; no call is in progress and `value` is `INT_MAX = n + 1 - 1` again. -/
theorem tl_counting_invariant_witness :
    ((2 ≤ 4294967296) ∧ (0 : Int) ≤ 2147483647 ∧ (2147483647 : Int) ≤ INT_MAX ∧
      no_overflow 2 (init 2147483647) [(0, Call.wait), (0, Call.wait), (0, Call.wait),
        (0, Call.wait), (0, Call.wait), (1, Call.signal)] = true) ∧
    (run 2 2147483647 [(0, Call.wait), (0, Call.wait), (0, Call.wait), (0, Call.wait),
      (0, Call.wait), (1, Call.signal)]).signals = 1 ∧
    (run 2 2147483647 [(0, Call.wait), (0, Call.wait), (0, Call.wait), (0, Call.wait),
      (0, Call.wait), (1, Call.signal)]).waits = 1 ∧
    (run 2 2147483647 [(0, Call.wait), (0, Call.wait), (0, Call.wait), (0, Call.wait),
      (0, Call.wait), (1, Call.signal)]).sem.value =
      2147483647 +
        ((run 2 2147483647 [(0, Call.wait), (0, Call.wait), (0, Call.wait), (0, Call.wait),
          (0, Call.wait), (1, Call.signal)]).signals : Int) -
        ((run 2 2147483647 [(0, Call.wait), (0, Call.wait), (0, Call.wait), (0, Call.wait),
          (0, Call.wait), (1, Call.signal)]).waits : Int) := by
  have h := tl_counting_invariant 2 (by decide) 2147483647 (by decide) (by decide)
    [(0, Call.wait), (0, Call.wait), (0, Call.wait), (0, Call.wait), (0, Call.wait),
      (1, Call.signal)] (by decide)
  refine ⟨⟨by decide, by decide, by decide, by decide⟩, by decide, by decide, h.2.2 ?_⟩
  intro t
  by_cases ht : t = 0
  · subst ht; decide
  · simp [run, runSched, step, init, semaphore_init, wait_fetch, wait_spins_ticket,
      wait_spins_value, wait_sub, wait_next, semaphore_signal, Function.update_noteq ht]

end tl_semaphore
/-! ## Ticket semaphore as a mutex: no lost increment -/

namespace testmain

open tl_semaphore

end testmain
/-! ### Completion and the final value of the counter -/

namespace testmain

open tl_semaphore

end testmain
/-! ## Thread-local storage: round trip and idempotent alloc -/

namespace local_storage

theorem alloc_scan_none_iff (tid : Int) (g : List tls_data_t) (i : Nat) (ff : Int) :
    alloc_scan tid g i ff = none ↔ ∃ s ∈ g, s.thread_id = tid := by
  induction g generalizing i ff with
  | nil => simp [alloc_scan]
  | cons a g ih =>
    unfold alloc_scan
    by_cases h : a.thread_id = tid
    · simp only [h, if_true, true_iff]; exact ⟨a, by simp, h⟩
    · simp only [h, if_false, ih, List.mem_cons, exists_eq_or_imp, false_or]

theorem alloc_scan_keeps (tid : Int) (g : List tls_data_t) (i : Nat) (ff r : Int)
    (hff : ff ≠ -1) (h : alloc_scan tid g i ff = some r) : r = ff := by
  induction g generalizing i with
  | nil => simp [alloc_scan] at h; exact h.symm
  | cons a g ih =>
    unfold alloc_scan at h
    by_cases ha : a.thread_id = tid
    · simp [ha] at h
    · simp only [ha, if_false, hff, and_false] at h
      exact ih (i + 1) h

/-- When the scan ends with a slot index, that index (counted from `i`) is the first slot
whose `thread_id` is `-1`. -/
theorem alloc_scan_first_free (tid : Int) (g : List tls_data_t) (i : Nat) (r : Int)
    (h : alloc_scan tid g i (-1) = some r) (hr : r ≠ -1) :
    ∃ k s, r = ((i + k : Nat) : Int) ∧ g[k]? = some s ∧ s.thread_id = -1 ∧
      ∀ j s', j < k → g[j]? = some s' → s'.thread_id ≠ -1 := by
  induction g generalizing i with
  | nil => simp [alloc_scan] at h; exact absurd h.symm hr
  | cons a g ih =>
    unfold alloc_scan at h
    by_cases ha : a.thread_id = tid
    · simp [ha] at h
    · simp only [ha, if_false, and_true] at h
      by_cases hfree : a.thread_id = -1
      · simp only [hfree, if_true] at h
        have := alloc_scan_keeps tid g (i + 1) (i : Int) r (by omega) h
        refine ⟨0, a, by simpa using this, by simp, hfree, ?_⟩
        intro j s' hj; omega
      · simp only [hfree, if_false] at h
        obtain ⟨k, s, hk, hs, hsf, hmin⟩ := ih (i + 1) h
        refine ⟨k + 1, s, by rw [hk]; push_cast; ring, by simpa using hs, hsf, ?_⟩
        intro j s' hj hs'
        cases j with
        | zero => simp at hs'; rw [← hs']; exact hfree
        | succ j => exact hmin j s' (by omega) (by simpa using hs')

theorem alloc_of_has_slot (tid : Int) (g : List tls_data_t)
    (h : ∃ s ∈ g, s.thread_id = tid) : tls_thread_alloc tid g = Except.ok g := by
  unfold tls_thread_alloc
  rw [(alloc_scan_none_iff tid g 0 (-1)).mpr h]

/-- A successful `tls_thread_alloc` either found a slot of `tid` and changed nothing, or
wrote `(tid, NULL)` into the first slot whose `thread_id` was `-1`. -/
theorem alloc_ok_cases (tid : Int) (g g1 : List tls_data_t)
    (h : tls_thread_alloc tid g = Except.ok g1) :
    ((∃ s ∈ g, s.thread_id = tid) ∧ g1 = g) ∨
    ((∀ s ∈ g, s.thread_id ≠ tid) ∧ ∃ k s, g[k]? = some s ∧ s.thread_id = -1 ∧
      (∀ j s', j < k → g[j]? = some s' → s'.thread_id ≠ -1) ∧
      g1 = g.set k { thread_id := tid, data := 0 }) := by
  unfold tls_thread_alloc at h
  cases hs : alloc_scan tid g 0 (-1) with
  | none =>
    rw [hs] at h
    left
    refine ⟨(alloc_scan_none_iff tid g 0 (-1)).mp hs, ?_⟩
    simp at h; exact h.symm
  | some r =>
    rw [hs] at h
    right
    have hno : ∀ s ∈ g, s.thread_id ≠ tid := by
      intro s hs' he
      have := (alloc_scan_none_iff tid g 0 (-1)).mpr ⟨s, hs', he⟩
      rw [this] at hs; cases hs
    refine ⟨hno, ?_⟩
    by_cases hr : r = -1
    · simp [hr] at h
    · simp only [hr, if_false] at h
      obtain ⟨k, s, hk, hsk, hsf, hmin⟩ := alloc_scan_first_free tid g 0 r hs hr
      refine ⟨k, s, hsk, hsf, hmin, ?_⟩
      have hkk : r.toNat = k := by rw [hk]; simp
      rw [hkk] at h
      injection h with h
      exact h.symm

theorem alloc_ok_has_slot (tid : Int) (g g1 : List tls_data_t)
    (h : tls_thread_alloc tid g = Except.ok g1) : ∃ s ∈ g1, s.thread_id = tid := by
  rcases alloc_ok_cases tid g g1 h with ⟨hex, he⟩ | ⟨_, k, s, hk, _, _, he⟩
  · rw [he]; exact hex
  · have hlt : k < g.length := (List.getElem?_eq_some.mp hk).1
    refine ⟨{ thread_id := tid, data := 0 }, ?_, rfl⟩
    rw [he]
    exact List.mem_iff_getElem?.mpr ⟨k, by simp [List.getElem?_set, hlt]⟩

theorem get_scan_some_has_slot (tid : Int) (g : List tls_data_t) (p : Nat)
    (h : get_scan tid g = some p) : ∃ s ∈ g, s.thread_id = tid := by
  induction g with
  | nil => simp [get_scan] at h
  | cons a g ih =>
    unfold get_scan at h
    by_cases ha : a.thread_id = tid
    · exact ⟨a, by simp, ha⟩
    · simp only [ha, if_false] at h
      obtain ⟨s, hs, he⟩ := ih h
      exact ⟨s, List.mem_cons_of_mem a hs, he⟩

theorem set_scan_of_has_slot (tid : Int) (p : Nat) (g : List tls_data_t)
    (h : ∃ s ∈ g, s.thread_id = tid) : ∃ g', set_scan tid p g = some g' := by
  induction g with
  | nil => simp at h
  | cons a g ih =>
    unfold set_scan
    by_cases ha : a.thread_id = tid
    · simp [ha]
    · simp only [ha, if_false]
      have : ∃ s ∈ g, s.thread_id = tid := by
        obtain ⟨s, hs, he⟩ := h
        rcases List.mem_cons.mp hs with h1 | h1
        · subst h1; exact absurd he ha
        · exact ⟨s, h1, he⟩
      obtain ⟨g', hg'⟩ := ih this
      exact ⟨a :: g', by simp [hg']⟩

theorem get_scan_set_scan (tid : Int) (p : Nat) (g g' : List tls_data_t)
    (h : set_scan tid p g = some g') : get_scan tid g' = some p := by
  induction g generalizing g' with
  | nil => simp [set_scan] at h
  | cons a g ih =>
    unfold set_scan at h
    by_cases ha : a.thread_id = tid
    · simp only [ha, if_true, Option.some.injEq] at h
      subst h; simp [get_scan, ha]
    · simp only [ha, if_false, Option.map_eq_some'] at h
      obtain ⟨r, hr, he⟩ := h
      subst he
      simp [get_scan, ha, ih r hr]

theorem set_scan_has_slot (tid tid' : Int) (p : Nat) (g g' : List tls_data_t)
    (h : set_scan tid p g = some g') (hs : ∃ s ∈ g, s.thread_id = tid') :
    ∃ s ∈ g', s.thread_id = tid' := by
  induction g generalizing g' with
  | nil => simp [set_scan] at h
  | cons a g ih =>
    unfold set_scan at h
    by_cases ha : a.thread_id = tid
    · simp only [ha, if_true, Option.some.injEq] at h
      subst h
      obtain ⟨s, hs1, he⟩ := hs
      rcases List.mem_cons.mp hs1 with h1 | h1
      · subst h1; exact ⟨{ s with data := p }, by simp [ha], he⟩
      · exact ⟨s, List.mem_cons_of_mem _ h1, he⟩
    · simp only [ha, if_false, Option.map_eq_some'] at h
      obtain ⟨r, hr, he⟩ := h
      subst he
      obtain ⟨s, hs1, he⟩ := hs
      rcases List.mem_cons.mp hs1 with h1 | h1
      · subst h1; exact ⟨s, by simp, he⟩
      · obtain ⟨s', hs', he'⟩ := ih r hr ⟨s, h1, he⟩
        exact ⟨s', List.mem_cons_of_mem _ hs', he'⟩

theorem get_scan_set_scan_other (tid T : Int) (hne : tid ≠ T) (d : Nat)
    (g g' : List tls_data_t) (h : set_scan tid d g = some g') :
    get_scan T g' = get_scan T g := by
  induction g generalizing g' with
  | nil => simp [set_scan] at h
  | cons a g ih =>
    unfold set_scan at h
    by_cases ha : a.thread_id = tid
    · simp only [ha, if_true, Option.some.injEq] at h
      subst h
      have : a.thread_id ≠ T := by rw [ha]; exact hne
      simp only [get_scan, this, hne, if_false]
    · simp only [ha, if_false, Option.map_eq_some'] at h
      obtain ⟨r, hr, he⟩ := h
      subst he
      simp [get_scan, ih r hr]

theorem get_scan_free_other (tid T : Int) (hne : tid ≠ T) (hT : T ≠ -1)
    (g : List tls_data_t) : get_scan T (tls_thread_free tid g) = get_scan T g := by
  induction g with
  | nil => rfl
  | cons a g ih =>
    unfold tls_thread_free
    by_cases ha : a.thread_id = tid
    · have h1 : a.thread_id ≠ T := by rw [ha]; exact hne
      have h2 : (-1 : Int) ≠ T := fun e => hT e.symm
      simp [ha, get_scan, hne, h2]
    · simp only [ha, if_false, get_scan, ih]

theorem get_scan_set_other (T tid : Int) (hne : tid ≠ T) (g : List tls_data_t) (k : Nat)
    (s : tls_data_t) (hk : g[k]? = some s) (hs : s.thread_id ≠ T) (d : Nat) :
    get_scan T (g.set k { thread_id := tid, data := d }) = get_scan T g := by
  induction g generalizing k with
  | nil => simp at hk
  | cons a g ih =>
    cases k with
    | zero =>
      simp at hk; subst hk
      simp [get_scan, hne, hs]
    | succ k =>
      simp only [List.set_cons_succ, get_scan]
      rw [ih k (by simpa using hk)]

/-- The calls after which thread `T` still reads `p`: any call of another thread, and
`tls_thread_alloc` or `get_tls_data` of `T` itself. -/
theorem get_scan_apply_op (T : Int) (hT : T ≠ -1) (p : Nat) (tid : Int) (op : Op)
    (g g' : List tls_data_t) (hg : get_scan T g = some p)
    (hop : tid = T → op = Op.alloc ∨ op = Op.get)
    (h : apply_op tid op g = Except.ok g') : get_scan T g' = some p := by
  cases op with
  | get =>
    simp only [apply_op, get_tls_data] at h
    cases hgs : get_scan tid g with
    | none => rw [hgs] at h; cases h
    | some r =>
      rw [hgs] at h
      have : g' = g := by
        simp only [Except.map] at h
        injection h with h; exact h.symm
      rw [this]; exact hg
  | alloc =>
    simp only [apply_op] at h
    rcases alloc_ok_cases tid g g' h with ⟨_, he⟩ | ⟨hno, k, s, hk, hsf, _, he⟩
    · rw [he]; exact hg
    · have hne : tid ≠ T := by
        intro e; subst e
        obtain ⟨s', hs', he'⟩ := get_scan_some_has_slot tid g p hg
        exact hno s' hs' he'
      rw [he, get_scan_set_other T tid hne g k s hk (by rw [hsf]; exact fun e => hT e.symm)]
      exact hg
  | set d =>
    have hne : tid ≠ T := by
      intro e; rcases hop e with h1 | h1 <;> cases h1
    simp only [apply_op, set_tls_data] at h
    cases hss : set_scan tid d g with
    | none => rw [hss] at h; cases h
    | some r =>
      rw [hss] at h
      injection h with h; subst h
      rw [get_scan_set_scan_other tid T hne d g r hss]; exact hg
  | free =>
    have hne : tid ≠ T := by
      intro e; rcases hop e with h1 | h1 <;> cases h1
    simp only [apply_op] at h
    injection h with h; subst h
    rw [get_scan_free_other tid T hne hT]; exact hg

theorem get_scan_apply_ops (T : Int) (hT : T ≠ -1) (p : Nat) (calls : List (Int × Op))
    (g g' : List tls_data_t) (hg : get_scan T g = some p)
    (hcalls : ∀ c ∈ calls, c.1 = T → c.2 = Op.alloc ∨ c.2 = Op.get)
    (h : apply_ops calls g = Except.ok g') : get_scan T g' = some p := by
  induction calls generalizing g with
  | nil => simp only [apply_ops] at h; injection h with h; subst h; exact hg
  | cons c calls ih =>
    obtain ⟨tid, op⟩ := c
    simp only [apply_ops] at h
    cases hop : apply_op tid op g with
    | error e => rw [hop] at h; cases h
    | ok g1 =>
      rw [hop] at h
      exact ih g1
        (get_scan_apply_op T hT p tid op g g1 hg (hcalls (tid, op) (by simp)) hop)
        (fun c hc => hcalls c (List.mem_cons_of_mem _ hc)) h

/-- C7 (round trip): for every table state, every thread id `T` (the id of a thread is
never the free-slot marker `-1`) and every pointer `p`, if `tls_thread_alloc` succeeds for
`T` then `set_tls_data(p)` by `T` succeeds, `get_tls_data` by `T` returns `p`, and it still
returns `p` after any sequence of successful calls in which `T` itself calls neither
`set_tls_data` nor `tls_thread_free`. -/
theorem tls_round_trip (g g1 : List tls_data_t) (T : Int) (hT : T ≠ -1) (p : Nat)
    (halloc : tls_thread_alloc T g = Except.ok g1) :
    ∃ g2, set_tls_data T p g1 = Except.ok g2 ∧ get_tls_data T g2 = Except.ok p ∧
      ∀ (calls : List (Int × Op)) (g3 : List tls_data_t),
        (∀ c ∈ calls, c.1 = T → c.2 = Op.alloc ∨ c.2 = Op.get) →
        apply_ops calls g2 = Except.ok g3 → get_tls_data T g3 = Except.ok p := by
  obtain ⟨g2, hg2⟩ := set_scan_of_has_slot T p g1 (alloc_ok_has_slot T g g1 halloc)
  have hget := get_scan_set_scan T p g1 g2 hg2
  refine ⟨g2, by simp [set_tls_data, hg2], by simp [get_tls_data, hget], ?_⟩
  intro calls g3 hcalls h3
  have := get_scan_apply_ops T hT p calls g2 g3 hget hcalls h3
  simp [get_tls_data, this]

/-- Witness for C7: thread 7 allocates in a fresh table of three slots and stores 10;
threads 9 and 5 then allocate, store and free, and thread 7 still reads 10. -/
theorem tls_round_trip_witness :
    (7 : Int) ≠ -1 ∧
    tls_thread_alloc 7 (init_storage 3) =
      Except.ok [{ thread_id := 7, data := 0 }, { thread_id := -1, data := 0 },
        { thread_id := -1, data := 0 }] ∧
    apply_ops [(9, Op.alloc), (9, Op.set 3), (5, Op.alloc), (9, Op.free), (7, Op.get)]
        [{ thread_id := 7, data := 10 }, { thread_id := -1, data := 0 },
          { thread_id := -1, data := 0 }] =
      Except.ok [{ thread_id := 7, data := 10 }, { thread_id := -1, data := 0 },
        { thread_id := 5, data := 0 }] ∧
    ∃ g2, set_tls_data 7 10
        [{ thread_id := 7, data := 0 }, { thread_id := -1, data := 0 },
          { thread_id := -1, data := 0 }] = Except.ok g2 ∧
      get_tls_data 7 g2 = Except.ok 10 ∧
      ∀ (calls : List (Int × Op)) (g3 : List tls_data_t),
        (∀ c ∈ calls, c.1 = 7 → c.2 = Op.alloc ∨ c.2 = Op.get) →
        apply_ops calls g2 = Except.ok g3 → get_tls_data 7 g3 = Except.ok 10 :=
  ⟨by decide, rfl, rfl, tls_round_trip (init_storage 3) _ 7 (by decide) 10 rfl⟩

/-- C8 (idempotent alloc): for every table state and every thread id `T` for which
`tls_thread_alloc` succeeds, a second `tls_thread_alloc` by `T` succeeds and leaves every
slot exactly as it was after the first call; the same holds after `T` stored data, so the
second call neither takes a second slot nor resets the data. -/
theorem tls_alloc_idempotent (g g1 : List tls_data_t) (T : Int)
    (halloc : tls_thread_alloc T g = Except.ok g1) :
    tls_thread_alloc T g1 = Except.ok g1 ∧
    ∀ (p : Nat) (g2 : List tls_data_t), set_tls_data T p g1 = Except.ok g2 →
      tls_thread_alloc T g2 = Except.ok g2 ∧ get_tls_data T g2 = Except.ok p := by
  have hslot := alloc_ok_has_slot T g g1 halloc
  refine ⟨alloc_of_has_slot T g1 hslot, ?_⟩
  intro p g2 hset
  simp only [set_tls_data] at hset
  cases hss : set_scan T p g1 with
  | none => rw [hss] at hset; cases hset
  | some r =>
    rw [hss] at hset
    injection hset with hset; subst hset
    refine ⟨alloc_of_has_slot T r (set_scan_has_slot T T p g1 r hss hslot), ?_⟩
    simp [get_tls_data, get_scan_set_scan T p g1 r hss]

/-- Witness for C8: thread 7 allocates in a table whose first slot belongs to thread 3. -/
theorem tls_alloc_idempotent_witness :
    tls_thread_alloc 7 [{ thread_id := 3, data := 9 }, { thread_id := -1, data := 0 }] =
      Except.ok [{ thread_id := 3, data := 9 }, { thread_id := 7, data := 0 }] ∧
    tls_thread_alloc 7 [{ thread_id := 3, data := 9 }, { thread_id := 7, data := 0 }] =
      Except.ok [{ thread_id := 3, data := 9 }, { thread_id := 7, data := 0 }] :=
  ⟨rfl, (tls_alloc_idempotent [{ thread_id := 3, data := 9 }, { thread_id := -1, data := 0 }]
    _ 7 rfl).1⟩

end local_storage
/-! ## Readers-writer lock: safety -/

namespace rw_lock

theorem rw_rel_update {md : Nat → Mode} {t : Nat} {m' : Mode} (A B : Mode) (hAB : A ≠ B)
    (hX : ∀ u v, md u = A → md v ≠ B)
    (hA : m' = A → ∀ v, v ≠ t → md v ≠ B) (hB : m' = B → ∀ u, u ≠ t → md u ≠ A) :
    ∀ u v, Function.update md t m' u = A → Function.update md t m' v ≠ B := by
  intro u v hu hv
  rcases update_cases md t m' u with ⟨hut, eu⟩ | ⟨hut, eu⟩ <;>
    rcases update_cases md t m' v with ⟨hvt, ev⟩ | ⟨hvt, ev⟩
  · rw [eu] at hu; rw [ev] at hv; exact hAB (hu.symm.trans hv)
  · rw [eu] at hu; rw [ev] at hv; exact hA hu v hvt hv
  · rw [eu] at hu; rw [ev] at hv; exact hB hv u hut hu
  · rw [eu] at hu; rw [ev] at hv; exact hX u v hu hv

/-- Assembling the invariant after thread `t` moved to phase `p'` and mode `m'`. -/
theorem InvV_update {n : Nat} {l : ticket_lock} {w : Bool} {r : Int} {ph : Nat → Phase}
    {md : Nat → Mode} (hI : InvV n l w r ph md) (t : Nat) (l' : ticket_lock) (w' : Bool)
    (r' : Int) (p' : Phase) (m' : Mode)
    (hTL : ∃ (q : List Nat) (R : Nat), TLInv n l' (Function.update ph t p') q R)
    (hown : ∃ own : Option Nat,
      (∀ u, (Function.update md t m' u).holdsFlag = true ↔ own = some u) ∧ w' = own.isSome)
    (hrs : ∃ rs : List Nat, rs.Nodup ∧ (∀ u ∈ rs, u < n) ∧
      (∀ u, u ∈ rs ↔ Function.update md t m' u = Mode.counted) ∧ r' = (rs.length : Int))
    (h1 : m' = Mode.wowner → ∀ v, v ≠ t → md v ≠ Mode.counted)
    (h2 : m' = Mode.counted → ∀ u, u ≠ t → md u ≠ Mode.wowner ∧ md u ≠ Mode.wtas)
    (h3 : m' = Mode.rinc → ∀ v, v ≠ t → md v ≠ Mode.wowner)
    (h4 : m' = Mode.wowner → ∀ u, u ≠ t → md u ≠ Mode.rinc)
    (h5 : m' = Mode.wtas → ∀ v, v ≠ t → md v ≠ Mode.counted)
    (hH : m' = Mode.peek ∨ m' = Mode.rinc ∨ m' = Mode.wtas → p' = Phase.held) :
    InvV n l' w' r' (Function.update ph t p') (Function.update md t m') := by
  obtain ⟨_, _, _, X1, X2, X3, H⟩ := hI
  refine ⟨hTL, hown, hrs, ?_, ?_, ?_, ?_⟩
  · exact rw_rel_update Mode.wowner Mode.counted (by decide) X1 h1 (fun h u hu => (h2 h u hu).1)
  · exact rw_rel_update Mode.rinc Mode.wowner (by decide) X2 h3 h4
  · exact rw_rel_update Mode.wtas Mode.counted (by decide) X3 h5 (fun h u hu => (h2 h u hu).2)
  · intro u hu
    rcases update_cases md t m' u with ⟨hut, eu⟩ | ⟨hut, eu⟩
    · rw [eu] at hu; rw [hut]; simp only [Function.update_same]; exact hH hu
    · rw [eu] at hu; rw [Function.update_noteq hut]; exact H u hu

theorem rw_own_same {md : Nat → Mode} {w : Bool} {t : Nat} {m' : Mode}
    (hown : ∃ own : Option Nat, (∀ u, (md u).holdsFlag = true ↔ own = some u) ∧ w = own.isSome)
    (h1 : (md t).holdsFlag = false) (h2 : m'.holdsFlag = false) :
    ∃ own : Option Nat,
      (∀ u, (Function.update md t m' u).holdsFlag = true ↔ own = some u) ∧ w = own.isSome := by
  obtain ⟨own, ho, hw⟩ := hown
  exact ⟨own, occ_other (P := Mode.holdsFlag) ho h1 h2, hw⟩

theorem rw_own_acquire {md : Nat → Mode} {w : Bool} {t : Nat} {m' : Mode}
    (hown : ∃ own : Option Nat, (∀ u, (md u).holdsFlag = true ↔ own = some u) ∧ w = own.isSome)
    (hw : w = false) (h2 : m'.holdsFlag = true) :
    ∃ own : Option Nat,
      (∀ u, (Function.update md t m' u).holdsFlag = true ↔ own = some u) ∧
        true = own.isSome := by
  obtain ⟨own, ho, hw'⟩ := hown
  have hnone : own = none := by
    cases own with
    | none => rfl
    | some u => rw [hw] at hw'; simp at hw'
  subst hnone
  exact ⟨some t, occ_acquire (P := Mode.holdsFlag) ho h2, rfl⟩

theorem rw_own_is {md : Nat → Mode} {w : Bool} {t : Nat}
    (hown : ∃ own : Option Nat, (∀ u, (md u).holdsFlag = true ↔ own = some u) ∧ w = own.isSome)
    (h1 : (md t).holdsFlag = true) :
    (∀ u, (md u).holdsFlag = true ↔ some t = some u) ∧ w = true := by
  obtain ⟨own, ho, hw⟩ := hown
  have : own = some t := (ho t).mp h1
  subst this
  exact ⟨ho, by simpa using hw⟩

theorem rw_own_release {md : Nat → Mode} {w : Bool} {t : Nat} {m' : Mode}
    (hown : ∃ own : Option Nat, (∀ u, (md u).holdsFlag = true ↔ own = some u) ∧ w = own.isSome)
    (h1 : (md t).holdsFlag = true) (h2 : m'.holdsFlag = false) :
    ∃ own : Option Nat,
      (∀ u, (Function.update md t m' u).holdsFlag = true ↔ own = some u) ∧
        false = own.isSome :=
  ⟨none, occ_release (P := Mode.holdsFlag) (rw_own_is hown h1).1 h2, rfl⟩

theorem rw_own_keep {md : Nat → Mode} {w : Bool} {t : Nat} {m' : Mode}
    (hown : ∃ own : Option Nat, (∀ u, (md u).holdsFlag = true ↔ own = some u) ∧ w = own.isSome)
    (h1 : (md t).holdsFlag = true) (h2 : m'.holdsFlag = true) :
    ∃ own : Option Nat,
      (∀ u, (Function.update md t m' u).holdsFlag = true ↔ own = some u) ∧
        true = own.isSome :=
  ⟨some t, occ_keep (P := Mode.holdsFlag) (rw_own_is hown h1).1 h2, rfl⟩

theorem rw_rs_same {n : Nat} {md : Nat → Mode} {r : Int} {t : Nat} {m' : Mode}
    (hrs : ∃ rs : List Nat, rs.Nodup ∧ (∀ u ∈ rs, u < n) ∧
      (∀ u, u ∈ rs ↔ md u = Mode.counted) ∧ r = (rs.length : Int))
    (h : md t = Mode.counted ↔ m' = Mode.counted) :
    ∃ rs : List Nat, rs.Nodup ∧ (∀ u ∈ rs, u < n) ∧
      (∀ u, u ∈ rs ↔ Function.update md t m' u = Mode.counted) ∧ r = (rs.length : Int) := by
  obtain ⟨rs, hnd, hlt, hmem, hr⟩ := hrs
  refine ⟨rs, hnd, hlt, ?_, hr⟩
  intro u
  rcases update_cases md t m' u with ⟨hut, eu⟩ | ⟨_, eu⟩
  · rw [eu, hut, ← h]; exact hmem t
  · rw [eu]; exact hmem u

theorem rw_rs_add {n : Nat} (hn : n < 2147483648) {md : Nat → Mode} {r : Int} {t : Nat}
    (htn : t < n)
    (hrs : ∃ rs : List Nat, rs.Nodup ∧ (∀ u ∈ rs, u < n) ∧
      (∀ u, u ∈ rs ↔ md u = Mode.counted) ∧ r = (rs.length : Int))
    (h : md t ≠ Mode.counted) :
    ∃ rs : List Nat, rs.Nodup ∧ (∀ u ∈ rs, u < n) ∧
      (∀ u, u ∈ rs ↔ Function.update md t Mode.counted u = Mode.counted) ∧
      wrap32 (r + 1) = (rs.length : Int) := by
  obtain ⟨rs, hnd, hlt, hmem, hr⟩ := hrs
  have htrs : t ∉ rs := fun hm => h ((hmem t).mp hm)
  have hnd' : (t :: rs).Nodup := List.nodup_cons.mpr ⟨htrs, hnd⟩
  have hlt' : ∀ u ∈ t :: rs, u < n := by
    intro u hu
    rcases List.mem_cons.mp hu with h1 | h1
    · rw [h1]; exact htn
    · exact hlt u h1
  have hlen := nodup_bounded_length n (t :: rs) hnd' hlt'
  refine ⟨t :: rs, hnd', hlt', ?_, ?_⟩
  · intro u
    rcases update_cases md t Mode.counted u with ⟨hut, eu⟩ | ⟨hut, eu⟩
    · rw [eu, hut]; simp
    · rw [eu, List.mem_cons, ← hmem u]; simp [hut]
  · simp only [List.length_cons] at hlen ⊢
    rw [hr, wrap32_id _ (by omega) (by omega)]; push_cast; ring

theorem rw_rs_remove {n : Nat} {md : Nat → Mode} {r : Int} {t : Nat} {m' : Mode}
    (hn : n < 2147483648)
    (hrs : ∃ rs : List Nat, rs.Nodup ∧ (∀ u ∈ rs, u < n) ∧
      (∀ u, u ∈ rs ↔ md u = Mode.counted) ∧ r = (rs.length : Int))
    (h : md t = Mode.counted) (h' : m' ≠ Mode.counted) :
    ∃ rs : List Nat, rs.Nodup ∧ (∀ u ∈ rs, u < n) ∧
      (∀ u, u ∈ rs ↔ Function.update md t m' u = Mode.counted) ∧
      wrap32 (r - 1) = (rs.length : Int) := by
  obtain ⟨rs, hnd, hlt, hmem, hr⟩ := hrs
  have htrs : t ∈ rs := (hmem t).mpr h
  have hlen := nodup_bounded_length n rs hnd hlt
  have hpos : 0 < rs.length := List.length_pos_of_mem htrs
  refine ⟨rs.erase t, hnd.erase t, fun u hu => hlt u (List.mem_of_mem_erase hu), ?_, ?_⟩
  · intro u
    rcases update_cases md t m' u with ⟨hut, eu⟩ | ⟨hut, eu⟩
    · rw [eu, hut]
      constructor
      · intro hm; exact absurd hm (List.Nodup.not_mem_erase hnd)
      · intro hm; exact absurd hm h'
    · rw [eu, ← hmem u]
      exact List.mem_erase_of_ne hut
  · rw [List.length_erase_of_mem htrs, hr, wrap32_id _ (by omega) (by omega)]
    omega

theorem rw_enter_phase (p : Pc) (c : Call) : (p.enter c).phase = p.phase := by
  cases p <;> cases c <;> rfl

theorem rw_enter_mode (p : Pc) (c : Call) : (p.enter c).mode = p.mode := by
  cases p <;> cases c <;> rfl

theorem rw_mode_phase (v : Pc)
    (h : v.mode = Mode.peek ∨ v.mode = Mode.rinc ∨ v.mode = Mode.wtas) :
    v.phase = Phase.held := by
  cases v <;> simp_all [Pc.mode, Pc.phase]

theorem rw_phase_update (pc : Nat → Pc) (t : Nat) (v : Pc) :
    (fun u => (Function.update pc t v u).phase) =
      Function.update (fun u => (pc u).phase) t v.phase := by
  funext u
  rcases update_cases pc t v u with ⟨h, e⟩ | ⟨h, e⟩
  · rw [e, h]; simp
  · rw [e]; simp [Function.update_noteq h]

theorem rw_mode_update (pc : Nat → Pc) (t : Nat) (v : Pc) :
    (fun u => (Function.update pc t v u).mode) =
      Function.update (fun u => (pc u).mode) t v.mode := by
  funext u
  rcases update_cases pc t v u with ⟨h, e⟩ | ⟨h, e⟩
  · rw [e, h]; simp
  · rw [e]; simp [Function.update_noteq h]

/-- A step that changes the ticket lock and the phase of `t`, but neither its mode nor the
writer flag nor the reader count. -/
theorem rw_step_phase (n : Nat) (s : State) (t : Nat) (lk : rwlock) (v : Pc) (hI : Inv n s)
    (hw : lk.writer = s.lock.writer) (hr : lk.readers = s.lock.readers)
    (hm : v.mode = (s.pc t).mode)
    (hTL : ∃ (q : List Nat) (R : Nat),
      TLInv n lk.lock (Function.update (fun u => (s.pc u).phase) t v.phase) q R) :
    Inv n { lock := lk, pc := Function.update s.pc t v } := by
  unfold Inv at hI ⊢
  simp only
  rw [rw_phase_update, rw_mode_update, hw, hr]
  have hmd : Function.update (fun u => (s.pc u).mode) t v.mode = (fun u => (s.pc u).mode) := by
    rw [hm]; exact Function.update_eq_self t _
  obtain ⟨_, hown, hrs, X1, X2, X3, H⟩ := hI
  rw [hmd]
  refine ⟨hTL, hown, hrs, X1, X2, X3, ?_⟩
  intro u hu
  rcases update_cases (fun u => (s.pc u).phase) t v.phase u with ⟨hut, e⟩ | ⟨_, e⟩
  · rw [e]; apply rw_mode_phase; rw [hm]; rw [hut] at hu; exact hu
  · rw [e]; exact H u hu

/-- A step that changes the mode of `t` and the writer flag or the reader count, but
neither the ticket lock nor the phase of `t`. -/
theorem rw_step_mode (n : Nat) (s : State) (t : Nat) (lk : rwlock) (v : Pc) (hI : Inv n s)
    (hl : lk.lock = s.lock.lock) (hp : v.phase = (s.pc t).phase)
    (hown : ∃ own : Option Nat,
      (∀ u, (Function.update (fun u => (s.pc u).mode) t v.mode u).holdsFlag = true ↔
        own = some u) ∧ lk.writer = own.isSome)
    (hrs : ∃ rs : List Nat, rs.Nodup ∧ (∀ u ∈ rs, u < n) ∧
      (∀ u, u ∈ rs ↔ Function.update (fun u => (s.pc u).mode) t v.mode u = Mode.counted) ∧
      lk.readers = (rs.length : Int))
    (h1 : v.mode = Mode.wowner → ∀ u, u ≠ t → (s.pc u).mode ≠ Mode.counted)
    (h2 : v.mode = Mode.counted →
      ∀ u, u ≠ t → (s.pc u).mode ≠ Mode.wowner ∧ (s.pc u).mode ≠ Mode.wtas)
    (h3 : v.mode = Mode.rinc → ∀ u, u ≠ t → (s.pc u).mode ≠ Mode.wowner)
    (h4 : v.mode = Mode.wowner → ∀ u, u ≠ t → (s.pc u).mode ≠ Mode.rinc)
    (h5 : v.mode = Mode.wtas → ∀ u, u ≠ t → (s.pc u).mode ≠ Mode.counted) :
    Inv n { lock := lk, pc := Function.update s.pc t v } := by
  unfold Inv at hI ⊢
  simp only
  rw [rw_phase_update, rw_mode_update, hl]
  refine InvV_update hI t s.lock.lock lk.writer lk.readers v.phase v.mode ?_ hown hrs
    h1 h2 h3 h4 h5 (rw_mode_phase v)
  have hph : Function.update (fun u => (s.pc u).phase) t v.phase = (fun u => (s.pc u).phase) := by
    rw [hp]; exact Function.update_eq_self t _
  rw [hph]; exact hI.1

theorem rw_Inv_init (n : Nat) : Inv n init := by
  refine ⟨⟨[], 0, TLInv_init n⟩, ⟨none, ?_, rfl⟩, ⟨[], List.nodup_nil, ?_, ?_, rfl⟩,
    ?_, ?_, ?_, ?_⟩
  · intro u; simp [init, Pc.mode, Mode.holdsFlag]
  · intro u hu; simp at hu
  · intro u; simp [init, Pc.mode]
  · intro u v h; simp [init, Pc.mode] at h
  · intro u v h; simp [init, Pc.mode] at h
  · intro u v h; simp [init, Pc.mode] at h
  · intro u h; simp [init, Pc.mode] at h

end rw_lock
/-! ### Every step of the readers-writer lock keeps the invariant -/

namespace rw_lock

theorem rw_TL_same {n : Nat} {s : State} (hI : Inv n s) (t : Nat) (p : Phase)
    (hp : p = (s.pc t).phase) :
    ∃ (q : List Nat) (R : Nat),
      TLInv n s.lock.lock (Function.update (fun u => (s.pc u).phase) t p) q R := by
  have : Function.update (fun u => (s.pc u).phase) t p = (fun u => (s.pc u).phase) := by
    rw [hp]; exact Function.update_eq_self t _
  rw [this]; exact hI.1

theorem rw_mutex {n : Nat} {s : State} (hI : Inv n s) (u v : Nat)
    (hu : (s.pc u).phase = Phase.held) (hv : (s.pc v).phase = Phase.held) : u = v := by
  obtain ⟨⟨q, R, hTL⟩, _⟩ := hI
  exact TLInv_mutex hTL u v hu hv

theorem rw_Inv_step (n : Nat) (hn : n < 2147483648) (s : State) (a : Nat × Call)
    (hI : Inv n s) : Inv n (step n s a) := by
  obtain ⟨t, c⟩ := a
  have hn' : n ≤ 4294967296 := by omega
  have hI0 := hI
  obtain ⟨⟨q, R, hTL⟩, hown, hrs, X1, X2, X3, H⟩ := hI
  unfold step
  simp only
  by_cases htn : t < n
  swap
  · simp only [htn, if_false]; exact hI0
  simp only [htn, if_true]
  have hph := rw_enter_phase (s.pc t) c
  have hmd := rw_enter_mode (s.pc t) c
  cases hp : (s.pc t).enter c with
  | idle => exact hI0
  | r_fetch =>
    have hpt : (s.pc t).phase = Phase.out := by rw [← hph, hp]; rfl
    have hmt : (s.pc t).mode = Mode.plain := by rw [← hmd, hp]; rfl
    exact rw_step_phase n s t _ _ hI0 rfl rfl hmt.symm
      ⟨q ++ [t], R, TLInv_draw hTL htn hpt⟩
  | r_spin m =>
    have hpt : (s.pc t).phase = Phase.spin m := by rw [← hph, hp]; rfl
    have hmt : (s.pc t).mode = Mode.plain := by rw [← hmd, hp]; rfl
    simp only
    by_cases hsp : ticketlock_acquire_spins s.lock.lock m = true
    · simp only [hsp, if_true]; exact hI0
    · have hsp' : ticketlock_acquire_spins s.lock.lock m = false := by simpa using hsp
      simp only [hsp', Bool.false_eq_true, if_false]
      exact rw_step_phase n s t _ _ hI0 rfl rfl hmt.symm
        ⟨q, R, (TLInv_pass hn' hTL hpt hsp').2⟩
  | r_tas =>
    have hpt : (s.pc t).phase = Phase.held := by rw [← hph, hp]; rfl
    have hmt : (s.pc t).mode = Mode.plain := by rw [← hmd, hp]; rfl
    simp only
    by_cases hw : s.lock.writer = true
    · simp only [hw, if_true]
      exact rw_step_phase n s t _ _ hI0 rfl rfl hmt.symm (rw_TL_same hI0 t _ hpt.symm)
    · have hw' : s.lock.writer = false := by simpa using hw
      simp only [hw', Bool.false_eq_true, if_false]
      refine rw_step_mode n s t _ _ hI0 rfl hpt.symm ?_ ?_ ?_ ?_ ?_ ?_ ?_
      · exact rw_own_acquire hown hw' rfl
      · exact rw_rs_same hrs (iff_of_false (by simp [hmt]) (by decide))
      all_goals (intro h; cases h)
  | r_clear =>
    have hpt : (s.pc t).phase = Phase.held := by rw [← hph, hp]; rfl
    have hmt : (s.pc t).mode = Mode.peek := by rw [← hmd, hp]; rfl
    have hflag : ((fun u => (s.pc u).mode) t).holdsFlag = true := by simp [hmt, Mode.holdsFlag]
    refine rw_step_mode n s t _ _ hI0 rfl hpt.symm ?_ ?_ ?_ ?_ ?_ ?_ ?_
    · exact rw_own_release hown hflag rfl
    · exact rw_rs_same hrs (iff_of_false (by simp [hmt]) (by decide))
    · intro h; cases h
    · intro h; cases h
    · intro _ u hut hu
      have := ((rw_own_is hown hflag).1 u).mp (by simp [hu, Mode.holdsFlag])
      exact hut (Option.some.inj this).symm
    · intro h; cases h
    · intro h; cases h
  | r_inc =>
    have hpt : (s.pc t).phase = Phase.held := by rw [← hph, hp]; rfl
    have hmt : (s.pc t).mode = Mode.rinc := by rw [← hmd, hp]; rfl
    refine rw_step_mode n s t _ _ hI0 rfl hpt.symm ?_ ?_ ?_ ?_ ?_ ?_ ?_
    · exact rw_own_same hown (by simp [hmt, Mode.holdsFlag]) rfl
    · exact rw_rs_add hn htn hrs (by simp [hmt])
    · intro h; cases h
    · intro _ u hut
      refine ⟨X2 t u hmt, ?_⟩
      intro hu
      exact hut (rw_mutex hI0 u t (H u (Or.inr (Or.inr hu))) (H t (Or.inr (Or.inl hmt))))
    · intro h; cases h
    · intro h; cases h
    · intro h; cases h
  | r_release =>
    have hpt : (s.pc t).phase = Phase.held := by rw [← hph, hp]; rfl
    have hmt : (s.pc t).mode = Mode.counted := by rw [← hmd, hp]; rfl
    obtain ⟨q', _, hrel⟩ := TLInv_release hTL hpt
    exact rw_step_phase n s t _ _ hI0 rfl rfl hmt.symm ⟨q', R + 1, hrel⟩
  | r_wait cs =>
    have hpt : (s.pc t).phase = cs.phase := by rw [← hph, hp]; rfl
    have hmt : (s.pc t).mode = Mode.plain := by rw [← hmd, hp]; rfl
    have hTL' := cv_wait_step_TLInv hn' s.lock.cv hTL htn cs hpt
    refine rw_step_phase n s t _ _ hI0 rfl rfl ?_ ?_
    · rw [hmt]; cases (condition_variable_wait_step s.lock.cv s.lock.lock cs).2.2 <;> rfl
    · have : (r_after (condition_variable_wait_step s.lock.cv s.lock.lock cs).2.2).phase =
          CvPc.phaseAfter (condition_variable_wait_step s.lock.cv s.lock.lock cs).2.2 := by
        cases (condition_variable_wait_step s.lock.cv s.lock.lock cs).2.2 <;> rfl
      rw [this]; exact hTL'
  | r_retry =>
    have hpt : (s.pc t).phase = Phase.held := by rw [← hph, hp]; rfl
    have hmt : (s.pc t).mode = Mode.plain := by rw [← hmd, hp]; rfl
    obtain ⟨q', _, hrel⟩ := TLInv_release hTL hpt
    exact rw_step_phase n s t _ _ hI0 rfl rfl hmt.symm ⟨q', R + 1, hrel⟩
  | reading =>
    have hpt : (s.pc t).phase = Phase.out := by rw [← hph, hp]; rfl
    have hmt : (s.pc t).mode = Mode.counted := by rw [← hmd, hp]; rfl
    have hv : ∀ b : Prop, [Decidable b] → (if b then Pc.rr_signal else Pc.idle).mode = Mode.plain ∧
        (if b then Pc.rr_signal else Pc.idle).phase = Phase.out := by
      intro b _; split <;> exact ⟨rfl, rfl⟩
    refine rw_step_mode n s t _ _ hI0 rfl (by rw [(hv _).2, hpt]) ?_ ?_ ?_ ?_ ?_ ?_ ?_
    · rw [(hv _).1]
      exact rw_own_same hown (by simp [hmt, Mode.holdsFlag]) rfl
    · rw [(hv _).1]
      exact rw_rs_remove hn hrs hmt (by decide)
    all_goals (rw [(hv _).1]; intro h; cases h)
  | rr_signal =>
    have hpt : (s.pc t).phase = Phase.out := by rw [← hph, hp]; rfl
    have hmt : (s.pc t).mode = Mode.plain := by rw [← hmd, hp]; rfl
    simp only
    split
    · exact rw_step_phase n s t _ _ hI0 rfl rfl hmt.symm (rw_TL_same hI0 t _ hpt.symm)
    · exact rw_step_phase n s t _ _ hI0 rfl rfl hmt.symm (rw_TL_same hI0 t _ hpt.symm)
  | rr_clear =>
    have hpt : (s.pc t).phase = Phase.out := by rw [← hph, hp]; rfl
    have hmt : (s.pc t).mode = Mode.plain := by rw [← hmd, hp]; rfl
    exact rw_step_phase n s t _ _ hI0 rfl rfl hmt.symm (rw_TL_same hI0 t _ hpt.symm)
  | w_fetch =>
    have hpt : (s.pc t).phase = Phase.out := by rw [← hph, hp]; rfl
    have hmt : (s.pc t).mode = Mode.plain := by rw [← hmd, hp]; rfl
    exact rw_step_phase n s t _ _ hI0 rfl rfl hmt.symm
      ⟨q ++ [t], R, TLInv_draw hTL htn hpt⟩
  | w_spin m =>
    have hpt : (s.pc t).phase = Phase.spin m := by rw [← hph, hp]; rfl
    have hmt : (s.pc t).mode = Mode.plain := by rw [← hmd, hp]; rfl
    simp only
    by_cases hsp : ticketlock_acquire_spins s.lock.lock m = true
    · simp only [hsp, if_true]; exact hI0
    · have hsp' : ticketlock_acquire_spins s.lock.lock m = false := by simpa using hsp
      simp only [hsp', Bool.false_eq_true, if_false]
      exact rw_step_phase n s t _ _ hI0 rfl rfl hmt.symm
        ⟨q, R, (TLInv_pass hn' hTL hpt hsp').2⟩
  | w_readers =>
    have hpt : (s.pc t).phase = Phase.held := by rw [← hph, hp]; rfl
    have hmt : (s.pc t).mode = Mode.plain := by rw [← hmd, hp]; rfl
    simp only
    by_cases hr : s.lock.readers > 0
    · simp only [hr, if_true]
      exact rw_step_phase n s t _ _ hI0 rfl rfl hmt.symm (rw_TL_same hI0 t _ hpt.symm)
    · simp only [hr, if_false]
      refine rw_step_mode n s t _ _ hI0 rfl hpt.symm ?_ ?_ ?_ ?_ ?_ ?_ ?_
      · exact rw_own_same hown (by simp [hmt, Mode.holdsFlag]) rfl
      · exact rw_rs_same hrs (iff_of_false (by simp [hmt]) (by decide))
      · intro h; cases h
      · intro h; cases h
      · intro h; cases h
      · intro h; cases h
      · intro _ u _ hu
        obtain ⟨rs, _, _, hmem, hlen⟩ := hrs
        have : u ∈ rs := (hmem u).mpr hu
        have := List.length_pos_of_mem this
        omega
  | w_tas =>
    have hpt : (s.pc t).phase = Phase.held := by rw [← hph, hp]; rfl
    have hmt : (s.pc t).mode = Mode.wtas := by rw [← hmd, hp]; rfl
    simp only
    by_cases hw : s.lock.writer = true
    · simp only [hw, if_true]
      refine rw_step_mode n s t _ _ hI0 rfl hpt.symm ?_ ?_ ?_ ?_ ?_ ?_ ?_
      · exact rw_own_same hown (by simp [hmt, Mode.holdsFlag]) rfl
      · exact rw_rs_same hrs (iff_of_false (by simp [hmt]) (by decide))
      all_goals (intro h; cases h)
    · have hw' : s.lock.writer = false := by simpa using hw
      simp only [hw', Bool.false_eq_true, if_false]
      refine rw_step_mode n s t _ _ hI0 rfl hpt.symm ?_ ?_ ?_ ?_ ?_ ?_ ?_
      · exact rw_own_acquire hown hw' rfl
      · exact rw_rs_same hrs (iff_of_false (by simp [hmt]) (by decide))
      · intro _ u _; exact X3 t u hmt
      · intro h; cases h
      · intro h; cases h
      · intro _ u hut hu
        exact hut (rw_mutex hI0 u t (H u (Or.inr (Or.inl hu))) (H t (Or.inr (Or.inr hmt))))
      · intro h; cases h
  | w_wait cs =>
    have hpt : (s.pc t).phase = cs.phase := by rw [← hph, hp]; rfl
    have hmt : (s.pc t).mode = Mode.plain := by rw [← hmd, hp]; rfl
    have hTL' := cv_wait_step_TLInv hn' s.lock.cv hTL htn cs hpt
    refine rw_step_phase n s t _ _ hI0 rfl rfl ?_ ?_
    · rw [hmt]; cases (condition_variable_wait_step s.lock.cv s.lock.lock cs).2.2 <;> rfl
    · have : (w_after (condition_variable_wait_step s.lock.cv s.lock.lock cs).2.2).phase =
          CvPc.phaseAfter (condition_variable_wait_step s.lock.cv s.lock.lock cs).2.2 := by
        cases (condition_variable_wait_step s.lock.cv s.lock.lock cs).2.2 <;> rfl
      rw [this]; exact hTL'
  | w_tas2 =>
    have hpt : (s.pc t).phase = Phase.held := by rw [← hph, hp]; rfl
    have hmt : (s.pc t).mode = Mode.wowner := by rw [← hmd, hp]; rfl
    have hflag : ((fun u => (s.pc u).mode) t).holdsFlag = true := by simp [hmt, Mode.holdsFlag]
    refine rw_step_phase n s t _ _ hI0 ?_ rfl hmt.symm (rw_TL_same hI0 t _ hpt.symm)
    exact (rw_own_is hown hflag).2.symm
  | w_release =>
    have hpt : (s.pc t).phase = Phase.held := by rw [← hph, hp]; rfl
    have hmt : (s.pc t).mode = Mode.wowner := by rw [← hmd, hp]; rfl
    obtain ⟨q', _, hrel⟩ := TLInv_release hTL hpt
    exact rw_step_phase n s t _ _ hI0 rfl rfl hmt.symm ⟨q', R + 1, hrel⟩
  | writing =>
    have hpt : (s.pc t).phase = Phase.out := by rw [← hph, hp]; rfl
    have hmt : (s.pc t).mode = Mode.wowner := by rw [← hmd, hp]; rfl
    have hflag : ((fun u => (s.pc u).mode) t).holdsFlag = true := by simp [hmt, Mode.holdsFlag]
    refine rw_step_mode n s t _ _ hI0 rfl hpt.symm ?_ ?_ ?_ ?_ ?_ ?_ ?_
    · exact rw_own_release hown hflag rfl
    · exact rw_rs_same hrs (iff_of_false (by simp [hmt]) (by decide))
    all_goals (intro h; cases h)
  | wb_load =>
    have hpt : (s.pc t).phase = Phase.out := by rw [← hph, hp]; rfl
    have hmt : (s.pc t).mode = Mode.plain := by rw [← hmd, hp]; rfl
    exact rw_step_phase n s t _ _ hI0 rfl rfl hmt.symm (rw_TL_same hI0 t _ hpt.symm)
  | wb_loop i w =>
    have hpt : (s.pc t).phase = Phase.out := by rw [← hph, hp]; rfl
    have hmt : (s.pc t).mode = Mode.plain := by rw [← hmd, hp]; rfl
    simp only
    split
    · exact rw_step_phase n s t _ _ hI0 rfl rfl hmt.symm (rw_TL_same hI0 t _ hpt.symm)
    · exact rw_step_phase n s t _ _ hI0 rfl rfl hmt.symm (rw_TL_same hI0 t _ hpt.symm)

theorem rw_Inv_run (n : Nat) (hn : n < 2147483648) (sched : List (Nat × Call)) :
    Inv n (run n sched) :=
  runSched_inv (step n) (Inv n) (fun s a h => rw_Inv_step n hn s a h) sched init
    (rw_Inv_init n)

theorem rw_readers_zero {n : Nat} {s : State} (hI : Inv n s)
    (h : ∀ v, (s.pc v).mode ≠ Mode.counted) : s.lock.readers = 0 := by
  obtain ⟨_, _, ⟨rs, _, _, hmem, hlen⟩, _⟩ := hI
  cases rs with
  | nil => simpa using hlen
  | cons a rs => exact absurd ((hmem a).mp (by simp)) (h a)

/-- C3 (readers-writer lock safety): for fewer than 2^31 threads, in every state reached
from `rwlock_init` by any interleaving of threads that use the read pair and the write
pair of calls: no thread is in a read section while another is in a write section; no two
threads are in write sections; a writer that has left the wait loop of
`rwlock_acquire_write` sees `readers == 0` and the writer flag set; and the step by which
a writer leaves the wait loop finds `readers == 0` and the flag clear, and sets the flag
itself. -/
theorem rwlock_safety (n : Nat) (hn : n < 2147483648) (sched : List (Nat × Call)) :
    (∀ t1 t2, (run n sched).pc t1 = Pc.reading → (run n sched).pc t2 ≠ Pc.writing) ∧
    (∀ t1 t2, (run n sched).pc t1 = Pc.writing → (run n sched).pc t2 = Pc.writing →
      t1 = t2) ∧
    (∀ t, ((run n sched).pc t).mode = Mode.wowner →
      (run n sched).lock.readers = 0 ∧ (run n sched).lock.writer = true) ∧
    (∀ t c, (run n sched).pc t = Pc.w_tas → (step n (run n sched) (t, c)).pc t = Pc.w_tas2 →
      (run n sched).lock.readers = 0 ∧ (run n sched).lock.writer = false ∧
      (step n (run n sched) (t, c)).lock.writer = true ∧
      (step n (run n sched) (t, c)).lock.readers = 0) := by
  have hI := rw_Inv_run n hn sched
  obtain ⟨_, hown, _, X1, _, X3, _⟩ := rw_Inv_run n hn sched
  refine ⟨?_, ?_, ?_, ?_⟩
  · intro t1 t2 h1 h2
    exact X1 t2 t1 (by simp [h2, Pc.mode]) (by simp [h1, Pc.mode])
  · intro t1 t2 h1 h2
    obtain ⟨own, ho, _⟩ := hown
    have e1 := (ho t1).mp (by simp [h1, Pc.mode, Mode.holdsFlag])
    have e2 := (ho t2).mp (by simp [h2, Pc.mode, Mode.holdsFlag])
    rw [e1] at e2
    exact Option.some.inj e2
  · intro t ht
    refine ⟨rw_readers_zero hI (fun v => X1 t v ht), ?_⟩
    have hflag : ((fun u => ((run n sched).pc u).mode) t).holdsFlag = true := by
      simp only [ht]; rfl
    exact (rw_own_is hown hflag).2
  · intro t c ht hstep
    have hr : (run n sched).lock.readers = 0 :=
      rw_readers_zero hI (fun v => X3 t v (by simp [ht, Pc.mode]))
    unfold step at hstep ⊢
    simp only at hstep ⊢
    by_cases htn : t < n
    swap
    · simp only [htn, if_false] at hstep; rw [ht] at hstep; cases hstep
    simp only [htn, if_true, ht, Pc.enter] at hstep ⊢
    by_cases hw : (run n sched).lock.writer = true
    · simp only [hw, if_true, Function.update_same] at hstep; cases hstep
    · have hw' : (run n sched).lock.writer = false := by simpa using hw
      simp only [hw', Bool.false_eq_true, if_false]
      exact ⟨hr, trivial, trivial, hr⟩

/-- Witness for C3: of two threads, thread 1 is in its write section while thread 0 waits
in `rwlock_acquire_read`. -/
theorem rwlock_safety_witness :
    (2 < 2147483648) ∧
    (run 2 [(1, Call.write), (1, Call.write), (1, Call.write), (1, Call.write),
      (1, Call.write), (0, Call.read), (1, Call.write), (0, Call.read), (0, Call.read)]).pc 1 =
      Pc.writing ∧
    (∀ t1, (run 2 [(1, Call.write), (1, Call.write), (1, Call.write), (1, Call.write),
      (1, Call.write), (0, Call.read), (1, Call.write), (0, Call.read), (0, Call.read)]).pc t1 =
        Pc.reading →
      (run 2 [(1, Call.write), (1, Call.write), (1, Call.write), (1, Call.write),
        (1, Call.write), (0, Call.read), (1, Call.write), (0, Call.read),
        (0, Call.read)]).pc 1 ≠ Pc.writing) :=
  ⟨by decide, by decide,
    fun t1 => (rwlock_safety 2 (by decide) [(1, Call.write), (1, Call.write), (1, Call.write),
      (1, Call.write), (1, Call.write), (0, Call.read), (1, Call.write), (0, Call.read),
      (0, Call.read)]).1 t1 1⟩

end rw_lock
/-! ## Producer/consumer: the linked queue -/

namespace cp_pattern

theorem chain_addr_ne_zero {next value : Nat → Nat} :
    ∀ (nodes : List (Nat × Nat)) (p : Nat), Chain next value p nodes →
      ∀ a ∈ nodes.map Prod.fst, a ≠ 0 := by
  intro nodes
  induction nodes with
  | nil => intro p _ a ha; simp at ha
  | cons x rest ih =>
    intro p h a ha
    obtain ⟨b, w⟩ := x
    obtain ⟨_, hb, _, hrest⟩ := h
    simp only [List.map_cons, List.mem_cons] at ha
    rcases ha with h1 | h1
    · rw [h1]; exact hb
    · exact ih _ hrest a h1

theorem chain_congr {next value next' value' : Nat → Nat} :
    ∀ (nodes : List (Nat × Nat)) (p : Nat),
      (∀ a ∈ nodes.map Prod.fst, next' a = next a ∧ value' a = value a) →
      Chain next value p nodes → Chain next' value' p nodes := by
  intro nodes
  induction nodes with
  | nil => intro p _ h; exact h
  | cons x rest ih =>
    intro p hsame h
    obtain ⟨b, w⟩ := x
    obtain ⟨hp, hb, hv, hrest⟩ := h
    have hb' := hsame b (by simp)
    refine ⟨hp, hb, by rw [hb'.2]; exact hv, ?_⟩
    rw [hb'.1]
    exact ih _ (fun a ha => hsame a (by simp only [List.map_cons, List.mem_cons]; right; exact ha))
      hrest

theorem lastAddr_mem : ∀ (nodes : List (Nat × Nat)), nodes ≠ [] →
    lastAddr nodes ∈ nodes.map Prod.fst := by
  intro nodes
  induction nodes with
  | nil => intro h; exact absurd rfl h
  | cons x rest ih =>
    intro _
    cases rest with
    | nil => obtain ⟨a, v⟩ := x; simp [lastAddr]
    | cons y rest' =>
      have := ih (by simp)
      simp only [lastAddr, List.map_cons, List.mem_cons] at this ⊢
      right; exact this

theorem lastAddr_snoc : ∀ (nodes : List (Nat × Nat)) (a v : Nat),
    lastAddr (nodes ++ [(a, v)]) = a := by
  intro nodes
  induction nodes with
  | nil => intro a v; rfl
  | cons x rest ih =>
    intro a v
    cases rest with
    | nil => obtain ⟨b, w⟩ := x; simp [lastAddr]
    | cons y rest' =>
      have := ih a v
      simp only [List.cons_append, lastAddr] at this ⊢
      exact this

theorem lastAddr_cons_cons (x y : Nat × Nat) (rest : List (Nat × Nat)) :
    lastAddr (x :: y :: rest) = lastAddr (y :: rest) := by
  obtain ⟨a, v⟩ := x
  rfl

/-- Appending the fresh node `a` behind the last node of a non-empty list. -/
theorem chain_snoc {next value : Nat → Nat} (a v : Nat) (ha0 : a ≠ 0) :
    ∀ (nodes : List (Nat × Nat)) (p : Nat), nodes ≠ [] → Chain next value p nodes →
      (nodes.map Prod.fst).Nodup → a ∉ nodes.map Prod.fst →
      Chain (Function.update (Function.update next a 0) (lastAddr nodes) a)
        (Function.update value a v) p (nodes ++ [(a, v)]) := by
  intro nodes
  induction nodes with
  | nil => intro p h; exact absurd rfl h
  | cons x rest ih =>
    intro p _ hch hnd hfresh
    obtain ⟨b, w⟩ := x
    obtain ⟨hp, hb, hv, hrest⟩ := hch
    have hba : b ≠ a := by
      intro e; apply hfresh; simp [e]
    cases rest with
    | nil =>
      have hnb : next b = 0 := hrest
      refine ⟨hp, hb, by rw [Function.update_noteq hba]; exact hv, ?_⟩
      simp only [lastAddr, Function.update_same]
      refine ⟨rfl, ha0, by simp, ?_⟩
      show Function.update (Function.update next a 0) b a a = 0
      rw [Function.update_noteq (Ne.symm hba), Function.update_same]
    | cons y rest' =>
      have hnd' : ((y :: rest').map Prod.fst).Nodup := by
        simp only [List.map_cons, List.nodup_cons] at hnd ⊢; exact hnd.2
      have hfresh' : a ∉ (y :: rest').map Prod.fst := by
        intro hm; apply hfresh
        simp only [List.map_cons, List.mem_cons] at hm ⊢; right; exact hm
      have hlast : lastAddr (y :: rest') ∈ (y :: rest').map Prod.fst := lastAddr_mem _ (by simp)
      have hbl : b ≠ lastAddr (y :: rest') := by
        intro e
        simp only [List.map_cons, List.nodup_cons] at hnd
        apply hnd.1
        rw [e]; simpa using hlast
      have := ih (next b) (by simp) hrest hnd' hfresh'
      rw [lastAddr_cons_cons]
      refine ⟨hp, hb, by rw [Function.update_noteq hba]; exact hv, ?_⟩
      rw [Function.update_noteq hbl, Function.update_noteq hba]
      exact this

theorem chain_head_zero {next value : Nat → Nat} {p : Nat} {nodes : List (Nat × Nat)}
    (h : Chain next value p nodes) : p = 0 ↔ nodes = [] := by
  cases nodes with
  | nil => simp; exact h
  | cons x rest =>
    obtain ⟨a, v⟩ := x
    obtain ⟨hp, ha, _, _⟩ := h
    simp; rw [hp]; exact ha

theorem lastAddr_zero {next value : Nat → Nat} {p : Nat} {nodes : List (Nat × Nat)}
    (h : Chain next value p nodes) : lastAddr nodes = 0 ↔ nodes = [] := by
  constructor
  · intro h0
    by_contra hne
    exact chain_addr_ne_zero nodes p h _ (lastAddr_mem nodes hne) h0
  · intro e; rw [e]; rfl

end cp_pattern
/-! ### The queue invariant under enqueue, dequeue and free -/

namespace cp_pattern

theorem InvQ_enqueue {q : Queue} {enq deq : List Nat} {hn : Nat → Option Nat}
    {dq : Nat → Bool} (a v : Nat) (ha0 : a ≠ 0) (hfresh : a ∉ q.live)
    (hI : InvQ q enq deq hn dq) : InvQ (enqueue q a v) (enq ++ [v]) deq hn dq := by
  obtain ⟨⟨nodes, hch, htail, hnd, hlive, henq, hheld⟩, hln, hhl, hhu, hdq⟩ := hI
  have hanodes : a ∉ nodes.map Prod.fst := fun hm => hfresh (hlive a hm)
  have hheld' : ∀ u b, hn u = some b → b ∉ (nodes ++ [(a, v)]).map Prod.fst := by
    intro u b hu hm
    simp only [List.map_append, List.map_cons, List.map_nil, List.mem_append,
      List.mem_singleton] at hm
    rcases hm with h1 | h1
    · exact hheld u b hu h1
    · rw [h1] at hu; exact hfresh (hhl u a hu)
  have hnd' : ((nodes ++ [(a, v)]).map Prod.fst).Nodup := by
    simp only [List.map_append, List.map_cons, List.map_nil]
    exact List.Nodup.append hnd (List.nodup_singleton a) (by simpa using hanodes)
  have hlive' : ∀ b ∈ (nodes ++ [(a, v)]).map Prod.fst, b ∈ a :: q.live := by
    intro b hb
    simp only [List.map_append, List.map_cons, List.map_nil, List.mem_append,
      List.mem_singleton] at hb
    rcases hb with h1 | h1
    · exact List.mem_cons_of_mem _ (hlive b h1)
    · rw [h1]; exact List.mem_cons_self _ _
  have henq' : enq ++ [v] = deq ++ (nodes ++ [(a, v)]).map Prod.snd := by
    rw [henq]; simp
  have hln' : (a :: q.live).Nodup := List.nodup_cons.mpr ⟨hfresh, hln⟩
  have hhl' : ∀ u b, hn u = some b → b ∈ a :: q.live :=
    fun u b hu => List.mem_cons_of_mem _ (hhl u b hu)
  unfold enqueue
  by_cases ht : q.queue_tail ≠ 0
  · rw [if_pos ht]
    have hne : nodes ≠ [] := by
      intro e; apply ht; rw [htail, e]; rfl
    refine ⟨⟨nodes ++ [(a, v)], ?_, (lastAddr_snoc nodes a v).symm, hnd', hlive', henq', hheld'⟩,
      hln', hhl', hhu, hdq⟩
    simp only
    rw [htail]
    exact chain_snoc a v ha0 nodes q.queue_head hne hch hnd hanodes
  · rw [if_neg ht]
    have ht0 : q.queue_tail = 0 := by simpa using ht
    have hnil : nodes = [] := (lastAddr_zero hch).mp (by rw [← htail]; exact ht0)
    subst hnil
    refine ⟨⟨[] ++ [(a, v)], ?_, by simp [lastAddr], hnd', hlive', henq', hheld'⟩,
      hln', hhl', hhu, ?_⟩
    · exact ⟨rfl, ha0, by simp, by simp [Chain]⟩
    · intro _ _; exact ha0

theorem InvQ_dequeue {q : Queue} {enq deq : List Nat} {hn : Nat → Option Nat}
    {dq : Nat → Bool} (t : Nat) (hdqt : dq t = true) (hothers : ∀ u, u ≠ t → dq u = false)
    (hI : InvQ q enq deq hn dq) :
    InvQ (dequeue q) enq (deq ++ [q.value q.queue_head])
      (Function.update hn t (some q.queue_head)) (Function.update dq t false) := by
  obtain ⟨⟨nodes, hch, htail, hnd, hlive, henq, hheld⟩, hln, hhl, hhu, hdq⟩ := hI
  have hhead := hdq t hdqt
  cases nodes with
  | nil => exact absurd hch hhead
  | cons x rest =>
    obtain ⟨a, v⟩ := x
    obtain ⟨hp, ha0, hv, hrest⟩ := hch
    have hnd2 := hnd
    simp only [List.map_cons, List.nodup_cons] at hnd2
    refine ⟨⟨rest, ?_, ?_, hnd2.2, ?_, ?_, ?_⟩, hln, ?_, ?_, ?_⟩
    · simp only [dequeue]; rw [hp]; exact hrest
    · simp only [dequeue]
      rw [hp]
      cases rest with
      | nil =>
        have : q.next a = 0 := hrest
        simp [this, lastAddr]
      | cons y rest' =>
        obtain ⟨b, w⟩ := y
        have hb : q.next a = b := hrest.1
        have hb0 : b ≠ 0 := hrest.2.1
        rw [hb]; simp only [hb0, if_false]
        rw [htail]; rfl
    · intro b hb
      exact hlive b (by simp only [List.map_cons, List.mem_cons]; right; exact hb)
    · rw [henq, hp, hv]; simp
    · intro u b hu
      rcases update_cases hn t (some q.queue_head) u with ⟨_, e⟩ | ⟨_, e⟩
      · rw [e] at hu
        have : b = a := by rw [← hp]; exact (Option.some.inj hu).symm
        rw [this]; exact hnd2.1
      · rw [e] at hu
        intro hm
        exact hheld u b hu (by simp only [List.map_cons, List.mem_cons]; right; exact hm)
    · intro u b hu
      rcases update_cases hn t (some q.queue_head) u with ⟨_, e⟩ | ⟨_, e⟩
      · rw [e] at hu
        have : b = a := by rw [← hp]; exact (Option.some.inj hu).symm
        rw [this]; exact hlive a (by simp)
      · rw [e] at hu; exact hhl u b hu
    · intro u w b hu hw
      have hnot : ∀ z, hn z ≠ some q.queue_head := by
        intro z hz
        exact hheld z q.queue_head hz (by rw [hp]; simp)
      rcases update_cases hn t (some q.queue_head) u with ⟨hut, eu⟩ | ⟨hut, eu⟩ <;>
        rcases update_cases hn t (some q.queue_head) w with ⟨hwt, ew⟩ | ⟨hwt, ew⟩
      · rw [hut, hwt]
      · rw [eu] at hu; rw [ew] at hw
        rw [← hu] at hw; exact absurd hw (hnot w)
      · rw [eu] at hu; rw [ew] at hw
        rw [← hw] at hu; exact absurd hu (hnot u)
      · rw [eu] at hu; rw [ew] at hw; exact hhu u w b hu hw
    · intro u hu
      rcases update_cases dq t false u with ⟨_, e⟩ | ⟨hut, e⟩
      · rw [e] at hu; cases hu
      · rw [e, hothers u hut] at hu; cases hu

theorem InvQ_free {q : Queue} {enq deq : List Nat} {hn : Nat → Option Nat}
    {dq : Nat → Bool} (t a : Nat) (hnt : hn t = some a) (hI : InvQ q enq deq hn dq) :
    InvQ (free q a) enq deq (Function.update hn t none) dq := by
  obtain ⟨⟨nodes, hch, htail, hnd, hlive, henq, hheld⟩, hln, hhl, hhu, hdq⟩ := hI
  have hanodes : a ∉ nodes.map Prod.fst := hheld t a hnt
  refine ⟨⟨nodes, hch, htail, hnd, ?_, henq, ?_⟩, hln.erase a, ?_, ?_, hdq⟩
  · intro b hb
    have hba : b ≠ a := by intro e; rw [e] at hb; exact hanodes hb
    exact (List.mem_erase_of_ne hba).mpr (hlive b hb)
  · intro u b hu
    rcases update_cases hn t none u with ⟨_, e⟩ | ⟨_, e⟩
    · rw [e] at hu; cases hu
    · rw [e] at hu; exact hheld u b hu
  · intro u b hu
    rcases update_cases hn t none u with ⟨_, e⟩ | ⟨hut, e⟩
    · rw [e] at hu; cases hu
    · rw [e] at hu
      have hba : b ≠ a := by
        intro e'; rw [e'] at hu; exact hut (hhu u t a hu hnt)
      exact (List.mem_erase_of_ne hba).mpr (hhl u b hu)
  · intro u w b hu hw
    rcases update_cases hn t none u with ⟨_, eu⟩ | ⟨_, eu⟩
    · rw [eu] at hu; cases hu
    · rcases update_cases hn t none w with ⟨_, ew⟩ | ⟨_, ew⟩
      · rw [ew] at hw; cases hw
      · rw [eu] at hu; rw [ew] at hw; exact hhu u w b hu hw

theorem InvQ_dq {q : Queue} {enq deq : List Nat} {hn : Nat → Option Nat}
    {dq : Nat → Bool} (t : Nat) (b : Bool) (hb : b = true → q.queue_head ≠ 0)
    (hI : InvQ q enq deq hn dq) : InvQ q enq deq hn (Function.update dq t b) := by
  obtain ⟨hnodes, hln, hhl, hhu, hdq⟩ := hI
  refine ⟨hnodes, hln, hhl, hhu, ?_⟩
  intro u hu
  rcases update_cases dq t b u with ⟨_, e⟩ | ⟨_, e⟩
  · rw [e] at hu; exact hb hu
  · rw [e] at hu; exact hdq u hu

theorem InvQ_empty {q : Queue} {enq deq : List Nat} {hn : Nat → Option Nat}
    {dq : Nat → Bool} (hI : InvQ q enq deq hn dq) (h0 : q.queue_head = 0) : enq = deq := by
  obtain ⟨⟨nodes, hch, _, _, _, henq, _⟩, _⟩ := hI
  have := (chain_head_zero hch).mp h0
  rw [henq, this]; simp

end cp_pattern
/-! ### The value, count and shutdown invariants under the steps that change them -/

namespace cp_pattern

theorem InvS_retag {max_num : Nat} {seen : Nat → Bool} {enq : List Nat} {vt : Nat → VTag}
    (t : Nat) (g : VTag) (hold : ∀ v, vt t ≠ VTag.enqueue v)
    (hg : ∀ v, g = VTag.num v ∨ g = VTag.mark v → v < max_num)
    (hm : ∀ v, g = VTag.mark v → seen v = false) (he : ∀ v, g ≠ VTag.enqueue v)
    (hI : InvS max_num seen enq vt) : InvS max_num seen enq (Function.update vt t g) := by
  obtain ⟨hnd, hlt, hseen, hnum, hmark, hfresh⟩ := hI
  refine ⟨hnd, hlt, ?_, ?_, ?_, ?_⟩
  · intro v
    rw [hseen v]
    constructor
    · rintro (h | ⟨u, hu⟩)
      · left; exact h
      · right
        have hut : u ≠ t := by intro e; rw [e] at hu; exact hold v hu
        exact ⟨u, by rw [Function.update_noteq hut]; exact hu⟩
    · rintro (h | ⟨u, hu⟩)
      · left; exact h
      · right
        rcases update_cases vt t g u with ⟨_, e⟩ | ⟨_, e⟩
        · rw [e] at hu; exact absurd hu (he v)
        · rw [e] at hu; exact ⟨u, hu⟩
  · intro u v hu
    rcases update_cases vt t g u with ⟨_, e⟩ | ⟨_, e⟩
    · rw [e] at hu
      rcases hu with h | h | h
      · exact hg v (Or.inl h)
      · exact hg v (Or.inr h)
      · exact absurd h (he v)
    · rw [e] at hu; exact hnum u v hu
  · intro u v hu
    rcases update_cases vt t g u with ⟨_, e⟩ | ⟨_, e⟩
    · rw [e] at hu; exact hm v hu
    · rw [e] at hu; exact hmark u v hu
  · intro u v hu
    rcases update_cases vt t g u with ⟨_, e⟩ | ⟨_, e⟩
    · rw [e] at hu; exact absurd hu (he v)
    · rw [e] at hu; exact hfresh u v hu

theorem InvS_mark {max_num : Nat} {seen : Nat → Bool} {enq : List Nat} {vt : Nat → VTag}
    (t v : Nat) (ht : vt t = VTag.mark v)
    (huniq : ∀ u, u ≠ t → ∀ w, vt u ≠ VTag.mark w ∧ vt u ≠ VTag.enqueue w)
    (hI : InvS max_num seen enq vt) :
    InvS max_num (Function.update seen v true) enq (Function.update vt t (VTag.enqueue v)) := by
  obtain ⟨hnd, hlt, hseen, hnum, hmark, hfresh⟩ := hI
  have hunseen : seen v = false := hmark t v ht
  have hvenq : v ∉ enq := by
    intro hm
    have := (hseen v).mpr (Or.inl hm)
    rw [hunseen] at this; cases this
  refine ⟨hnd, hlt, ?_, ?_, ?_, ?_⟩
  · intro w
    by_cases hwv : w = v
    · subst hwv
      simp only [Function.update_same, true_iff]
      right; exact ⟨t, by simp⟩
    · rw [Function.update_noteq hwv, hseen w]
      constructor
      · rintro (h | ⟨u, hu⟩)
        · left; exact h
        · have hut : u = t := by
            by_contra hne; exact (huniq u hne w).2 hu
          rw [hut, ht] at hu; cases hu
      · rintro (h | ⟨u, hu⟩)
        · left; exact h
        · rcases update_cases vt t (VTag.enqueue v) u with ⟨_, e⟩ | ⟨hut, e⟩
          · rw [e] at hu; injection hu with hu; exact absurd hu.symm hwv
          · rw [e] at hu; exact absurd hu (huniq u hut w).2
  · intro u w hu
    rcases update_cases vt t (VTag.enqueue v) u with ⟨_, e⟩ | ⟨_, e⟩
    · rw [e] at hu
      rcases hu with h | h | h
      · cases h
      · cases h
      · injection h with h; rw [← h]; exact hnum t v (Or.inr (Or.inl ht))
    · rw [e] at hu; exact hnum u w hu
  · intro u w hu
    rcases update_cases vt t (VTag.enqueue v) u with ⟨_, e⟩ | ⟨hut, e⟩
    · rw [e] at hu; cases hu
    · rw [e] at hu; exact absurd hu (huniq u hut w).1
  · intro u w hu
    rcases update_cases vt t (VTag.enqueue v) u with ⟨_, e⟩ | ⟨hut, e⟩
    · rw [e] at hu; injection hu with hu; rw [← hu]; exact hvenq
    · rw [e] at hu; exact absurd hu (huniq u hut w).2

theorem InvS_enqueue {max_num : Nat} {seen : Nat → Bool} {enq : List Nat} {vt : Nat → VTag}
    (t v : Nat) (ht : vt t = VTag.enqueue v)
    (huniq : ∀ u, u ≠ t → ∀ w, vt u ≠ VTag.mark w ∧ vt u ≠ VTag.enqueue w)
    (hI : InvS max_num seen enq vt) :
    InvS max_num seen (enq ++ [v]) (Function.update vt t VTag.none) := by
  obtain ⟨hnd, hlt, hseen, hnum, hmark, hfresh⟩ := hI
  have hvenq : v ∉ enq := hfresh t v ht
  have hvlt : v < max_num := hnum t v (Or.inr (Or.inr ht))
  refine ⟨?_, ?_, ?_, ?_, ?_, ?_⟩
  · exact List.Nodup.append hnd (List.nodup_singleton v) (by simpa using hvenq)
  · intro w hw
    rcases List.mem_append.mp hw with h | h
    · exact hlt w h
    · simp at h; rw [h]; exact hvlt
  · intro w
    rw [hseen w]
    constructor
    · rintro (h | ⟨u, hu⟩)
      · left; exact List.mem_append_left _ h
      · have hut : u = t := by
          by_contra hne; exact (huniq u hne w).2 hu
        rw [hut, ht] at hu; injection hu with hu
        left; rw [← hu]; simp
    · rintro (h | ⟨u, hu⟩)
      · rcases List.mem_append.mp h with h1 | h1
        · left; exact h1
        · simp at h1; right; exact ⟨t, by rw [h1]; exact ht⟩
      · rcases update_cases vt t VTag.none u with ⟨_, e⟩ | ⟨hut, e⟩
        · rw [e] at hu; cases hu
        · rw [e] at hu; exact absurd hu (huniq u hut w).2
  · intro u w hu
    rcases update_cases vt t VTag.none u with ⟨_, e⟩ | ⟨_, e⟩
    · rw [e] at hu; rcases hu with h | h | h <;> cases h
    · rw [e] at hu; exact hnum u w hu
  · intro u w hu
    rcases update_cases vt t VTag.none u with ⟨_, e⟩ | ⟨hut, e⟩
    · rw [e] at hu; cases hu
    · rw [e] at hu; exact absurd hu (huniq u hut w).1
  · intro u w hu
    rcases update_cases vt t VTag.none u with ⟨_, e⟩ | ⟨hut, e⟩
    · rw [e] at hu; cases hu
    · rw [e] at hu; exact absurd hu (huniq u hut w).2

theorem InvS_length {max_num : Nat} {seen : Nat → Bool} {enq : List Nat} {vt : Nat → VTag}
    (hI : InvS max_num seen enq vt) : enq.length ≤ max_num :=
  nodup_bounded_length max_num enq hI.1 hI.2.1

/-- A value below `max_num` that is not enqueued leaves room in `enq`. -/
theorem InvS_length_lt {max_num : Nat} {seen : Nat → Bool} {enq : List Nat} {vt : Nat → VTag}
    (hI : InvS max_num seen enq vt) (v : Nat) (hv : v < max_num) (hvenq : v ∉ enq) :
    enq.length < max_num := by
  have hnd : (v :: enq).Nodup := List.nodup_cons.mpr ⟨hvenq, hI.1⟩
  have hlt : ∀ w ∈ v :: enq, w < max_num := by
    intro w hw
    rcases List.mem_cons.mp hw with h | h
    · rw [h]; exact hv
    · exact hI.2.1 w h
  have := nodup_bounded_length max_num (v :: enq) hnd hlt
  simpa using this

theorem InvC_le {count : Int} {enq : List Nat} {ct : Nat → Bool} (hI : InvC count enq ct) :
    count ≤ (enq.length : Int) ∧ (enq.length : Int) - 1 ≤ count := by
  by_cases h : ∀ u, ct u = false
  · have := hI.2 h; omega
  · push_neg at h
    obtain ⟨u, hu⟩ := h
    have := hI.1 u (by simpa using hu); omega

theorem InvC_enqueue {count : Int} {enq : List Nat} {ct : Nat → Bool} (t v : Nat)
    (hnone : ∀ u, ct u = false) (hI : InvC count enq ct) :
    InvC count (enq ++ [v]) (Function.update ct t true) := by
  have hc := hI.2 hnone
  refine ⟨?_, ?_⟩
  · intro _ _; rw [hc]; simp
  · intro hall
    have := hall t
    simp at this

theorem InvC_count {count : Int} {enq : List Nat} {ct : Nat → Bool} (t : Nat)
    (ht : ct t = true) (hothers : ∀ u, u ≠ t → ct u = false)
    (hlen : (enq.length : Int) ≤ 2147483647) (hI : InvC count enq ct) :
    InvC (wrap32 (count + 1)) enq (Function.update ct t false) := by
  have hc := hI.1 t ht
  have hw : wrap32 (count + 1) = (enq.length : Int) := by
    rw [hc, wrap32_id _ (by omega) (by omega)]; ring
  refine ⟨?_, ?_⟩
  · intro u hu
    rcases update_cases ct t false u with ⟨_, e⟩ | ⟨hut, e⟩
    · rw [e] at hu; cases hu
    · rw [e, hothers u hut] at hu; cases hu
  · intro _; exact hw

theorem InvE_vacuous {max_num : Nat} {count count' : Int} {head head' : Nat} {stop : Int}
    {sh : Nat → Shut} (hno : ∀ u, sh u ≠ Shut.ret ∧ sh u ≠ Shut.stopped)
    (hI : InvE max_num count head stop sh) : InvE max_num count' head' stop sh := by
  obtain ⟨_, h2, h3⟩ := hI
  refine ⟨?_, h2, h3⟩
  intro u hu
  rcases hu with h | h
  · exact absurd h (hno u).1
  · exact absurd h (hno u).2

theorem InvE_retag {max_num : Nat} {count : Int} {head : Nat} {stop : Int}
    {sh : Nat → Shut} (t : Nat) (g : Shut) (hold : sh t ≠ Shut.stopped)
    (hg : g = Shut.ret ∨ g = Shut.stopped → count = (max_num : Int) ∧ head = 0)
    (hc : g = Shut.cexit → stop ≠ 0) (hI : InvE max_num count head stop sh) :
    InvE max_num count head stop (Function.update sh t g) := by
  obtain ⟨h1, h2, h3⟩ := hI
  refine ⟨?_, ?_, ?_⟩
  · intro u hu
    rcases update_cases sh t g u with ⟨_, e⟩ | ⟨_, e⟩
    · rw [e] at hu; exact hg hu
    · rw [e] at hu; exact h1 u hu
  · intro hs
    obtain ⟨u, hu⟩ := h2 hs
    have hut : u ≠ t := by intro e; rw [e] at hu; exact hold hu
    exact ⟨u, by rw [Function.update_noteq hut]; exact hu⟩
  · intro u hu
    rcases update_cases sh t g u with ⟨_, e⟩ | ⟨_, e⟩
    · rw [e] at hu; exact hc hu
    · rw [e] at hu; exact h3 u hu

theorem InvE_stop {max_num : Nat} {count : Int} {head : Nat} {stop : Int}
    {sh : Nat → Shut} (t : Nat) (ht : sh t = Shut.ret) (hI : InvE max_num count head stop sh) :
    InvE max_num count head 1 (Function.update sh t Shut.stopped) := by
  obtain ⟨h1, _, h3⟩ := hI
  refine ⟨?_, ?_, ?_⟩
  · intro u hu
    rcases update_cases sh t Shut.stopped u with ⟨_, _⟩ | ⟨_, e⟩
    · exact h1 t (Or.inl ht)
    · rw [e] at hu; exact h1 u hu
  · intro _; exact ⟨t, by simp⟩
  · intro _ _; decide

end cp_pattern
/-! ### Every step of the driver keeps the invariant -/

namespace cp_pattern

theorem cp_proj_update {β : Type} (f : Pc → β) (pc : Nat → Pc) (t : Nat) (v : Pc) :
    (fun u => f (Function.update pc t v u)) = Function.update (fun u => f (pc u)) t (f v) := by
  funext u
  rcases update_cases pc t v u with ⟨h, e⟩ | ⟨h, e⟩
  · rw [e, h]; simp
  · rw [e]; simp [Function.update_noteq h]

theorem upd_self {β : Type} (f : Nat → β) (t : Nat) (x : β) (h : x = f t) :
    Function.update f t x = f := by
  rw [h]; exact Function.update_eq_self t f

theorem proj_at {β : Type} (f : Pc → β) (s : State) (t : Nat) (p v : Pc) (hp : s.pc t = p)
    (h : f v = f p) : f v = (fun u => f (s.pc u)) t := by
  simp only [hp, h]

theorem proj_is {β : Type} (f : Pc → β) (s : State) (t : Nat) (p : Pc) (hp : s.pc t = p)
    (x : β) (h : f p = x) : (fun u => f (s.pc u)) t = x := by
  simp only [hp, h]

theorem upd_frame {β : Type} (f : Pc → β) (s : State) (t : Nat) (p v : Pc)
    (hp : s.pc t = p) (h : f v = f p) :
    Function.update (fun u => f (s.pc u)) t (f v) = (fun u => f (s.pc u)) := by
  apply upd_self; simp only [hp, h]

theorem Inv_of_parts (max_num n : Nat) (s s' : State) (t : Nat) (v : Pc)
    (hpc : s'.pc = Function.update s.pc t v)
    (hTL : ∃ (q : List Nat) (R : Nat),
      TLInv n s'.queue_lock (Function.update (fun u => (s.pc u).phase) t v.phase) q R)
    (hQ : InvQ s'.q s'.enq s'.deq (Function.update (fun u => (s.pc u).heldNode) t v.heldNode)
      (Function.update (fun u => (s.pc u).dequeuing) t v.dequeuing))
    (hS : InvS max_num s'.seen s'.enq (Function.update (fun u => (s.pc u).vtag) t v.vtag))
    (hC : InvC s'.produced_count s'.enq
      (Function.update (fun u => (s.pc u).counting) t v.counting))
    (hE : InvE max_num s'.produced_count s'.q.queue_head s'.stop_flag
      (Function.update (fun u => (s.pc u).shut) t v.shut)) : Inv max_num n s' := by
  unfold Inv
  rw [hpc, cp_proj_update Pc.phase, cp_proj_update Pc.heldNode, cp_proj_update Pc.dequeuing,
    cp_proj_update Pc.vtag, cp_proj_update Pc.counting, cp_proj_update Pc.shut]
  exact ⟨hTL, hQ, hS, hC, hE⟩

/-- A step that changes none of the data the invariant speaks about, and moves `t` between
program counters with the same tags. -/
theorem Inv_frame (max_num n : Nat) (s s' : State) (t : Nat) (v p : Pc)
    (hI : Inv max_num n s) (hp : s.pc t = p) (hpc : s'.pc = Function.update s.pc t v)
    (hq : s'.q = s.q) (henq : s'.enq = s.enq) (hdeq : s'.deq = s.deq)
    (hseen : s'.seen = s.seen) (hcount : s'.produced_count = s.produced_count)
    (hstop : s'.stop_flag = s.stop_flag)
    (h1 : v.heldNode = p.heldNode) (h2 : v.dequeuing = p.dequeuing) (h3 : v.vtag = p.vtag)
    (h4 : v.counting = p.counting) (h5 : v.shut = p.shut)
    (hTL : ∃ (q : List Nat) (R : Nat),
      TLInv n s'.queue_lock (Function.update (fun u => (s.pc u).phase) t v.phase) q R) :
    Inv max_num n s' := by
  obtain ⟨_, hQ, hS, hC, hE⟩ := hI
  refine Inv_of_parts max_num n s s' t v hpc hTL ?_ ?_ ?_ ?_
  · rw [hq, henq, hdeq, upd_self _ t _ (by rw [h1, hp]), upd_self _ t _ (by rw [h2, hp])]
    exact hQ
  · rw [hseen, henq, upd_self _ t _ (by rw [h3, hp])]; exact hS
  · rw [hcount, henq, upd_self _ t _ (by rw [h4, hp])]; exact hC
  · rw [hcount, hq, hstop, upd_self _ t _ (by rw [h5, hp])]; exact hE

theorem cp_TL_same {max_num n : Nat} {s : State} (hI : Inv max_num n s) (t : Nat) (p : Pc)
    (hp : s.pc t = p) (x : Phase) (hx : x = p.phase) :
    ∃ (q : List Nat) (R : Nat),
      TLInv n s.queue_lock (Function.update (fun u => (s.pc u).phase) t x) q R := by
  rw [upd_self _ t x (by rw [hx, hp])]; exact hI.1

theorem cp_mutex {max_num n : Nat} {s : State} (hI : Inv max_num n s) (u v : Nat)
    (hu : (s.pc u).phase = Phase.held) (hv : (s.pc v).phase = Phase.held) : u = v := by
  obtain ⟨⟨q, R, hTL⟩, _⟩ := hI
  exact TLInv_mutex hTL u v hu hv

theorem vtag_phase (p : Pc) (w : Nat) (h : p.vtag = VTag.mark w ∨ p.vtag = VTag.enqueue w) :
    p.phase = Phase.held := by
  cases p <;> simp_all [Pc.vtag, Pc.phase]

theorem counting_phase (p : Pc) (h : p.counting = true) : p.phase = Phase.held := by
  cases p <;> simp_all [Pc.counting, Pc.phase]

theorem dequeuing_phase (p : Pc) (h : p.dequeuing = true) : p.phase = Phase.held := by
  cases p <;> simp_all [Pc.dequeuing, Pc.phase]

theorem cp_vtag_unique {max_num n : Nat} {s : State} (hI : Inv max_num n s) (t : Nat)
    (ht : (s.pc t).phase = Phase.held) :
    ∀ u, u ≠ t → ∀ w, (fun u => (s.pc u).vtag) u ≠ VTag.mark w ∧
      (fun u => (s.pc u).vtag) u ≠ VTag.enqueue w := by
  intro u hut w
  constructor
  · intro h; exact hut (cp_mutex hI u t (vtag_phase _ w (Or.inl h)) ht)
  · intro h; exact hut (cp_mutex hI u t (vtag_phase _ w (Or.inr h)) ht)

theorem cp_counting_unique {max_num n : Nat} {s : State} (hI : Inv max_num n s) (t : Nat)
    (ht : (s.pc t).phase = Phase.held) :
    ∀ u, u ≠ t → (fun u => (s.pc u).counting) u = false := by
  intro u hut
  by_contra h
  exact hut (cp_mutex hI u t (counting_phase _ (by simpa using h)) ht)

theorem cp_dequeuing_unique {max_num n : Nat} {s : State} (hI : Inv max_num n s) (t : Nat)
    (ht : (s.pc t).phase = Phase.held) :
    ∀ u, u ≠ t → (fun u => (s.pc u).dequeuing) u = false := by
  intro u hut
  by_contra h
  exact hut (cp_mutex hI u t (dequeuing_phase _ (by simpa using h)) ht)

/-- While `produced_count` is below `max_num`, nobody has decided that the work is done. -/
theorem cp_not_shut {max_num n : Nat} {s : State} (hI : Inv max_num n s)
    (h : s.produced_count ≠ (max_num : Int) ∨ s.q.queue_head ≠ 0) :
    ∀ u, (fun u => (s.pc u).shut) u ≠ Shut.ret ∧ (fun u => (s.pc u).shut) u ≠ Shut.stopped := by
  intro u
  obtain ⟨_, _, _, _, hE, _, _⟩ := hI
  constructor
  · intro hu
    have := hE u (Or.inl hu)
    rcases h with h | h
    · exact h this.1
    · exact h this.2
  · intro hu
    have := hE u (Or.inr hu)
    rcases h with h | h
    · exact h this.1
    · exact h this.2

end cp_pattern
/-! ### The step theorem of the driver -/

namespace cp_pattern

theorem cp_Inv_step (max_num P C : Nat) (hmax : 0 < max_num) (hmax2 : max_num < 2147483648)
    (hn : 1 + P + C ≤ 4294967296) (s : State) (a : Act) (hI : Inv max_num (1 + P + C) s) :
    Inv max_num (1 + P + C) (step max_num P C s a) := by
  obtain ⟨t, r, addr⟩ := a
  have hI0 := hI
  obtain ⟨⟨q, R, hTL⟩, hQ, hS, hC, hE⟩ := hI
  have hlen := InvS_length hS
  unfold step
  simp only
  by_cases hgo : s.exited = true ∨ ¬ (t < 1 + P + C)
  · rw [if_pos hgo]; exact hI0
  rw [if_neg hgo]
  have htn : t < 1 + P + C := by
    by_contra h; exact hgo (Or.inr h)
  have hph : ∀ (p : Pc) (x : Phase), s.pc t = p → x = p.phase →
      (fun u => (s.pc u).phase) t = x := by
    intro p x hp hx; simp only [hp, hx]
  cases hp : s.pc t with
  | p_check =>
    have hph := fun x hx => hph _ x hp hx
    simp only
    by_cases hc : s.produced_count < (max_num : Int)
    · simp only [hc, if_true]
      refine Inv_of_parts max_num _ s _ t _ rfl (cp_TL_same hI0 t _ hp _ rfl) ?_ ?_ ?_ ?_
      · rw [upd_frame Pc.heldNode s t _ (Pc.p_fetch (r % max_num)) hp rfl,
          upd_frame Pc.dequeuing s t _ (Pc.p_fetch (r % max_num)) hp rfl]
        exact hQ
      · refine InvS_retag t _ (by intro v; simp only [hp]; simp [Pc.vtag]) ?_ ?_ ?_ hS
        · intro v hv
          rcases hv with h | h
          · simp only [Pc.vtag] at h; injection h with h; rw [← h]; exact Nat.mod_lt _ hmax
          · simp [Pc.vtag] at h
        · intro v hv; simp [Pc.vtag] at hv
        · intro v hv; simp [Pc.vtag] at hv
      · rw [upd_frame Pc.counting s t _ (Pc.p_fetch (r % max_num)) hp rfl]; exact hC
      · rw [upd_frame Pc.shut s t _ (Pc.p_fetch (r % max_num)) hp rfl]; exact hE
    · simp only [hc, if_false]
      exact Inv_frame max_num _ s _ t _ _ hI0 hp rfl rfl rfl rfl rfl rfl rfl rfl rfl rfl rfl rfl (cp_TL_same hI0 t _ hp _ rfl)
  | p_fetch num =>
    have hph := fun x hx => hph _ x hp hx
    exact Inv_frame max_num _ s _ t _ _ hI0 hp rfl rfl rfl rfl rfl rfl rfl rfl rfl rfl rfl rfl ⟨q ++ [t], R, TLInv_draw hTL htn (hph _ rfl)⟩
  | p_spin num my_ticket =>
    have hph := fun x hx => hph _ x hp hx
    simp only
    by_cases hsp : ticketlock_acquire_spins s.queue_lock my_ticket = true
    · simp only [hsp, if_true]; exact hI0
    · have hsp' : ticketlock_acquire_spins s.queue_lock my_ticket = false := by simpa using hsp
      simp only [hsp', Bool.false_eq_true, if_false]
      exact Inv_frame max_num _ s _ t _ _ hI0 hp rfl rfl rfl rfl rfl rfl rfl rfl rfl rfl rfl rfl ⟨q, R, (TLInv_pass hn hTL (hph _ rfl) hsp').2⟩
  | p_seen num =>
    have hph := fun x hx => hph _ x hp hx
    simp only
    have hnum : num < max_num := hS.2.2.2.1 t num (Or.inl (proj_is Pc.vtag s t _ hp _ rfl))
    by_cases hs : s.seen num = true
    · simp only [hs, if_true]
      refine Inv_of_parts max_num _ s _ t _ rfl (cp_TL_same hI0 t _ hp _ rfl) ?_ ?_ ?_ ?_
      · rw [upd_frame Pc.heldNode s t _ (Pc.p_release) hp rfl,
          upd_frame Pc.dequeuing s t _ (Pc.p_release) hp rfl]
        exact hQ
      · refine InvS_retag t _ (by intro v; simp only [hp]; simp [Pc.vtag]) ?_ ?_ ?_ hS
        · intro v hv; rcases hv with h | h <;> simp [Pc.vtag] at h
        · intro v hv; simp [Pc.vtag] at hv
        · intro v hv; simp [Pc.vtag] at hv
      · rw [upd_frame Pc.counting s t _ (Pc.p_release) hp rfl]; exact hC
      · rw [upd_frame Pc.shut s t _ (Pc.p_release) hp rfl]; exact hE
    · have hs' : s.seen num = false := by simpa using hs
      simp only [hs', Bool.false_eq_true, if_false]
      refine Inv_of_parts max_num _ s _ t _ rfl (cp_TL_same hI0 t _ hp _ rfl) ?_ ?_ ?_ ?_
      · rw [upd_frame Pc.heldNode s t _ (Pc.p_mark num) hp rfl,
          upd_frame Pc.dequeuing s t _ (Pc.p_mark num) hp rfl]
        exact hQ
      · refine InvS_retag t _ (by intro v; simp only [hp]; simp [Pc.vtag]) ?_ ?_ ?_ hS
        · intro v hv
          rcases hv with h | h
          · simp [Pc.vtag] at h
          · simp only [Pc.vtag] at h; injection h with h; rw [← h]; exact hnum
        · intro v hv
          simp only [Pc.vtag] at hv; injection hv with hv; rw [← hv]; exact hs'
        · intro v hv; simp [Pc.vtag] at hv
      · rw [upd_frame Pc.counting s t _ (Pc.p_mark num) hp rfl]; exact hC
      · rw [upd_frame Pc.shut s t _ (Pc.p_mark num) hp rfl]; exact hE
  | p_mark num =>
    have hph := fun x hx => hph _ x hp hx
    have hheld : (s.pc t).phase = Phase.held := by rw [hp]; rfl
    refine Inv_of_parts max_num _ s _ t _ rfl (cp_TL_same hI0 t _ hp _ rfl) ?_ ?_ ?_ ?_
    · rw [upd_frame Pc.heldNode s t _ (Pc.p_enqueue num) hp rfl,
        upd_frame Pc.dequeuing s t _ (Pc.p_enqueue num) hp rfl]
      exact hQ
    · exact InvS_mark t num (proj_is Pc.vtag s t _ hp _ rfl) (cp_vtag_unique hI0 t hheld) hS
    · rw [upd_frame Pc.counting s t _ (Pc.p_enqueue num) hp rfl]; exact hC
    · rw [upd_frame Pc.shut s t _ (Pc.p_enqueue num) hp rfl]; exact hE
  | p_enqueue num =>
    have hph := fun x hx => hph _ x hp hx
    have hheld : (s.pc t).phase = Phase.held := by rw [hp]; rfl
    simp only
    by_cases ha : addr = 0
    · simp only [ha, if_true]; exact hI0
    simp only [ha, if_false]
    by_cases hl : addr ∈ s.q.live
    · simp only [hl, if_true]; exact hI0
    simp only [hl, if_false]
    have hvt : (fun u => (s.pc u).vtag) t = VTag.enqueue num :=
      proj_is Pc.vtag s t _ hp _ rfl
    have hfresh : num ∉ s.enq := hS.2.2.2.2.2 t num hvt
    have hnum : num < max_num := hS.2.2.2.1 t num (Or.inr (Or.inr hvt))
    have hlt := InvS_length_lt hS num hnum hfresh
    have hcle := (InvC_le hC).1
    have hnone : ∀ u, (fun u => (s.pc u).counting) u = false := by
      intro u
      by_cases hut : u = t
      · rw [hut]; simp only [hp, Pc.counting]
      · exact cp_counting_unique hI0 t hheld u hut
    refine Inv_of_parts max_num _ s _ t _ rfl (cp_TL_same hI0 t _ hp _ rfl) ?_ ?_ ?_ ?_
    · rw [upd_frame Pc.heldNode s t _ (Pc.p_count) hp rfl,
        upd_frame Pc.dequeuing s t _ (Pc.p_count) hp rfl]
      exact InvQ_enqueue addr num ha hl hQ
    · exact InvS_enqueue t num hvt (cp_vtag_unique hI0 t hheld) hS
    · exact InvC_enqueue t num hnone hC
    · rw [upd_frame Pc.shut s t _ (Pc.p_count) hp rfl]
      exact InvE_vacuous (cp_not_shut hI0 (Or.inl (by omega))) hE
  | p_count =>
    have hph := fun x hx => hph _ x hp hx
    have hheld : (s.pc t).phase = Phase.held := by rw [hp]; rfl
    have hct : (fun u => (s.pc u).counting) t = true :=
      proj_is Pc.counting s t _ hp _ rfl
    have hcnt := hC.1 t hct
    have hlt : s.produced_count ≠ (max_num : Int) := by
      rw [hcnt]; omega
    have hlen' : (s.enq.length : Int) ≤ 2147483647 := by omega
    have key : ∀ v : Pc, v.phase = Phase.held → v.heldNode = none → v.dequeuing = false →
        v.vtag = VTag.none → v.counting = false → v.shut = Shut.none →
        Inv max_num (1 + P + C)
          { s with produced_count := wrap32 (s.produced_count + 1), pc := Function.update s.pc t v } := by
      intro v h0 h1 h2 h3 h4 h5
      refine Inv_of_parts max_num _ s _ t v rfl ?_ ?_ ?_ ?_ ?_
      · rw [h0]; exact cp_TL_same hI0 t _ hp _ rfl
      · rw [h1, h2,
          upd_self (fun u => (s.pc u).heldNode) t none (proj_is Pc.heldNode s t _ hp _ rfl).symm,
          upd_self (fun u => (s.pc u).dequeuing) t false
            (proj_is Pc.dequeuing s t _ hp _ rfl).symm]
        exact hQ
      · rw [h3,
          upd_self (fun u => (s.pc u).vtag) t VTag.none (proj_is Pc.vtag s t _ hp _ rfl).symm]
        exact hS
      · rw [h4]
        exact InvC_count t hct (cp_counting_unique hI0 t hheld) hlen' hC
      · rw [h5,
          upd_self (fun u => (s.pc u).shut) t Shut.none (proj_is Pc.shut s t _ hp _ rfl).symm]
        exact InvE_vacuous (cp_not_shut hI0 (Or.inl hlt)) hE
    simp only
    split
    · exact key _ rfl rfl rfl rfl rfl rfl
    · exact key _ rfl rfl rfl rfl rfl rfl
  | p_done_signal =>
    have hph := fun x hx => hph _ x hp hx
    simp only
    split
    · exact Inv_frame max_num _ s _ t _ _ hI0 hp rfl rfl rfl rfl rfl rfl rfl rfl rfl rfl rfl rfl (cp_TL_same hI0 t _ hp _ rfl)
    · exact Inv_frame max_num _ s _ t _ _ hI0 hp rfl rfl rfl rfl rfl rfl rfl rfl rfl rfl rfl rfl (cp_TL_same hI0 t _ hp _ rfl)
  | p_done_clear =>
    have hph := fun x hx => hph _ x hp hx
    exact Inv_frame max_num _ s _ t _ _ hI0 hp rfl rfl rfl rfl rfl rfl rfl rfl rfl rfl rfl rfl (cp_TL_same hI0 t _ hp _ rfl)
  | p_empty_signal =>
    have hph := fun x hx => hph _ x hp hx
    simp only
    split
    · exact Inv_frame max_num _ s _ t _ _ hI0 hp rfl rfl rfl rfl rfl rfl rfl rfl rfl rfl rfl rfl (cp_TL_same hI0 t _ hp _ rfl)
    · exact Inv_frame max_num _ s _ t _ _ hI0 hp rfl rfl rfl rfl rfl rfl rfl rfl rfl rfl rfl rfl (cp_TL_same hI0 t _ hp _ rfl)
  | p_empty_clear =>
    have hph := fun x hx => hph _ x hp hx
    exact Inv_frame max_num _ s _ t _ _ hI0 hp rfl rfl rfl rfl rfl rfl rfl rfl rfl rfl rfl rfl (cp_TL_same hI0 t _ hp _ rfl)
  | p_release =>
    have hph := fun x hx => hph _ x hp hx
    obtain ⟨q', _, hrel⟩ := TLInv_release hTL (hph _ rfl)
    exact Inv_frame max_num _ s _ t _ _ hI0 hp rfl rfl rfl rfl rfl rfl rfl rfl rfl rfl rfl rfl ⟨q', R + 1, hrel⟩
  | p_return =>
    have hph := fun x hx => hph _ x hp hx
    exact hI0
  | c_fetch =>
    have hph := fun x hx => hph _ x hp hx
    exact Inv_frame max_num _ s _ t _ _ hI0 hp rfl rfl rfl rfl rfl rfl rfl rfl rfl rfl rfl rfl ⟨q ++ [t], R, TLInv_draw hTL htn (hph _ rfl)⟩
  | c_spin my_ticket =>
    have hph := fun x hx => hph _ x hp hx
    simp only
    by_cases hsp : ticketlock_acquire_spins s.queue_lock my_ticket = true
    · simp only [hsp, if_true]; exact hI0
    · have hsp' : ticketlock_acquire_spins s.queue_lock my_ticket = false := by simpa using hsp
      simp only [hsp', Bool.false_eq_true, if_false]
      exact Inv_frame max_num _ s _ t _ _ hI0 hp rfl rfl rfl rfl rfl rfl rfl rfl rfl rfl rfl rfl ⟨q, R, (TLInv_pass hn hTL (hph _ rfl) hsp').2⟩
  | c_head =>
    have hph := fun x hx => hph _ x hp hx
    simp only
    by_cases hh : s.q.queue_head = 0
    · simp only [hh, if_true]
      exact Inv_frame max_num _ s _ t _ _ hI0 hp rfl rfl rfl rfl rfl rfl rfl rfl rfl rfl rfl rfl (cp_TL_same hI0 t _ hp _ rfl)
    · simp only [hh, if_false]
      refine Inv_of_parts max_num _ s _ t _ rfl (cp_TL_same hI0 t _ hp _ rfl) ?_ ?_ ?_ ?_
      · rw [upd_frame Pc.heldNode s t _ (Pc.c_dequeue) hp rfl]
        exact InvQ_dq t _ (fun _ => hh) hQ
      · rw [upd_frame Pc.vtag s t _ (Pc.c_dequeue) hp rfl]; exact hS
      · rw [upd_frame Pc.counting s t _ (Pc.c_dequeue) hp rfl]; exact hC
      · rw [upd_frame Pc.shut s t _ (Pc.c_dequeue) hp rfl]; exact hE
  | c_stop =>
    have hph := fun x hx => hph _ x hp hx
    simp only
    by_cases hst : s.stop_flag ≠ 0
    · rw [if_pos hst]
      refine Inv_of_parts max_num _ s _ t _ rfl (cp_TL_same hI0 t _ hp _ rfl) ?_ ?_ ?_ ?_
      · rw [upd_frame Pc.heldNode s t _ (Pc.c_exit_release) hp rfl,
          upd_frame Pc.dequeuing s t _ (Pc.c_exit_release) hp rfl]
        exact hQ
      · rw [upd_frame Pc.vtag s t _ (Pc.c_exit_release) hp rfl]; exact hS
      · rw [upd_frame Pc.counting s t _ (Pc.c_exit_release) hp rfl]; exact hC
      · refine InvE_retag t _ (by simp only [hp]; simp [Pc.shut]) ?_ (fun _ => hst) hE
        intro h; rcases h with h | h <;> simp [Pc.shut] at h
    · rw [if_neg hst]
      exact Inv_frame max_num _ s _ t _ _ hI0 hp rfl rfl rfl rfl rfl rfl rfl rfl rfl rfl rfl rfl (cp_TL_same hI0 t _ hp _ rfl)
  | c_exit_release =>
    have hph := fun x hx => hph _ x hp hx
    obtain ⟨q', _, hrel⟩ := TLInv_release hTL (hph _ rfl)
    exact Inv_frame max_num _ s _ t _ _ hI0 hp rfl rfl rfl rfl rfl rfl rfl rfl rfl rfl rfl rfl ⟨q', R + 1, hrel⟩
  | c_wait c =>
    have hph := fun x hx => hph _ x hp hx
    have hTL' := cv_wait_step_TLInv hn s.is_empty hTL htn c (hph _ rfl)
    have hphase : (c_after (condition_variable_wait_step s.is_empty s.queue_lock c).2.2).phase =
        CvPc.phaseAfter (condition_variable_wait_step s.is_empty s.queue_lock c).2.2 := by
      cases (condition_variable_wait_step s.is_empty s.queue_lock c).2.2 <;> rfl
    refine Inv_frame max_num _ s _ t _ _ hI0 hp rfl rfl rfl rfl rfl rfl rfl ?_ ?_ ?_ ?_ ?_ ?_
    · cases (condition_variable_wait_step s.is_empty s.queue_lock c).2.2 <;> rfl
    · cases (condition_variable_wait_step s.is_empty s.queue_lock c).2.2 <;> rfl
    · cases (condition_variable_wait_step s.is_empty s.queue_lock c).2.2 <;> rfl
    · cases (condition_variable_wait_step s.is_empty s.queue_lock c).2.2 <;> rfl
    · cases (condition_variable_wait_step s.is_empty s.queue_lock c).2.2 <;> rfl
    · simp only; rw [hphase]; exact hTL'
  | c_dequeue =>
    have hph := fun x hx => hph _ x hp hx
    have hheld : (s.pc t).phase = Phase.held := by rw [hp]; rfl
    have hdq : (fun u => (s.pc u).dequeuing) t = true :=
      proj_is Pc.dequeuing s t _ hp _ rfl
    have hhead : s.q.queue_head ≠ 0 := hQ.2.2.2.2 t hdq
    refine Inv_of_parts max_num _ s _ t _ rfl (cp_TL_same hI0 t _ hp _ rfl) ?_ ?_ ?_ ?_
    · exact InvQ_dequeue t hdq (cp_dequeuing_unique hI0 t hheld) hQ
    · rw [upd_frame Pc.vtag s t _ (Pc.c_release s.q.queue_head (s.q.value s.q.queue_head)) hp rfl]; exact hS
    · rw [upd_frame Pc.counting s t _ (Pc.c_release s.q.queue_head (s.q.value s.q.queue_head)) hp rfl]; exact hC
    · rw [upd_frame Pc.shut s t _ (Pc.c_release s.q.queue_head (s.q.value s.q.queue_head)) hp rfl]
      exact InvE_vacuous (cp_not_shut hI0 (Or.inr hhead)) hE
  | c_release node num =>
    have hph := fun x hx => hph _ x hp hx
    obtain ⟨q', _, hrel⟩ := TLInv_release hTL (hph _ rfl)
    exact Inv_frame max_num _ s _ t _ _ hI0 hp rfl rfl rfl rfl rfl rfl rfl rfl rfl rfl rfl rfl ⟨q', R + 1, hrel⟩
  | c_free node num =>
    have hph := fun x hx => hph _ x hp hx
    refine Inv_of_parts max_num _ s _ t _ rfl (cp_TL_same hI0 t _ hp _ rfl) ?_ ?_ ?_ ?_
    · rw [upd_frame Pc.dequeuing s t _ (Pc.c_print_fetch) hp rfl]
      exact InvQ_free t node (proj_is Pc.heldNode s t _ hp _ rfl) hQ
    · rw [upd_frame Pc.vtag s t _ (Pc.c_print_fetch) hp rfl]; exact hS
    · rw [upd_frame Pc.counting s t _ (Pc.c_print_fetch) hp rfl]; exact hC
    · rw [upd_frame Pc.shut s t _ (Pc.c_print_fetch) hp rfl]; exact hE
  | c_print_fetch =>
    have hph := fun x hx => hph _ x hp hx
    exact Inv_frame max_num _ s _ t _ _ hI0 hp rfl rfl rfl rfl rfl rfl rfl rfl rfl rfl rfl rfl (cp_TL_same hI0 t _ hp _ rfl)
  | c_print_spin my_ticket =>
    have hph := fun x hx => hph _ x hp hx
    simp only
    split
    · exact hI0
    · exact Inv_frame max_num _ s _ t _ _ hI0 hp rfl rfl rfl rfl rfl rfl rfl rfl rfl rfl rfl rfl (cp_TL_same hI0 t _ hp _ rfl)
  | c_print_release =>
    have hph := fun x hx => hph _ x hp hx
    exact Inv_frame max_num _ s _ t _ _ hI0 hp rfl rfl rfl rfl rfl rfl rfl rfl rfl rfl rfl rfl (cp_TL_same hI0 t _ hp _ rfl)
  | c_return =>
    have hph := fun x hx => hph _ x hp hx
    exact hI0
  | m_fetch =>
    have hph := fun x hx => hph _ x hp hx
    exact Inv_frame max_num _ s _ t _ _ hI0 hp rfl rfl rfl rfl rfl rfl rfl rfl rfl rfl rfl rfl ⟨q ++ [t], R, TLInv_draw hTL htn (hph _ rfl)⟩
  | m_spin my_ticket =>
    have hph := fun x hx => hph _ x hp hx
    simp only
    by_cases hsp : ticketlock_acquire_spins s.queue_lock my_ticket = true
    · simp only [hsp, if_true]; exact hI0
    · have hsp' : ticketlock_acquire_spins s.queue_lock my_ticket = false := by simpa using hsp
      simp only [hsp', Bool.false_eq_true, if_false]
      exact Inv_frame max_num _ s _ t _ _ hI0 hp rfl rfl rfl rfl rfl rfl rfl rfl rfl rfl rfl rfl ⟨q, R, (TLInv_pass hn hTL (hph _ rfl) hsp').2⟩
  | m_check =>
    have hph := fun x hx => hph _ x hp hx
    simp only
    split
    · exact Inv_frame max_num _ s _ t _ _ hI0 hp rfl rfl rfl rfl rfl rfl rfl rfl rfl rfl rfl rfl (cp_TL_same hI0 t _ hp _ rfl)
    · exact Inv_frame max_num _ s _ t _ _ hI0 hp rfl rfl rfl rfl rfl rfl rfl rfl rfl rfl rfl rfl (cp_TL_same hI0 t _ hp _ rfl)
  | m_wait c =>
    have hph := fun x hx => hph _ x hp hx
    have hTL' := cv_wait_step_TLInv hn s.produced_done hTL htn c (hph _ rfl)
    have hphase : (m_after (condition_variable_wait_step s.produced_done s.queue_lock c).2.2).phase =
        CvPc.phaseAfter (condition_variable_wait_step s.produced_done s.queue_lock c).2.2 := by
      cases (condition_variable_wait_step s.produced_done s.queue_lock c).2.2 <;> rfl
    refine Inv_frame max_num _ s _ t _ _ hI0 hp rfl rfl rfl rfl rfl rfl rfl ?_ ?_ ?_ ?_ ?_ ?_
    · cases (condition_variable_wait_step s.produced_done s.queue_lock c).2.2 <;> rfl
    · cases (condition_variable_wait_step s.produced_done s.queue_lock c).2.2 <;> rfl
    · cases (condition_variable_wait_step s.produced_done s.queue_lock c).2.2 <;> rfl
    · cases (condition_variable_wait_step s.produced_done s.queue_lock c).2.2 <;> rfl
    · cases (condition_variable_wait_step s.produced_done s.queue_lock c).2.2 <;> rfl
    · simp only; rw [hphase]; exact hTL'
  | m_release =>
    have hph := fun x hx => hph _ x hp hx
    obtain ⟨q', _, hrel⟩ := TLInv_release hTL (hph _ rfl)
    exact Inv_frame max_num _ s _ t _ _ hI0 hp rfl rfl rfl rfl rfl rfl rfl rfl rfl rfl rfl rfl ⟨q', R + 1, hrel⟩
  | e_fetch =>
    have hph := fun x hx => hph _ x hp hx
    exact Inv_frame max_num _ s _ t _ _ hI0 hp rfl rfl rfl rfl rfl rfl rfl rfl rfl rfl rfl rfl ⟨q ++ [t], R, TLInv_draw hTL htn (hph _ rfl)⟩
  | e_spin my_ticket =>
    have hph := fun x hx => hph _ x hp hx
    simp only
    by_cases hsp : ticketlock_acquire_spins s.queue_lock my_ticket = true
    · simp only [hsp, if_true]; exact hI0
    · have hsp' : ticketlock_acquire_spins s.queue_lock my_ticket = false := by simpa using hsp
      simp only [hsp', Bool.false_eq_true, if_false]
      exact Inv_frame max_num _ s _ t _ _ hI0 hp rfl rfl rfl rfl rfl rfl rfl rfl rfl rfl rfl rfl ⟨q, R, (TLInv_pass hn hTL (hph _ rfl) hsp').2⟩
  | e_check =>
    have hph := fun x hx => hph _ x hp hx
    simp only
    by_cases hd : s.q.queue_head = 0 ∧ s.produced_count = (max_num : Int)
    · rw [if_pos hd]
      refine Inv_of_parts max_num _ s _ t _ rfl (cp_TL_same hI0 t _ hp _ rfl) ?_ ?_ ?_ ?_
      · rw [upd_frame Pc.heldNode s t _ (Pc.e_release_return) hp rfl,
          upd_frame Pc.dequeuing s t _ (Pc.e_release_return) hp rfl]
        exact hQ
      · rw [upd_frame Pc.vtag s t _ (Pc.e_release_return) hp rfl]; exact hS
      · rw [upd_frame Pc.counting s t _ (Pc.e_release_return) hp rfl]; exact hC
      · refine InvE_retag t _ (by simp only [hp]; simp [Pc.shut]) (fun _ => ⟨hd.2, hd.1⟩) ?_ hE
        intro h; simp [Pc.shut] at h
    · rw [if_neg hd]
      exact Inv_frame max_num _ s _ t _ _ hI0 hp rfl rfl rfl rfl rfl rfl rfl rfl rfl rfl rfl rfl (cp_TL_same hI0 t _ hp _ rfl)
  | e_release_return =>
    have hph := fun x hx => hph _ x hp hx
    obtain ⟨q', _, hrel⟩ := TLInv_release hTL (hph _ rfl)
    exact Inv_frame max_num _ s _ t _ _ hI0 hp rfl rfl rfl rfl rfl rfl rfl rfl rfl rfl rfl rfl ⟨q', R + 1, hrel⟩
  | e_release_retry =>
    have hph := fun x hx => hph _ x hp hx
    obtain ⟨q', _, hrel⟩ := TLInv_release hTL (hph _ rfl)
    exact Inv_frame max_num _ s _ t _ _ hI0 hp rfl rfl rfl rfl rfl rfl rfl rfl rfl rfl rfl rfl ⟨q', R + 1, hrel⟩
  | m_stop =>
    have hph := fun x hx => hph _ x hp hx
    refine Inv_of_parts max_num _ s _ t _ rfl (cp_TL_same hI0 t _ hp _ rfl) ?_ ?_ ?_ ?_
    · rw [upd_frame Pc.heldNode s t _ (Pc.m_bc_load) hp rfl,
        upd_frame Pc.dequeuing s t _ (Pc.m_bc_load) hp rfl]
      exact hQ
    · rw [upd_frame Pc.vtag s t _ (Pc.m_bc_load) hp rfl]; exact hS
    · rw [upd_frame Pc.counting s t _ (Pc.m_bc_load) hp rfl]; exact hC
    · exact InvE_stop t (proj_is Pc.shut s t _ hp _ rfl) hE
  | m_bc_load =>
    have hph := fun x hx => hph _ x hp hx
    exact Inv_frame max_num _ s _ t _ _ hI0 hp rfl rfl rfl rfl rfl rfl rfl rfl rfl rfl rfl rfl (cp_TL_same hI0 t _ hp _ rfl)
  | m_bc_loop i w =>
    have hph := fun x hx => hph _ x hp hx
    simp only
    split
    · exact Inv_frame max_num _ s _ t _ _ hI0 hp rfl rfl rfl rfl rfl rfl rfl rfl rfl rfl rfl rfl (cp_TL_same hI0 t _ hp _ rfl)
    · exact Inv_frame max_num _ s _ t _ _ hI0 hp rfl rfl rfl rfl rfl rfl rfl rfl rfl rfl rfl rfl (cp_TL_same hI0 t _ hp _ rfl)
  | m_join =>
    have hph := fun x hx => hph _ x hp hx
    simp only
    split
    · exact Inv_frame max_num _ s _ t _ _ hI0 hp rfl rfl rfl rfl rfl rfl rfl rfl rfl rfl rfl rfl (cp_TL_same hI0 t _ hp _ rfl)
    · exact hI0
  | m_return =>
    have hph := fun x hx => hph _ x hp hx
    exact hI0

end cp_pattern
/-! ### Producer uniqueness, counting and completeness -/

namespace cp_pattern

theorem init_pc_cases (P : Nat) (u : Nat) :
    (init P).pc u = Pc.m_fetch ∨ (init P).pc u = Pc.p_check ∨ (init P).pc u = Pc.c_fetch := by
  simp only [init]
  split
  · left; rfl
  · split
    · right; left; rfl
    · right; right; rfl

theorem init_proj {β : Type} (f : Pc → β) (x : β) (P : Nat) (h1 : f Pc.m_fetch = x)
    (h2 : f Pc.p_check = x) (h3 : f Pc.c_fetch = x) :
    (fun u => f ((init P).pc u)) = fun _ => x := by
  funext u
  rcases init_pc_cases P u with h | h | h <;> simp only [h, h1, h2, h3]

theorem cp_Inv_init (max_num n P : Nat) : Inv max_num n (init P) := by
  unfold Inv
  rw [init_proj Pc.phase Phase.out P rfl rfl rfl, init_proj Pc.heldNode none P rfl rfl rfl,
    init_proj Pc.dequeuing false P rfl rfl rfl, init_proj Pc.vtag VTag.none P rfl rfl rfl,
    init_proj Pc.counting false P rfl rfl rfl, init_proj Pc.shut Shut.none P rfl rfl rfl]
  refine ⟨⟨[], 0, TLInv_init n⟩, ?_, ?_, ?_, ?_⟩
  · refine ⟨⟨[], rfl, rfl, List.nodup_nil, ?_, rfl, ?_⟩, List.nodup_nil, ?_, ?_, ?_⟩
    · intro a ha; simp at ha
    · intro u a h; cases h
    · intro u a h; cases h
    · intro u v a h; cases h
    · intro u h; cases h
  · refine ⟨List.nodup_nil, ?_, ?_, ?_, ?_, ?_⟩
    · intro v hv; simp [init] at hv
    · intro v; simp [init]
    · intro u v h; rcases h with h | h | h <;> cases h
    · intro u v h; cases h
    · intro u v h; cases h
  · refine ⟨?_, ?_⟩
    · intro u h; cases h
    · intro _; simp [init]
  · refine ⟨?_, ?_, ?_⟩
    · intro u h; rcases h with h | h <;> cases h
    · intro h; simp [init] at h
    · intro u h; cases h

theorem cp_Inv_run (max_num P C : Nat) (hmax : 0 < max_num) (hmax2 : max_num < 2147483648)
    (hn : 1 + P + C ≤ 4294967296) (sched : List Act) :
    Inv max_num (1 + P + C) (run max_num P C sched) :=
  runSched_inv (step max_num P C) (Inv max_num (1 + P + C))
    (fun s a h => cp_Inv_step max_num P C hmax hmax2 hn s a h) sched (init P)
    (cp_Inv_init max_num (1 + P + C) P)

/-- The values whose `seen` entry is set, when no producer stands between marking and
enqueueing: exactly the values enqueued. -/
theorem seen_count_eq {max_num : Nat} {s : State}
    (hS : InvS max_num s.seen s.enq (fun u => (s.pc u).vtag))
    (hno : ∀ u v, (s.pc u).vtag ≠ VTag.enqueue v) : seen_count max_num s = s.enq.length := by
  obtain ⟨hnd, hlt, hseen, _⟩ := hS
  unfold seen_count
  rw [← List.toFinset_card_of_nodup hnd]
  congr 1
  ext v
  simp only [Finset.mem_filter, Finset.mem_range, List.mem_toFinset]
  constructor
  · rintro ⟨_, hv⟩
    rcases (hseen v).mp hv with h | ⟨u, hu⟩
    · exact h
    · exact absurd hu (hno u v)
  · intro hv
    exact ⟨hlt v hv, (hseen v).mpr (Or.inl hv)⟩

theorem seen_count_bounds {max_num : Nat} {s : State}
    (hS : InvS max_num s.seen s.enq (fun u => (s.pc u).vtag)) :
    s.enq.length ≤ seen_count max_num s ∧ seen_count max_num s ≤ max_num := by
  obtain ⟨hnd, hlt, hseen, _⟩ := hS
  unfold seen_count
  constructor
  · rw [← List.toFinset_card_of_nodup hnd]
    apply Finset.card_le_card
    intro v hv
    simp only [Finset.mem_filter, Finset.mem_range, List.mem_toFinset] at hv ⊢
    exact ⟨hlt v hv, (hseen v).mpr (Or.inl hv)⟩
  · calc ((Finset.range max_num).filter (fun v => s.seen v = true)).card
        ≤ (Finset.range max_num).card := Finset.card_filter_le _ _
      _ = max_num := Finset.card_range max_num

end cp_pattern
namespace cp_pattern

theorem cp_step_prefix (max_num P C : Nat) (s : State) (a : Act) :
    s.enq <+: (step max_num P C s a).enq ∧ s.deq <+: (step max_num P C s a).deq := by
  unfold step
  split
  · exact ⟨List.prefix_refl _, List.prefix_refl _⟩
  · split <;> (try split) <;> (try split) <;>
      first
      | exact ⟨List.prefix_refl _, List.prefix_refl _⟩
      | exact ⟨List.prefix_append _ _, List.prefix_refl _⟩
      | exact ⟨List.prefix_refl _, List.prefix_append _ _⟩

theorem cp_run_prefix (max_num P C : Nat) (l : List Act) (s : State) :
    s.enq <+: (runSched (step max_num P C) s l).enq ∧
      s.deq <+: (runSched (step max_num P C) s l).deq := by
  induction l generalizing s with
  | nil => exact ⟨List.prefix_refl _, List.prefix_refl _⟩
  | cons a l ih =>
    have h1 := cp_step_prefix max_num P C s a
    have h2 := ih (step max_num P C s a)
    exact ⟨h1.1.trans h2.1, h1.2.trans h2.2⟩

theorem vtag_enqueue_iff (p : Pc) (v : Nat) : p.vtag = VTag.enqueue v ↔ p = Pc.p_enqueue v := by
  cases p <;> simp [Pc.vtag]

theorem counting_iff (p : Pc) : p.counting = true ↔ p = Pc.p_count := by
  cases p <;> simp [Pc.counting]

theorem vtag_not_counting (p : Pc) (v : Nat) (h : p.vtag = VTag.enqueue v) :
    p.counting = false := by
  cases p <;> simp_all [Pc.vtag, Pc.counting]

theorem returned_shut (p : Pc) (h : p.returned = true) :
    p.shut = Shut.ret ∨ p.shut = Shut.stopped := by
  cases p <;> simp_all [Pc.returned, Pc.shut]

theorem cexit_shut (p : Pc) (h : p = Pc.c_return ∨ p = Pc.c_exit_release) :
    p.shut = Shut.cexit := by
  rcases h with h | h <;> rw [h] <;> rfl

/-- While a producer stands between marking and enqueueing, `seen` holds one value more
than `enq`. -/
theorem seen_count_le_succ {max_num : Nat} {s : State}
    (hS : InvS max_num s.seen s.enq (fun u => (s.pc u).vtag)) (v : Nat)
    (huniq : ∀ u w, (s.pc u).vtag = VTag.enqueue w → w = v) :
    seen_count max_num s ≤ s.enq.length + 1 := by
  obtain ⟨hnd, hlt, hseen, _⟩ := hS
  unfold seen_count
  have hsub : (Finset.range max_num).filter (fun w => s.seen w = true) ⊆
      insert v s.enq.toFinset := by
    intro w hw
    simp only [Finset.mem_filter, Finset.mem_range] at hw
    simp only [Finset.mem_insert, List.mem_toFinset]
    rcases (hseen w).mp hw.2 with h | ⟨u, hu⟩
    · exact Or.inr h
    · exact Or.inl (huniq u w hu)
  calc ((Finset.range max_num).filter (fun w => s.seen w = true)).card
      ≤ (insert v s.enq.toFinset).card := Finset.card_le_card hsub
    _ ≤ s.enq.toFinset.card + 1 := Finset.card_insert_le _ _
    _ = s.enq.length + 1 := by rw [List.toFinset_card_of_nodup hnd]

/-- Once everything is produced and the queue is empty, every value below `max_num` has
been dequeued exactly once. -/
theorem cp_all_consumed {max_num n : Nat} {s : State} (hI : Inv max_num n s)
    (hcount : s.produced_count = (max_num : Int)) (hhead : s.q.queue_head = 0) :
    s.q.queue_tail = 0 ∧ s.deq = s.enq ∧ s.deq.Nodup ∧ s.deq.length = max_num ∧
      (∀ v, v ∈ s.deq ↔ v < max_num) ∧ s.deq.Perm (List.range max_num) := by
  obtain ⟨_, hQ, hS, hC, _⟩ := hI
  have hed : s.enq = s.deq := InvQ_empty hQ hhead
  have htail : s.q.queue_tail = 0 := by
    obtain ⟨⟨nodes, hch, ht, _⟩, _⟩ := hQ
    have := (chain_head_zero hch).mp hhead
    rw [ht, this]; rfl
  have hlen : s.enq.length = max_num := by
    have h1 := (InvC_le hC).1
    have h2 := InvS_length hS
    omega
  have hmem : ∀ v, v ∈ s.enq ↔ v < max_num := by
    intro v
    constructor
    · exact hS.2.1 v
    · intro hv
      by_contra hne
      have := InvS_length_lt hS v hv hne
      omega
  rw [← hed]
  refine ⟨htail, rfl, hS.1, hlen, hmem, ?_⟩
  exact (List.perm_ext_iff_of_nodup hS.1 (List.nodup_range max_num)).mpr
    (fun v => by rw [hmem v, List.mem_range])

/-- C9 as stated fails in the critical section of a producer: after `seen[num] = 1` and
before `atomic_fetch_add(&produced_count, 1)`, index 7 of `seen` is set while
`produced_count` is still 0 and nothing has been enqueued. -/
theorem producer_count_counterexample :
    (run MAX_NUM 1 1 (List.replicate 5 ⟨1, 7, 0⟩)).seen 7 = true ∧
    (run MAX_NUM 1 1 (List.replicate 5 ⟨1, 7, 0⟩)).enq = [] ∧
    (run MAX_NUM 1 1 (List.replicate 5 ⟨1, 7, 0⟩)).produced_count = 0 ∧
    (run MAX_NUM 1 1 (List.replicate 5 ⟨1, 7, 0⟩)).produced_count ≠
      (seen_count MAX_NUM (run MAX_NUM 1 1 (List.replicate 5 ⟨1, 7, 0⟩)) : Int) := by
  have h1 : (run MAX_NUM 1 1 (List.replicate 5 ⟨1, 7, 0⟩)).seen 7 = true := by decide
  have h2 : (run MAX_NUM 1 1 (List.replicate 5 ⟨1, 7, 0⟩)).enq = [] := by decide
  have h3 : (run MAX_NUM 1 1 (List.replicate 5 ⟨1, 7, 0⟩)).produced_count = 0 := by decide
  refine ⟨h1, h2, h3, ?_⟩
  have hpos : 0 < seen_count MAX_NUM (run MAX_NUM 1 1 (List.replicate 5 ⟨1, 7, 0⟩)) := by
    unfold seen_count
    apply Finset.card_pos.mpr
    exact ⟨7, Finset.mem_filter.mpr ⟨Finset.mem_range.mpr (by decide), h1⟩⟩
  rw [h3]
  omega

/-- C9 (amended): for `0 < max_num < 2^31` and at most 2^32 threads, in every state reached
by any interleaving of the steps of the main thread, the producers and the consumers: each
value has been enqueued at most once and is below `max_num`; `produced_count` is at most
the number of values enqueued, which is at most the number of set `seen` indices, which is
at most `max_num`; the number of set `seen` indices exceeds `produced_count` by at most
one; and whenever no producer stands between `seen[num] = 1` and the increment of
`produced_count` (in particular whenever `queue_lock` is not held), `produced_count`
equals the number of set `seen` indices and the number of values enqueued. -/
theorem producer_uniqueness_count (max_num P C : Nat) (hmax : 0 < max_num)
    (hmax2 : max_num < 2147483648) (hn : 1 + P + C ≤ 4294967296) (sched : List Act)
    (s : State) (hs : s = run max_num P C sched) :
    s.enq.Nodup ∧ (∀ v ∈ s.enq, v < max_num) ∧
    s.produced_count ≤ (s.enq.length : Int) ∧ s.enq.length ≤ seen_count max_num s ∧
    seen_count max_num s ≤ max_num ∧ s.produced_count ≤ (max_num : Int) ∧
    (seen_count max_num s : Int) ≤ s.produced_count + 1 ∧
    ((∀ t v, s.pc t ≠ Pc.p_enqueue v) → (∀ t, s.pc t ≠ Pc.p_count) →
      s.produced_count = (seen_count max_num s : Int) ∧
        seen_count max_num s = s.enq.length) ∧
    ((∀ t, (s.pc t).phase ≠ Phase.held) →
      s.produced_count = (seen_count max_num s : Int) ∧
        seen_count max_num s = s.enq.length) := by
  subst hs
  have hI := cp_Inv_run max_num P C hmax hmax2 hn sched
  obtain ⟨_, _, hS, hC, _⟩ := cp_Inv_run max_num P C hmax hmax2 hn sched
  have hb := seen_count_bounds hS
  have hle := InvC_le hC
  have hlen := InvS_length hS
  have heq : (∀ t v, (run max_num P C sched).pc t ≠ Pc.p_enqueue v) →
      (∀ t, (run max_num P C sched).pc t ≠ Pc.p_count) →
      (run max_num P C sched).produced_count =
          (seen_count max_num (run max_num P C sched) : Int) ∧
        seen_count max_num (run max_num P C sched) = (run max_num P C sched).enq.length := by
    intro h1 h2
    have hs := seen_count_eq hS (fun u v h => h1 u v ((vtag_enqueue_iff _ v).mp h))
    have hc := hC.2 (fun u => by
      by_contra h
      exact h2 u ((counting_iff _).mp (by simpa using h)))
    rw [hs]; exact ⟨hc, rfl⟩
  refine ⟨hS.1, hS.2.1, hle.1, hb.1, hb.2, by omega, ?_, heq, ?_⟩
  · by_cases hex : ∃ u v, ((run max_num P C sched).pc u).vtag = VTag.enqueue v
    · obtain ⟨u, v, hu⟩ := hex
      have hheld := vtag_phase _ v (Or.inr hu)
      have hall : ∀ u', (fun w => ((run max_num P C sched).pc w).counting) u' = false := by
        intro u'
        by_cases hu' : u' = u
        · rw [hu']; exact vtag_not_counting _ v hu
        · exact cp_counting_unique hI u hheld u' hu'
      have hc := hC.2 hall
      have huniq : ∀ u' w, ((run max_num P C sched).pc u').vtag = VTag.enqueue w → w = v := by
        intro u' w hw
        have e := cp_mutex hI u' u (vtag_phase _ w (Or.inr hw)) hheld
        rw [e, hu] at hw
        exact (VTag.enqueue.inj hw).symm
      have := seen_count_le_succ hS v huniq
      omega
    · push_neg at hex
      have := seen_count_eq hS hex
      omega
  · intro hfree
    apply heq
    · intro t v h
      exact hfree t (vtag_phase _ v (Or.inr ((vtag_enqueue_iff _ v).mpr h)))
    · intro t h
      exact hfree t (counting_phase _ ((counting_iff _).mpr h))

/-- Witness for C9: one producer of the real `MAX_NUM` has completed one iteration of its
loop; the value 7 is enqueued, `produced_count` is 1, and the number of set `seen`
indices lies between the number of values enqueued and `produced_count + 1`. -/
theorem producer_uniqueness_count_witness :
    (0 < MAX_NUM ∧ MAX_NUM < 2147483648 ∧ 1 + 1 + 1 ≤ 4294967296) ∧
    (run MAX_NUM 1 1 (List.replicate 9 ⟨1, 7, 5⟩)).enq = [7] ∧
    (run MAX_NUM 1 1 (List.replicate 9 ⟨1, 7, 5⟩)).produced_count = 1 ∧
    (run MAX_NUM 1 1 (List.replicate 9 ⟨1, 7, 5⟩)).enq.length ≤
      seen_count MAX_NUM (run MAX_NUM 1 1 (List.replicate 9 ⟨1, 7, 5⟩)) ∧
    (seen_count MAX_NUM (run MAX_NUM 1 1 (List.replicate 9 ⟨1, 7, 5⟩)) : Int) ≤
      (run MAX_NUM 1 1 (List.replicate 9 ⟨1, 7, 5⟩)).produced_count + 1 :=
  ⟨⟨by decide, by decide, by decide⟩, by decide, by decide,
    (producer_uniqueness_count MAX_NUM 1 1 (by decide) (by decide) (by decide)
      (List.replicate 9 ⟨1, 7, 5⟩) _ rfl).2.2.2.1,
    (producer_uniqueness_count MAX_NUM 1 1 (by decide) (by decide) (by decide)
      (List.replicate 9 ⟨1, 7, 5⟩) _ rfl).2.2.2.2.2.2.1⟩

end cp_pattern
namespace cp_pattern

/-- C10 (producer/consumer completeness): for `0 < max_num < 2^31` and at most 2^32
threads, in every reachable state in which a thread has returned from
`wait_consumers_queue_empty`: `produced_count` is `max_num`, the queue is empty, the
values dequeued are the values enqueued and are a permutation of `0, …, max_num - 1`, and
no continuation of the schedule enqueues or dequeues anything; and in every reachable
state a consumer that has left its loop finds `stop_flag` set, the queue empty,
everything produced and everything enqueued dequeued. -/
theorem driver_completeness (max_num P C : Nat) (hmax : 0 < max_num)
    (hmax2 : max_num < 2147483648) (hn : 1 + P + C ≤ 4294967296) (sched : List Act)
    (s : State) (hs : s = run max_num P C sched) :
    (∀ t, (s.pc t).returned = true →
      s.produced_count = (max_num : Int) ∧ s.q.queue_head = 0 ∧ s.q.queue_tail = 0 ∧
      s.deq = s.enq ∧ s.deq.Nodup ∧ s.deq.length = max_num ∧
      (∀ v, v ∈ s.deq ↔ v < max_num) ∧ s.deq.Perm (List.range max_num) ∧
      (∀ later, (run max_num P C (sched ++ later)).enq = s.enq ∧
        (run max_num P C (sched ++ later)).deq = s.deq)) ∧
    (∀ t, s.pc t = Pc.c_return ∨ s.pc t = Pc.c_exit_release →
      s.stop_flag ≠ 0 ∧ s.q.queue_head = 0 ∧ s.q.queue_tail = 0 ∧
      s.produced_count = (max_num : Int) ∧ s.deq = s.enq ∧
      s.deq.Perm (List.range max_num)) := by
  subst hs
  have hI := cp_Inv_run max_num P C hmax hmax2 hn sched
  obtain ⟨_, _, _, _, hE1, hE2, hE3⟩ := cp_Inv_run max_num P C hmax hmax2 hn sched
  constructor
  · intro t ht
    obtain ⟨hcount, hhead⟩ := hE1 t (returned_shut _ ht)
    obtain ⟨htail, hde, hnd, hlen, hmem, hperm⟩ := cp_all_consumed hI hcount hhead
    refine ⟨hcount, hhead, htail, hde, hnd, hlen, hmem, hperm, ?_⟩
    intro later
    have hI' := cp_Inv_run max_num P C hmax hmax2 hn (sched ++ later)
    obtain ⟨_, hQ', hS', _, _⟩ := cp_Inv_run max_num P C hmax hmax2 hn (sched ++ later)
    have hpre := cp_run_prefix max_num P C later (run max_num P C sched)
    have hrun : runSched (step max_num P C) (run max_num P C sched) later =
        run max_num P C (sched ++ later) := by
      unfold run; rw [runSched_append]
    rw [hrun] at hpre
    have hlen' := InvS_length hS'
    have hdl : (run max_num P C (sched ++ later)).deq.length ≤
        (run max_num P C (sched ++ later)).enq.length := by
      obtain ⟨⟨nodes, _, _, _, _, henq, _⟩, _⟩ := hQ'
      rw [henq]; simp
    have hel : (run max_num P C sched).enq.length = max_num := by rw [← hde]; exact hlen
    have e1 : (run max_num P C sched).enq = (run max_num P C (sched ++ later)).enq :=
      hpre.1.eq_of_length_le (by omega)
    have e2 : (run max_num P C sched).deq = (run max_num P C (sched ++ later)).deq :=
      hpre.2.eq_of_length_le (by omega)
    exact ⟨e1.symm, e2.symm⟩
  · intro t ht
    have hstop := hE3 t (cexit_shut _ ht)
    obtain ⟨u, hu⟩ := hE2 hstop
    obtain ⟨hcount, hhead⟩ := hE1 u (Or.inr hu)
    obtain ⟨htail, hde, _, _, _, hperm⟩ := cp_all_consumed hI hcount hhead
    exact ⟨hstop, hhead, htail, hcount, hde, hperm⟩

/-- Witness for C10: with `max_num = 1`, one producer and one consumer, the producer
enqueues the value 0, the consumer dequeues it, and the main thread passes both of its
waits, sets `stop_flag` and reaches the joins. -/
theorem driver_completeness_witness :
    (0 < 1 ∧ 1 < 2147483648 ∧ 1 + 1 + 1 ≤ 4294967296) ∧
    (run 1 1 1 (List.replicate 11 ⟨1, 0, 5⟩ ++ List.replicate 9 ⟨2, 0, 0⟩ ++
      List.replicate 14 ⟨0, 0, 0⟩)).pc 0 = Pc.m_join ∧
    (run 1 1 1 (List.replicate 11 ⟨1, 0, 5⟩ ++ List.replicate 9 ⟨2, 0, 0⟩ ++
      List.replicate 14 ⟨0, 0, 0⟩)).stop_flag = 1 ∧
    (run 1 1 1 (List.replicate 11 ⟨1, 0, 5⟩ ++ List.replicate 9 ⟨2, 0, 0⟩ ++
      List.replicate 14 ⟨0, 0, 0⟩)).deq.Perm (List.range 1) := by
  have h := driver_completeness 1 1 1 (by decide) (by decide) (by decide)
    (List.replicate 11 ⟨1, 0, 5⟩ ++ List.replicate 9 ⟨2, 0, 0⟩ ++ List.replicate 14 ⟨0, 0, 0⟩)
    _ rfl
  exact ⟨⟨by decide, by decide, by decide⟩, by decide, by decide,
    (h.1 0 (by decide)).2.2.2.2.2.2.2.1⟩

end cp_pattern
/-! ### Shutdown of the consumers -/

namespace cp_pattern

theorem all_joined_false (n : Nat) (pc : Nat → Pc) (v : Nat) (hv : v < n) (h0 : v ≠ 0)
    (h1 : pc v ≠ Pc.p_return) (h2 : pc v ≠ Pc.c_return) : all_joined n pc = false := by
  unfold all_joined
  rw [Bool.eq_false_iff]
  intro h
  rw [List.all_eq_true] at h
  have hall := h v (List.mem_range.mpr hv)
  simp [h0, h1, h2] at hall

/-- In a hung state no step changes anything. -/
theorem hung_step (max_num P C v : Nat) (s : State) (a : Act) (h : Hung P C v s) :
    step max_num P C s a = s := by
  obtain ⟨hmain, hflag, hprod, hcons, hv1, hv2, hv⟩ := h
  unfold step
  split
  · rfl
  · rename_i hg
    push_neg at hg
    have hat := hg.2
    by_cases h0 : a.t = 0
    · have hj : all_joined (1 + P + C) s.pc = false :=
        all_joined_false _ _ v hv2 (by omega) (by rw [hv]; decide) (by rw [hv]; decide)
      rw [h0, hmain]
      simp only [hj]
      rfl
    · by_cases hp : a.t ≤ P
      · rw [hprod a.t (by omega) hp]
      · rcases hcons a.t (by omega) hat with hc | hc
        · rw [hc]
        · rw [hc]
          simp only [condition_variable_wait_step, hflag, if_true, c_after]
          rw [← hc, Function.update_eq_self]

theorem hung_run (max_num P C v : Nat) (s : State) (h : Hung P C v s) (l : List Act) :
    runSched (step max_num P C) s l = s := by
  induction l with
  | nil => rfl
  | cons a l ih =>
    show runSched (step max_num P C) (step max_num P C s a) l = s
    rw [hung_step max_num P C v s a h]; exact ih

/-- In round `k` the producer produces the value `k`. -/
theorem hang_producer_round (max_num k : Nat) (hk : k < max_num)
    (hmax : max_num < 2147483648) (s : State) (h : Asleep k s) :
    Produced k (runSched (step max_num 1 2) s
      (List.replicate (if k + 1 = max_num then 11 else 10) ⟨1, k, 5⟩)) := by
  obtain ⟨h0, h1, h2, h3, hie, hpd, hc, hst, hh, ht, hl, hseen, hq, hp, hex⟩ := h
  have hlt : (k : Int) < (max_num : Int) := by omega
  have hw : wrap32 ((k : Int) + 1) = (k : Int) + 1 := wrap32_id _ (by omega) (by omega)
  have hwm : wrap32 (max_num : Int) = (max_num : Int) := wrap32_id _ (by omega) (by omega)
  have hcast : (k : Int) + 1 = (max_num : Int) ↔ k + 1 = max_num := by
    constructor
    · intro e
      have e' : ((k + 1 : Nat) : Int) = (max_num : Int) := by rw [Nat.cast_succ]; exact e
      exact Nat.cast_injective e'
    · intro e
      rw [← e, Nat.cast_succ]
  have hseen' : ∀ v, k + 1 ≤ v → Function.update s.seen k true v = false := by
    intro v hv
    have hvk : v ≠ k := Nat.ne_of_gt hv
    rw [Function.update_noteq hvk]
    exact hseen v (Nat.le_of_succ_le hv)
  have hkm : k % max_num = k := Nat.mod_eq_of_lt hk
  have hs := hseen k (le_refl k)
  by_cases hlast : k + 1 = max_num
  · have hlast' : (k : Int) + 1 = (max_num : Int) := hcast.mpr hlast
    rw [if_pos hlast]
    simp only [List.replicate, runSched, List.foldl]
    unfold Produced
    simp [step, hex, h0, h1, h2, h3, hc, hlt, hkm, ticketlock_acquire_fetch,
      ticketlock_acquire_spins, hq, hs, enqueue, ht, hl, hlast', hw, hwm, hpd, hst, hp,
      condition_variable_signal_test, hie, condition_variable_clear, ticketlock_release]
    exact hseen'
  · have hlast' : ¬ ((k : Int) + 1 = (max_num : Int)) := fun e => hlast (hcast.mp e)
    rw [if_neg hlast]
    simp only [List.replicate, runSched, List.foldl]
    unfold Produced
    simp [step, hex, h0, h1, h2, h3, hc, hlt, hkm, ticketlock_acquire_fetch,
      ticketlock_acquire_spins, hq, hs, enqueue, ht, hl, hlast', hw, hwm, hpd, hst, hp,
      condition_variable_signal_test, hie, condition_variable_clear, ticketlock_release]
    exact hseen'

theorem wrap32_one : wrap32 1 = 1 := by decide

theorem wrap32_two : wrap32 2 = 2 := by decide

theorem wrap32_zero : wrap32 0 = 0 := by decide

theorem hang_consumer_round (max_num k : Nat) (s : State) (h : Produced k s) :
    Asleep (k + 1) (runSched (step max_num 1 2) s (List.replicate 17 ⟨2, 0, 0⟩)) := by
  obtain ⟨h0, h1, h2, h3, hie, hpd, hc, hst, hh, ht, hn, hl, hseen, hq, hp, hex⟩ := h
  simp only [List.replicate, runSched, List.foldl]
  unfold Asleep
  simp [step, hex, h0, h1, h2, h3, hc, ticketlock_acquire_fetch, ticketlock_acquire_spins, hq,
    hh, ht, hn, hl, hpd, hst, hp, condition_variable_wait_step, c_after, hie, dequeue, free,
    ticketlock_release, wrap32_one, wrap32_two]
  exact hseen

theorem hang_round_step (max_num k : Nat) (hk : k < max_num) (hmax : max_num < 2147483648)
    (s : State) (h : Asleep k s) :
    Asleep (k + 1) (runSched (step max_num 1 2) s (hang_round max_num k)) := by
  unfold hang_round
  rw [runSched_append]
  exact hang_consumer_round max_num k _ (hang_producer_round max_num k hk hmax s h)

theorem hang_rounds_asleep (max_num : Nat) (hmax : max_num < 2147483648) (s : State)
    (h : Asleep 0 s) (k : Nat) (hk : k ≤ max_num) :
    Asleep k (runSched (step max_num 1 2) s (hang_rounds max_num k)) := by
  induction k with
  | zero => exact h
  | succ k ih =>
    show Asleep (k + 1) (runSched (step max_num 1 2) s
      (hang_rounds max_num k ++ hang_round max_num k))
    rw [runSched_append]
    exact hang_round_step max_num k hk hmax _ (ih (Nat.le_of_succ_le hk))

/-- Both consumers go to sleep before anything is produced. -/
theorem hang_pre (max_num : Nat) :
    Asleep 0 (runSched (step max_num 1 2) (init 1)
      (List.replicate 14 ⟨2, 0, 0⟩ ++ List.replicate 6 ⟨3, 0, 0⟩)) := by
  simp only [List.replicate, List.cons_append, List.nil_append, runSched, List.foldl]
  unfold Asleep
  simp [step, init, ticketlock_init, condition_variable_init, ticketlock_acquire_fetch,
    ticketlock_acquire_spins, condition_variable_wait_step, c_after, ticketlock_release,
    wrap32_one, wrap32_two, wrap32_zero]

theorem hung_of_four (s : State) (h0 : s.pc 0 = Pc.m_join) (h1 : s.pc 1 = Pc.p_return)
    (h2 : s.pc 2 = Pc.c_return) (h3 : s.pc 3 = Pc.c_wait CvPc.spin)
    (hl : s.is_empty.lock = true) : Hung 1 2 3 s := by
  refine ⟨h0, hl, ?_, ?_, by decide, by decide, h3⟩
  · intro t ht1 ht2
    have e : t = 1 := by omega
    rw [e]; exact h1
  · intro t ht1 ht2
    have e : t = 2 ∨ t = 3 := by omega
    rcases e with e | e
    · rw [e]; exact Or.inl h2
    · rw [e]; exact Or.inr h3

/-- After the last round the producer returns, `main` passes both waits and runs
`stop_consumers`, consumer 2 wakes and returns, and the driver hangs. -/
theorem hang_post (max_num : Nat) (s : State) (h : Asleep max_num s) :
    Hung 1 2 3 (runSched (step max_num 1 2) s
      ([⟨1, 0, 0⟩] ++ List.replicate 13 ⟨0, 0, 0⟩ ++ List.replicate 7 ⟨2, 0, 0⟩)) ∧
    (runSched (step max_num 1 2) s
      ([⟨1, 0, 0⟩] ++ List.replicate 13 ⟨0, 0, 0⟩ ++ List.replicate 7 ⟨2, 0, 0⟩)).stop_flag =
        1 ∧
    (runSched (step max_num 1 2) s
      ([⟨1, 0, 0⟩] ++ List.replicate 13 ⟨0, 0, 0⟩ ++ List.replicate 7 ⟨2, 0, 0⟩)).pc 2 =
        Pc.c_return := by
  obtain ⟨h0, h1, h2, h3, hie, hpd, hc, hst, hh, ht, hl, hseen, hq, hp, hex⟩ := h
  have key :
      (runSched (step max_num 1 2) s
        ([⟨1, 0, 0⟩] ++ List.replicate 13 ⟨0, 0, 0⟩ ++ List.replicate 7 ⟨2, 0, 0⟩)).pc 0 =
          Pc.m_join ∧
      (runSched (step max_num 1 2) s
        ([⟨1, 0, 0⟩] ++ List.replicate 13 ⟨0, 0, 0⟩ ++ List.replicate 7 ⟨2, 0, 0⟩)).pc 1 =
          Pc.p_return ∧
      (runSched (step max_num 1 2) s
        ([⟨1, 0, 0⟩] ++ List.replicate 13 ⟨0, 0, 0⟩ ++ List.replicate 7 ⟨2, 0, 0⟩)).pc 2 =
          Pc.c_return ∧
      (runSched (step max_num 1 2) s
        ([⟨1, 0, 0⟩] ++ List.replicate 13 ⟨0, 0, 0⟩ ++ List.replicate 7 ⟨2, 0, 0⟩)).pc 3 =
          Pc.c_wait CvPc.spin ∧
      (runSched (step max_num 1 2) s
        ([⟨1, 0, 0⟩] ++ List.replicate 13 ⟨0, 0, 0⟩ ++
          List.replicate 7 ⟨2, 0, 0⟩)).is_empty.lock = true ∧
      (runSched (step max_num 1 2) s
        ([⟨1, 0, 0⟩] ++ List.replicate 13 ⟨0, 0, 0⟩ ++ List.replicate 7 ⟨2, 0, 0⟩)).stop_flag =
          1 := by
    simp only [List.replicate, List.cons_append, List.nil_append, runSched, List.foldl]
    simp [step, hex, h0, h1, h2, h3, hc, ticketlock_acquire_fetch, ticketlock_acquire_spins, hq,
      hh, ht, hl, hpd, hst, hp, condition_variable_wait_step, c_after, hie,
      condition_variable_clear, ticketlock_release, wrap32_one, wrap32_two]
  obtain ⟨k0, k1, k2, k3, k4, k5⟩ := key
  exact ⟨hung_of_four _ k0 k1 k2 k3 k4, k5, k2⟩

theorem hang_reaches (max_num : Nat) (hmax : max_num < 2147483648) :
    Hung 1 2 3 (run max_num 1 2 (hang_schedule max_num)) ∧
    (run max_num 1 2 (hang_schedule max_num)).stop_flag = 1 ∧
    (run max_num 1 2 (hang_schedule max_num)).pc 2 = Pc.c_return := by
  have e : hang_schedule max_num =
      (List.replicate 14 ⟨2, 0, 0⟩ ++ List.replicate 6 ⟨3, 0, 0⟩) ++
        (hang_rounds max_num max_num ++
          ([⟨1, 0, 0⟩] ++ List.replicate 13 ⟨0, 0, 0⟩ ++ List.replicate 7 ⟨2, 0, 0⟩)) := by
    unfold hang_schedule
    simp only [List.append_assoc]
  unfold run
  rw [e, runSched_append, runSched_append]
  exact hang_post max_num _
    (hang_rounds_asleep max_num hmax _ (hang_pre max_num) max_num (le_refl _))

/-- C11 (fails on the code): with one producer and two consumers and the constant
`MAX_NUM` of the source, after `hang_schedule` every value has been produced and consumed,
`stop_consumers` has stored `stop_flag = 1` and finished the broadcast on `is_empty`
(`main` is in the `pthread_join` loops), consumer 2 has returned, and in every
continuation of the schedule consumer 3 is still in the test-and-set loop of
`condition_variable_wait` and `main` is still joining: the two `atomic_flag_clear` calls
of the broadcast woke one consumer only. -/
theorem shutdown_leaves_consumer_asleep :
    (run MAX_NUM 1 2 (hang_schedule MAX_NUM)).stop_flag = 1 ∧
    (run MAX_NUM 1 2 (hang_schedule MAX_NUM)).produced_count = (MAX_NUM : Int) ∧
    (run MAX_NUM 1 2 (hang_schedule MAX_NUM)).pc 0 = Pc.m_join ∧
    (run MAX_NUM 1 2 (hang_schedule MAX_NUM)).pc 2 = Pc.c_return ∧
    ∀ later : List Act,
      (run MAX_NUM 1 2 (hang_schedule MAX_NUM ++ later)).pc 3 = Pc.c_wait CvPc.spin ∧
      (run MAX_NUM 1 2 (hang_schedule MAX_NUM ++ later)).pc 0 = Pc.m_join := by
  obtain ⟨hh, hstop, h2⟩ := hang_reaches MAX_NUM (by decide)
  have hI := cp_Inv_run MAX_NUM 1 2 (by decide) (by decide) (by decide) (hang_schedule MAX_NUM)
  have hcount : (run MAX_NUM 1 2 (hang_schedule MAX_NUM)).produced_count = (MAX_NUM : Int) :=
    (hI.2.2.2.2.1 0 (Or.inr (by
      show ((run MAX_NUM 1 2 (hang_schedule MAX_NUM)).pc 0).shut = Shut.stopped
      rw [hh.1]; rfl))).1
  refine ⟨hstop, hcount, hh.1, h2, ?_⟩
  intro later
  have e : run MAX_NUM 1 2 (hang_schedule MAX_NUM ++ later) =
      run MAX_NUM 1 2 (hang_schedule MAX_NUM) := by
    unfold run
    rw [runSched_append]
    exact hung_run MAX_NUM 1 2 3 _ hh later
  rw [e]
  exact ⟨hh.2.2.2.2.2.2, hh.1⟩

end cp_pattern
/-! ### A freshly initialised condition variable -/

/-- C18 (fails on the code): `condition_variable_init` leaves the flag clear, the state in
which `condition_variable_signal` leaves it.  Whatever the external lock and the value of
`waiters`, the first test-and-set of a waiter on the fresh condition variable ends the wait
loop; a thread that holds the external lock and calls `condition_variable_wait` right
after `condition_variable_init` returns after its six steps, with no call of
`condition_variable_signal` or `condition_variable_broadcast` by any thread. -/
theorem fresh_condition_variable_wait_returns :
    condition_variable_init.lock = false ∧
    (∀ (ext_lock : ticket_lock) (w : Int),
      (condition_variable_wait_step { condition_variable_init with waiters := w } ext_lock
        CvPc.spin).2.2 = some CvPc.fetch) ∧
    condition_variable_wait_steps 3 condition_variable_init
        (ticketlock_acquire_fetch ticketlock_init).2 (some CvPc.inc) =
      ({ lock := true, waiters := 1 }, { cur_ticket := 1, ticket := 1 }, some CvPc.fetch) ∧
    condition_variable_wait_steps 6 condition_variable_init
        (ticketlock_acquire_fetch ticketlock_init).2 (some CvPc.inc) =
      ({ lock := true, waiters := 0 }, { cur_ticket := 1, ticket := 2 }, none) := by
  refine ⟨rfl, ?_, by decide, by decide⟩
  intro ext_lock w
  rfl

/-! ### Thread-local storage: the table as a whole -/

namespace local_storage

theorem getElem?_set_cases (g : List tls_data_t) (k : Nat) (x : tls_data_t) (j : Nat) :
    (j = k ∧ k < g.length ∧ (g.set k x)[j]? = some x) ∨
    (j ≠ k ∧ (g.set k x)[j]? = g[j]?) ∨
    (g.length ≤ k ∧ (g.set k x)[j]? = g[j]?) := by
  by_cases hjk : j = k
  · subst hjk
    by_cases hlt : j < g.length
    · left; exact ⟨rfl, hlt, by simp [List.getElem?_set, hlt]⟩
    · right; right
      refine ⟨by omega, ?_⟩
      rw [List.set_eq_of_length_le (by omega)]
  · right; left
    exact ⟨hjk, by rw [List.getElem?_set_ne (fun e => hjk e.symm)]⟩

theorem mem_iff_getElem (g : List tls_data_t) (T : Int) :
    (∃ s ∈ g, s.thread_id = T) ↔ ∃ (k : Nat) (s : tls_data_t), g[k]? = some s ∧ s.thread_id = T := by
  constructor
  · rintro ⟨s, hs, hT⟩
    obtain ⟨k, hk⟩ := List.mem_iff_getElem?.mp hs
    exact ⟨k, s, hk, hT⟩
  · rintro ⟨k, s, hk, hT⟩
    exact ⟨s, List.mem_iff_getElem?.mpr ⟨k, hk⟩, hT⟩

/-- Overwriting a slot keeps who holds a slot, when the old and the new content agree on
being a slot of `T`. -/
theorem holds_set_iff (g : List tls_data_t) (k : Nat) (s x : tls_data_t) (T : Int)
    (hk : g[k]? = some s) (hx : x.thread_id = T ↔ s.thread_id = T) :
    (∃ s' ∈ g.set k x, s'.thread_id = T) ↔ ∃ s' ∈ g, s'.thread_id = T := by
  rw [mem_iff_getElem, mem_iff_getElem]
  constructor
  · rintro ⟨j, s', hj, hT⟩
    rcases getElem?_set_cases g k x j with ⟨e, _, h⟩ | ⟨_, h⟩ | ⟨_, h⟩
    · rw [h] at hj
      have : x = s' := Option.some.inj hj
      subst this
      exact ⟨k, s, hk, hx.mp hT⟩
    · rw [h] at hj; exact ⟨j, s', hj, hT⟩
    · rw [h] at hj; exact ⟨j, s', hj, hT⟩
  · rintro ⟨j, s', hj, hT⟩
    rcases getElem?_set_cases g k x j with ⟨e, _, h⟩ | ⟨_, h⟩ | ⟨_, h⟩
    · subst e
      rw [hk] at hj
      have : s = s' := Option.some.inj hj
      subst this
      exact ⟨j, x, h, hx.mpr hT⟩
    · exact ⟨j, s', by rw [h]; exact hj, hT⟩
    · exact ⟨j, s', by rw [h]; exact hj, hT⟩

/-- Overwriting a slot by one with the same id, or with the id `-1`, or with an id that no
slot holds, keeps the ids unique. -/
theorem Uniq_set (g : List tls_data_t) (k : Nat) (s x : tls_data_t) (hk : g[k]? = some s)
    (hx : x.thread_id = s.thread_id ∨ x.thread_id = -1 ∨ ∀ s' ∈ g, s'.thread_id ≠ x.thread_id)
    (hU : Uniq g) : Uniq (g.set k x) := by
  intro i j a b hi hj hab ha
  rcases getElem?_set_cases g k x i with ⟨ei, _, h1⟩ | h1 <;>
    rcases getElem?_set_cases g k x j with ⟨ej, _, h2⟩ | h2
  · rw [ei, ej]
  · have h2' : (g.set k x)[j]? = g[j]? := by rcases h2 with ⟨_, h⟩ | ⟨_, h⟩ <;> exact h
    rw [h1] at hi; rw [h2'] at hj
    have e : x = a := Option.some.inj hi
    subst e
    rcases hx with hx | hx | hx
    · rw [ei]
      exact hU k j s b hk hj (by rw [← hx]; exact hab) (by rw [← hx]; exact ha)
    · exact absurd hx ha
    · exact absurd hab.symm (hx b (List.mem_iff_getElem?.mpr ⟨j, hj⟩))
  · have h1' : (g.set k x)[i]? = g[i]? := by rcases h1 with ⟨_, h⟩ | ⟨_, h⟩ <;> exact h
    rw [h2] at hj; rw [h1'] at hi
    have e : x = b := Option.some.inj hj
    subst e
    rcases hx with hx | hx | hx
    · rw [ej]
      exact hU i k a s hi hk (by rw [← hx]; exact hab) ha
    · rw [hab] at ha; exact absurd hx ha
    · exact absurd hab (hx a (List.mem_iff_getElem?.mpr ⟨i, hi⟩))
  · have h1' : (g.set k x)[i]? = g[i]? := by rcases h1 with ⟨_, h⟩ | ⟨_, h⟩ <;> exact h
    have h2' : (g.set k x)[j]? = g[j]? := by rcases h2 with ⟨_, h⟩ | ⟨_, h⟩ <;> exact h
    rw [h1'] at hi; rw [h2'] at hj
    exact hU i j a b hi hj hab ha

theorem Uniq_init (MAX_THREADS : Nat) : Uniq (init_storage MAX_THREADS) := by
  intro i j s s' hi _ _ hs
  have hmem : s ∈ init_storage MAX_THREADS := List.mem_iff_getElem?.mpr ⟨i, hi⟩
  have := List.eq_of_mem_replicate hmem
  rw [this] at hs
  exact absurd rfl hs

/-- The function `set_tls_data`, when it succeeds, overwrites the `data` of the first slot
of `tid`. -/
theorem set_scan_cases (tid : Int) (d : Nat) (g g' : List tls_data_t)
    (h : set_scan tid d g = some g') :
    ∃ k s, g[k]? = some s ∧ s.thread_id = tid ∧
      (∀ j s', j < k → g[j]? = some s' → s'.thread_id ≠ tid) ∧
      g' = g.set k { s with data := d } := by
  induction g generalizing g' with
  | nil => simp [set_scan] at h
  | cons a g ih =>
    unfold set_scan at h
    by_cases ha : a.thread_id = tid
    · rw [if_pos ha] at h
      have h' := Option.some.inj h
      refine ⟨0, a, by simp, ha, ?_, ?_⟩
      · intro j s' hj; omega
      · rw [← h']; rfl
    · rw [if_neg ha] at h
      cases hr : set_scan tid d g with
      | none => rw [hr] at h; cases h
      | some r =>
        rw [hr] at h
        simp only [Option.map_some', Option.some.injEq] at h
        obtain ⟨k, s, hk, hs, hfirst, hset⟩ := ih r hr
        refine ⟨k + 1, s, by simpa using hk, hs, ?_, ?_⟩
        · intro j s' hj hjs
          cases j with
          | zero => simp at hjs; rw [← hjs]; exact ha
          | succ j => exact hfirst j s' (by omega) (by simpa using hjs)
        · rw [← h, hset]; rfl

/-- The function `tls_thread_free` either finds no slot of `tid` and changes nothing, or
resets the first slot of `tid`. -/
theorem free_cases (tid : Int) (g : List tls_data_t) :
    ((∀ s ∈ g, s.thread_id ≠ tid) ∧ tls_thread_free tid g = g) ∨
    ∃ k s, g[k]? = some s ∧ s.thread_id = tid ∧
      (∀ j s', j < k → g[j]? = some s' → s'.thread_id ≠ tid) ∧
      tls_thread_free tid g = g.set k { thread_id := -1, data := 0 } := by
  induction g with
  | nil => left; exact ⟨by simp, rfl⟩
  | cons a g ih =>
    unfold tls_thread_free
    by_cases ha : a.thread_id = tid
    · right
      refine ⟨0, a, by simp, ha, ?_, ?_⟩
      · intro j s' hj; omega
      · simp [ha]
    · simp only [ha, if_false]
      rcases ih with ⟨hno, he⟩ | ⟨k, s, hk, hs, hfirst, he⟩
      · left
        refine ⟨?_, by rw [he]⟩
        intro s hs
        rcases List.mem_cons.mp hs with e | e
        · rw [e]; exact ha
        · exact hno s e
      · right
        refine ⟨k + 1, s, by simpa using hk, hs, ?_, by rw [he]; rfl⟩
        intro j s' hj hjs
        cases j with
        | zero => simp at hjs; rw [← hjs]; exact ha
        | succ j => exact hfirst j s' (by omega) (by simpa using hjs)

end local_storage
namespace local_storage

theorem get_scan_none_iff (tid : Int) (g : List tls_data_t) :
    get_scan tid g = none ↔ ∀ s ∈ g, s.thread_id ≠ tid := by
  induction g with
  | nil => simp [get_scan]
  | cons a g ih =>
    unfold get_scan
    by_cases ha : a.thread_id = tid
    · simp [ha]
    · simp [ha, ih]

theorem set_scan_none_iff (tid : Int) (d : Nat) (g : List tls_data_t) :
    set_scan tid d g = none ↔ ∀ s ∈ g, s.thread_id ≠ tid := by
  induction g with
  | nil => simp [set_scan]
  | cons a g ih =>
    unfold set_scan
    by_cases ha : a.thread_id = tid
    · simp [ha]
    · simp [ha, ih]

/-- The functional reading `set_scan` of the loop of `set_tls_data` agrees with its action
on the memory. -/
theorem set_scan_eq_set_loop (tid : Int) (d : Nat) (g : List tls_data_t) :
    set_scan tid d g =
      if (set_loop tid d g).2 = true then some (set_loop tid d g).1 else none := by
  induction g with
  | nil => simp [set_scan, set_loop]
  | cons a g ih =>
    unfold set_scan set_loop
    by_cases ha : a.thread_id = tid
    · simp [ha]
    · simp only [ha, if_false, ih]
      by_cases hf : (set_loop tid d g).2 = true
      · simp [hf]
      · simp [hf]

/-- A loop of `set_tls_data` that meets no slot of `tid` writes nothing. -/
theorem set_loop_not_found (tid : Int) (d : Nat) (g : List tls_data_t)
    (h : (set_loop tid d g).2 = false) : (set_loop tid d g).1 = g := by
  induction g with
  | nil => rfl
  | cons a g ih =>
    unfold set_loop at h ⊢
    by_cases ha : a.thread_id = tid
    · simp [ha] at h
    · simp only [ha, if_false] at h ⊢
      rw [ih h]

theorem get_error_iff (tid : Int) (g : List tls_data_t) (code : Nat) :
    get_tls_data tid g = Except.error code ↔ code = 2 ∧ ∀ s ∈ g, s.thread_id ≠ tid := by
  unfold get_tls_data
  cases h : get_scan tid g with
  | none =>
    have := (get_scan_none_iff tid g).mp h
    simp only [Except.error.injEq]
    exact ⟨fun e => ⟨e.symm, this⟩, fun e => e.1.symm⟩
  | some p =>
    have hne : ¬ ∀ s ∈ g, s.thread_id ≠ tid := by
      rw [← get_scan_none_iff, h]; simp
    constructor
    · intro e; cases e
    · intro e; exact absurd e.2 hne

theorem set_error_iff (tid : Int) (d : Nat) (g : List tls_data_t) (code : Nat) :
    set_tls_data tid d g = Except.error code ↔ code = 2 ∧ ∀ s ∈ g, s.thread_id ≠ tid := by
  unfold set_tls_data
  cases h : set_scan tid d g with
  | none =>
    have := (set_scan_none_iff tid d g).mp h
    simp only [Except.error.injEq]
    exact ⟨fun e => ⟨e.symm, this⟩, fun e => e.1.symm⟩
  | some p =>
    have hne : ¬ ∀ s ∈ g, s.thread_id ≠ tid := by
      rw [← set_scan_none_iff tid d, h]; simp
    constructor
    · intro e; cases e
    · intro e; exact absurd e.2 hne

/-- A scan of `tls_thread_alloc` that ends with `first_free_slot == -1` met no free
slot. -/
theorem alloc_scan_no_free (tid : Int) (g : List tls_data_t) (i : Nat)
    (h : alloc_scan tid g i (-1) = some (-1)) : ∀ s ∈ g, s.thread_id ≠ -1 := by
  induction g generalizing i with
  | nil => simp
  | cons a g ih =>
    unfold alloc_scan at h
    by_cases ha : a.thread_id = tid
    · simp [ha] at h
    · rw [if_neg ha] at h
      by_cases hf : a.thread_id = -1
      · rw [if_pos ⟨hf, rfl⟩] at h
        have := alloc_scan_keeps tid g (i + 1) (i : Int) (-1) (by omega) h
        omega
      · rw [if_neg (fun e => hf e.1)] at h
        intro s hs
        rcases List.mem_cons.mp hs with e | e
        · rw [e]; exact hf
        · exact ih (i + 1) h s e

theorem alloc_error_iff (tid : Int) (g : List tls_data_t) (code : Nat) :
    tls_thread_alloc tid g = Except.error code ↔
      code = 1 ∧ (∀ s ∈ g, s.thread_id ≠ tid) ∧ (∀ s ∈ g, s.thread_id ≠ -1) := by
  constructor
  · intro h
    unfold tls_thread_alloc at h
    cases hs : alloc_scan tid g 0 (-1) with
    | none => rw [hs] at h; cases h
    | some r =>
      rw [hs] at h
      have hno : ∀ s ∈ g, s.thread_id ≠ tid := by
        intro s hm he
        have := (alloc_scan_none_iff tid g 0 (-1)).mpr ⟨s, hm, he⟩
        rw [this] at hs; cases hs
      by_cases hr : r = -1
      · simp only [hr, if_true, Except.error.injEq] at h
        rw [hr] at hs
        exact ⟨h.symm, hno, alloc_scan_no_free tid g 0 hs⟩
      · simp only [hr, if_false] at h; cases h
  · rintro ⟨hc, hno, hfree⟩
    cases hr : tls_thread_alloc tid g with
    | error c =>
      have : c = 1 := by
        unfold tls_thread_alloc at hr
        cases hs : alloc_scan tid g 0 (-1) with
        | none => rw [hs] at hr; cases hr
        | some r =>
          rw [hs] at hr
          by_cases hr1 : r = -1
          · simp only [hr1, if_true, Except.error.injEq] at hr; exact hr.symm
          · simp only [hr1, if_false] at hr; cases hr
      rw [this, hc]
    | ok g1 =>
      rcases alloc_ok_cases tid g g1 hr with ⟨⟨s, hs, he⟩, _⟩ | ⟨_, k, s, hk, hs, _⟩
      · exact absurd he (hno s hs)
      · exact absurd hs (hfree s (List.mem_iff_getElem?.mpr ⟨k, hk⟩))

/-- After `(tid, d)` is written into a slot of a table in which no slot held `tid`, the
scan of `get_tls_data` finds `d`. -/
theorem get_scan_set_new (tid : Int) (d : Nat) (g : List tls_data_t) (k : Nat)
    (hk : k < g.length) (hno : ∀ s ∈ g, s.thread_id ≠ tid) :
    get_scan tid (g.set k { thread_id := tid, data := d }) = some d := by
  induction g generalizing k with
  | nil => simp at hk
  | cons a g ih =>
    cases k with
    | zero => simp [get_scan]
    | succ k =>
      have ha : a.thread_id ≠ tid := hno a (by simp)
      simp only [List.set_cons_succ, get_scan, ha, if_false]
      exact ih k (by simpa using hk) (fun s hs => hno s (by simp [hs]))

theorem Uniq_apply_op (tid : Int) (op : Op) (g g' : List tls_data_t) (hU : Uniq g)
    (h : apply_op tid op g = Except.ok g') : Uniq g' := by
  cases op with
  | alloc =>
    rcases alloc_ok_cases tid g g' h with ⟨_, he⟩ | ⟨hno, k, s, hk, _, _, he⟩
    · rw [he]; exact hU
    · rw [he]; exact Uniq_set g k s _ hk (Or.inr (Or.inr hno)) hU
  | get =>
    simp only [apply_op] at h
    cases hg : get_tls_data tid g with
    | error c => rw [hg] at h; cases h
    | ok p => rw [hg] at h; cases h; exact hU
  | set d =>
    simp only [apply_op, set_tls_data] at h
    cases hs : set_scan tid d g with
    | none => rw [hs] at h; cases h
    | some r =>
      rw [hs] at h
      cases h
      obtain ⟨k, s, hk, _, _, he⟩ := set_scan_cases tid d g g' hs
      rw [he]; exact Uniq_set g k s _ hk (Or.inl rfl) hU
  | free =>
    simp only [apply_op] at h
    cases h
    rcases free_cases tid g with ⟨_, he⟩ | ⟨k, s, hk, _, _, he⟩
    · rw [he]; exact hU
    · rw [he]; exact Uniq_set g k s _ hk (Or.inr (Or.inl rfl)) hU

theorem Uniq_apply_ops (calls : List (Int × Op)) (g g' : List tls_data_t) (hU : Uniq g)
    (h : apply_ops calls g = Except.ok g') : Uniq g' := by
  induction calls generalizing g with
  | nil => simp only [apply_ops] at h; cases h; exact hU
  | cons c calls ih =>
    obtain ⟨tid, op⟩ := c
    simp only [apply_ops] at h
    cases hop : apply_op tid op g with
    | error code => rw [hop] at h; cases h
    | ok g1 =>
      rw [hop] at h
      exact ih g1 (Uniq_apply_op tid op g g1 hU hop) h

end local_storage
namespace local_storage

/-- With unique ids, `tls_thread_free` leaves no slot of the thread. -/
theorem free_no_slot (T : Int) (hT : T ≠ -1) (g : List tls_data_t) (hU : Uniq g) :
    ∀ s ∈ tls_thread_free T g, s.thread_id ≠ T := by
  rcases free_cases T g with ⟨hno, he⟩ | ⟨k, s, hk, hs, _, he⟩
  · rw [he]; exact hno
  · rw [he]
    intro s' hs' hT'
    obtain ⟨j, hj⟩ := List.mem_iff_getElem?.mp hs'
    rcases getElem?_set_cases g k { thread_id := -1, data := 0 } j with ⟨_, _, h⟩ | h
    · rw [h] at hj
      have e : s' = { thread_id := -1, data := 0 } := (Option.some.inj hj).symm
      rw [e] at hT'
      exact hT hT'.symm
    · have h' : (g.set k { thread_id := -1, data := 0 })[j]? = g[j]? := by
        rcases h with ⟨_, h⟩ | ⟨_, h⟩ <;> exact h
      have hjk : j = k := hU j k s' s (by rw [← h']; exact hj) hk (by rw [hT', hs])
        (by rw [hT']; exact hT)
      rcases h with ⟨hne, _⟩ | ⟨hle, _⟩
      · exact hne hjk
      · have := (List.getElem?_eq_some.mp hk).1
        omega

/-- One call changes whether `T` holds a slot as `allocated_step` says. -/
theorem holds_apply_op (T : Int) (hT : T ≠ -1) (tid : Int) (op : Op) (g g' : List tls_data_t)
    (hU : Uniq g) (b : Bool) (hb : (∃ s ∈ g, s.thread_id = T) ↔ b = true)
    (h : apply_op tid op g = Except.ok g') :
    (∃ s ∈ g', s.thread_id = T) ↔ allocated_step T b (tid, op) = true := by
  cases op with
  | alloc =>
    by_cases htid : tid = T
    · subst htid
      simp only [allocated_step, if_true]
      exact iff_of_true (alloc_ok_has_slot tid g g' h) trivial
    · simp only [allocated_step, htid, if_false]
      rcases alloc_ok_cases tid g g' h with ⟨_, he⟩ | ⟨_, k, s, hk, hs, _, he⟩
      · rw [he]; exact hb
      · rw [he, holds_set_iff g k s _ T hk
          (iff_of_false htid (by rw [hs]; exact fun e => hT e.symm))]
        exact hb
  | get =>
    have he : g' = g := by
      simp only [apply_op] at h
      cases hg : get_tls_data tid g with
      | error c => rw [hg] at h; cases h
      | ok p => rw [hg] at h; cases h; rfl
    rw [he]
    by_cases htid : tid = T <;> simp only [allocated_step, htid, if_true, if_false] <;> exact hb
  | set d =>
    simp only [apply_op, set_tls_data] at h
    cases hs : set_scan tid d g with
    | none => rw [hs] at h; cases h
    | some r =>
      rw [hs] at h
      cases h
      obtain ⟨k, s, hk, _, _, he⟩ := set_scan_cases tid d g g' hs
      rw [he, holds_set_iff g k s { s with data := d } T hk Iff.rfl]
      by_cases htid : tid = T <;> simp only [allocated_step, htid, if_true, if_false] <;>
        exact hb
  | free =>
    simp only [apply_op] at h
    cases h
    by_cases htid : tid = T
    · subst htid
      simp only [allocated_step, if_true]
      apply iff_of_false _ (by simp)
      rintro ⟨s, hs, he⟩
      exact free_no_slot tid hT g hU s hs he
    · simp only [allocated_step, htid, if_false]
      rcases free_cases tid g with ⟨_, he⟩ | ⟨k, s, hk, hs, _, he⟩
      · rw [he]; exact hb
      · rw [he, holds_set_iff g k s _ T hk
          (iff_of_false (fun e => hT e.symm) (by rw [hs]; exact htid))]
        exact hb

theorem holds_apply_ops (T : Int) (hT : T ≠ -1) (calls : List (Int × Op))
    (g g' : List tls_data_t) (hU : Uniq g) (b : Bool)
    (hb : (∃ s ∈ g, s.thread_id = T) ↔ b = true) (h : apply_ops calls g = Except.ok g') :
    (∃ s ∈ g', s.thread_id = T) ↔ calls.foldl (allocated_step T) b = true := by
  induction calls generalizing g b with
  | nil => simp only [apply_ops] at h; cases h; exact hb
  | cons c calls ih =>
    obtain ⟨tid, op⟩ := c
    simp only [apply_ops] at h
    cases hop : apply_op tid op g with
    | error code => rw [hop] at h; cases h
    | ok g1 =>
      rw [hop] at h
      exact ih g1 (Uniq_apply_op tid op g g1 hU hop) _
        (holds_apply_op T hT tid op g g1 hU b hb hop) h

theorem holds_iff_allocated (T : Int) (hT : T ≠ -1) (MAX_THREADS : Nat)
    (calls : List (Int × Op)) (g : List tls_data_t)
    (h : apply_ops calls (init_storage MAX_THREADS) = Except.ok g) :
    (∃ s ∈ g, s.thread_id = T) ↔ allocated T calls = true := by
  apply holds_apply_ops T hT calls (init_storage MAX_THREADS) g (Uniq_init MAX_THREADS) false
    _ h
  apply iff_of_false _ (by simp)
  rintro ⟨s, hs, he⟩
  have := List.eq_of_mem_replicate hs
  rw [this] at he
  exact hT he.symm

end local_storage
namespace local_storage

theorem Uniq_tail (a : tls_data_t) (g : List tls_data_t) (hU : Uniq (a :: g)) : Uniq g := by
  intro i j s s' hi hj hss hs
  have := hU (i + 1) (j + 1) s s' (by simpa using hi) (by simpa using hj) hss hs
  omega

theorem Uniq_filter_le (T : Int) (hT : T ≠ -1) (g : List tls_data_t) (hU : Uniq g) :
    (g.filter (fun s => decide (s.thread_id = T))).length ≤ 1 := by
  induction g with
  | nil => simp
  | cons a g ih =>
    by_cases ha : a.thread_id = T
    · have hnone : g.filter (fun s => decide (s.thread_id = T)) = [] := by
        rw [List.filter_eq_nil_iff]
        intro s hs hd
        have hd' : s.thread_id = T := by simpa using hd
        obtain ⟨j, hj⟩ := List.mem_iff_getElem?.mp hs
        have := hU 0 (j + 1) a s (by simp) (by simpa using hj) (by rw [ha, hd'])
          (by rw [ha]; exact hT)
        omega
      simp [List.filter_cons, ha, hnone]
    · simp only [List.filter_cons, ha, decide_False]
      exact ih (Uniq_tail a g hU)

/-- C12 (result of `tls_thread_alloc`): for every table and every thread id `T` (the
restriction to `T ≠ -1` is not needed), `tls_thread_alloc` exits with code 1 exactly when
no slot holds `T` and no slot has `thread_id == -1`, and it exits with no other code; when
it succeeds and `T` had no slot, the lowest-index slot with `thread_id == -1` becomes
`(T, NULL)` and every other slot is unchanged; when `T` had a slot, nothing changes. -/
theorem tls_alloc_result (g : List tls_data_t) (T : Int) :
    (tls_thread_alloc T g = Except.error 1 ↔
      (∀ s ∈ g, s.thread_id ≠ T) ∧ (∀ s ∈ g, s.thread_id ≠ -1)) ∧
    (∀ code, tls_thread_alloc T g = Except.error code → code = 1) ∧
    (∀ g1, tls_thread_alloc T g = Except.ok g1 → (∀ s ∈ g, s.thread_id ≠ T) →
      ∃ (k : Nat) (s : tls_data_t), g[k]? = some s ∧ s.thread_id = -1 ∧
        (∀ (j : Nat) (s' : tls_data_t), j < k → g[j]? = some s' → s'.thread_id ≠ -1) ∧
        g1[k]? = some { thread_id := T, data := 0 } ∧ g1.length = g.length ∧
        (∀ j : Nat, j ≠ k → g1[j]? = g[j]?)) ∧
    (∀ g1, tls_thread_alloc T g = Except.ok g1 → (∃ s ∈ g, s.thread_id = T) → g1 = g) := by
  refine ⟨?_, ?_, ?_, ?_⟩
  · rw [alloc_error_iff]; simp
  · intro code h; exact ((alloc_error_iff T g code).mp h).1
  · intro g1 h hno
    rcases alloc_ok_cases T g g1 h with ⟨⟨s, hs, he⟩, _⟩ | ⟨_, k, s, hk, hs, hfirst, he⟩
    · exact absurd he (hno s hs)
    · have hlt : k < g.length := (List.getElem?_eq_some.mp hk).1
      refine ⟨k, s, hk, hs, hfirst, ?_, ?_, ?_⟩
      · rw [he]; simp [List.getElem?_set, hlt]
      · rw [he]; simp
      · intro j hj
        rw [he, List.getElem?_set_ne (fun e => hj e.symm)]
  · intro g1 h hex
    rw [alloc_of_has_slot T g hex] at h
    cases h; rfl

/-- C16 (uniqueness of slots): in every table reached from `init_storage` by any sequence
of `tls_thread_alloc`, `get_tls_data`, `set_tls_data` and `tls_thread_free` calls by any
threads, two slots with the same `thread_id` other than `-1` are the same slot, and for
every `T ≠ -1` at most one slot has `thread_id == T`. -/
theorem tls_unique_slot (MAX_THREADS : Nat) (calls : List (Int × Op)) (g : List tls_data_t)
    (hreach : apply_ops calls (init_storage MAX_THREADS) = Except.ok g) :
    (∀ (i j : Nat) (s s' : tls_data_t), g[i]? = some s → g[j]? = some s' →
      s.thread_id = s'.thread_id → s.thread_id ≠ -1 → i = j) ∧
    (∀ T : Int, T ≠ -1 → (g.filter (fun s => decide (s.thread_id = T))).length ≤ 1) := by
  have hU := Uniq_apply_ops calls _ g (Uniq_init MAX_THREADS) hreach
  exact ⟨hU, fun T hT => Uniq_filter_le T hT g hU⟩

/-- Witness for C16: threads 7 and 9 allocate, 7 frees and allocates again. -/
theorem tls_unique_slot_witness :
    apply_ops [(7, Op.alloc), (9, Op.alloc), (7, Op.free), (7, Op.alloc)] (init_storage 3) =
      Except.ok [{ thread_id := 7, data := 0 }, { thread_id := 9, data := 0 },
        { thread_id := -1, data := 0 }] ∧
    ([{ thread_id := 7, data := 0 }, { thread_id := 9, data := 0 },
      { thread_id := -1, data := 0 }].filter
        (fun s : tls_data_t => decide (s.thread_id = 7))).length ≤ 1 :=
  ⟨rfl, (tls_unique_slot 3 [(7, Op.alloc), (9, Op.alloc), (7, Op.free), (7, Op.alloc)] _
    rfl).2 7 (by decide)⟩

end local_storage
namespace local_storage

/-- C13 (Uninitialized error): for every thread id `T` (the id of a thread is never the
free-slot marker `-1`) and every table reached from `init_storage` by a sequence of
calls: `get_tls_data` and `set_tls_data` of `T` exit with code 2 exactly when `T` has not
allocated a slot since its last `tls_thread_free` (which is exactly when no slot holds
`T`), and with no other code; the loop of a failing `set_tls_data` leaves the table as it
was; when `T` has allocated a slot, both calls succeed.  For every table and every thread
id, the two calls exit with code 2 exactly when no slot has that `thread_id`. -/
theorem tls_uninitialized (T : Int) (hT : T ≠ -1) (MAX_THREADS : Nat)
    (calls : List (Int × Op)) (g : List tls_data_t)
    (hreach : apply_ops calls (init_storage MAX_THREADS) = Except.ok g) :
    (get_tls_data T g = Except.error 2 ↔ allocated T calls = false) ∧
    (∀ data, set_tls_data T data g = Except.error 2 ↔ allocated T calls = false) ∧
    (∀ code, get_tls_data T g = Except.error code → code = 2) ∧
    (∀ data code, set_tls_data T data g = Except.error code →
      code = 2 ∧ (set_loop T data g).1 = g) ∧
    (allocated T calls = true →
      (∃ p, get_tls_data T g = Except.ok p) ∧
        ∀ data, ∃ g', set_tls_data T data g = Except.ok g') ∧
    ((∃ s ∈ g, s.thread_id = T) ↔ allocated T calls = true) ∧
    (∀ (g0 : List tls_data_t) (T0 : Int),
      (get_tls_data T0 g0 = Except.error 2 ↔ ∀ s ∈ g0, s.thread_id ≠ T0) ∧
      (∀ data, set_tls_data T0 data g0 = Except.error 2 ↔ ∀ s ∈ g0, s.thread_id ≠ T0)) := by
  have hiff := holds_iff_allocated T hT MAX_THREADS calls g hreach
  have hno : (∀ s ∈ g, s.thread_id ≠ T) ↔ allocated T calls = false := by
    rw [← Bool.not_eq_true, ← hiff]
    push_neg
    rfl
  refine ⟨?_, ?_, ?_, ?_, ?_, hiff, ?_⟩
  · rw [get_error_iff, ← hno]; simp
  · intro data; rw [set_error_iff, ← hno]; simp
  · intro code h; exact ((get_error_iff T g code).mp h).1
  · intro data code h
    refine ⟨((set_error_iff T data g code).mp h).1, ?_⟩
    apply set_loop_not_found
    have hs : set_scan T data g = none :=
      (set_scan_none_iff T data g).mpr ((set_error_iff T data g code).mp h).2
    rw [set_scan_eq_set_loop] at hs
    by_contra hf
    rw [if_pos (by simpa using hf)] at hs
    cases hs
  · intro hal
    have hex := hiff.mpr hal
    constructor
    · cases hg : get_scan T g with
      | none =>
        obtain ⟨s, hs, he⟩ := hex
        exact absurd he ((get_scan_none_iff T g).mp hg s hs)
      | some p => exact ⟨p, by simp [get_tls_data, hg]⟩
    · intro data
      obtain ⟨g', hg'⟩ := set_scan_of_has_slot T data g hex
      exact ⟨g', by simp [set_tls_data, hg']⟩
  · intro g0 T0
    constructor
    · rw [get_error_iff]; simp
    · intro data; rw [set_error_iff]; simp

/-- Witness for C13: thread 7 allocated, stored and freed; its next `get_tls_data` exits
with code 2. -/
theorem tls_uninitialized_witness :
    (7 : Int) ≠ -1 ∧
    apply_ops [(7, Op.alloc), (7, Op.set 10), (7, Op.free)] (init_storage 2) =
      Except.ok [{ thread_id := -1, data := 0 }, { thread_id := -1, data := 0 }] ∧
    get_tls_data 7 [{ thread_id := -1, data := 0 }, { thread_id := -1, data := 0 }] =
      Except.error 2 :=
  ⟨by decide, rfl,
    (tls_uninitialized 7 (by decide) 2 [(7, Op.alloc), (7, Op.set 10), (7, Op.free)] _
      rfl).1.mpr rfl⟩

/-- C14 (`tls_thread_free`): for every table reached from `init_storage` and every thread
id `T ≠ -1`, after `tls_thread_free` of `T` no slot holds `T`, the slot that held `T` is
`(-1, NULL)`, every other slot is unchanged, and when `T` held no slot the table is as it
was. -/
theorem tls_free_frame (MAX_THREADS : Nat) (calls : List (Int × Op)) (g : List tls_data_t)
    (hreach : apply_ops calls (init_storage MAX_THREADS) = Except.ok g) (T : Int)
    (hT : T ≠ -1) :
    (∀ s ∈ tls_thread_free T g, s.thread_id ≠ T) ∧
    (∀ (k : Nat) (s : tls_data_t), g[k]? = some s → s.thread_id = T →
      (tls_thread_free T g)[k]? = some { thread_id := -1, data := 0 }) ∧
    (∀ (k : Nat) (s : tls_data_t), g[k]? = some s → s.thread_id ≠ T →
      (tls_thread_free T g)[k]? = some s) ∧
    (tls_thread_free T g).length = g.length ∧
    ((∀ s ∈ g, s.thread_id ≠ T) → tls_thread_free T g = g) := by
  have hU := Uniq_apply_ops calls _ g (Uniq_init MAX_THREADS) hreach
  refine ⟨free_no_slot T hT g hU, ?_⟩
  rcases free_cases T g with ⟨hno, he⟩ | ⟨k, s, hk, hs, _, he⟩
  · rw [he]
    refine ⟨?_, ?_, rfl, fun _ => rfl⟩
    · intro k s hk hs
      exact absurd hs (hno s (List.mem_iff_getElem?.mpr ⟨k, hk⟩))
    · intro k s hk _; exact hk
  · rw [he]
    have hlt : k < g.length := (List.getElem?_eq_some.mp hk).1
    refine ⟨?_, ?_, by simp, ?_⟩
    · intro k' s' hk' hs'
      have e : k' = k := hU k' k s' s hk' hk (by rw [hs', hs]) (by rw [hs']; exact hT)
      rw [e]; simp [List.getElem?_set, hlt]
    · intro k' s' hk' hs'
      have hne : k ≠ k' := by
        intro e
        rw [← e, hk] at hk'
        exact hs' (by rw [← Option.some.inj hk']; exact hs)
      rw [List.getElem?_set_ne hne]; exact hk'
    · intro hno
      exact absurd hs (hno s (List.mem_iff_getElem?.mpr ⟨k, hk⟩))

/-- Witness for C14: threads 7 and 9 hold slots with data; after the free of 7 its slot is
`(-1, NULL)` and the slot of 9 is as before. -/
theorem tls_free_frame_witness :
    (7 : Int) ≠ -1 ∧
    apply_ops [(7, Op.alloc), (9, Op.alloc), (7, Op.set 10), (9, Op.set 11)]
      (init_storage 3) =
      Except.ok [{ thread_id := 7, data := 10 }, { thread_id := 9, data := 11 },
        { thread_id := -1, data := 0 }] ∧
    tls_thread_free 7 [{ thread_id := 7, data := 10 }, { thread_id := 9, data := 11 },
        { thread_id := -1, data := 0 }] =
      [{ thread_id := -1, data := 0 }, { thread_id := 9, data := 11 },
        { thread_id := -1, data := 0 }] ∧
    ∀ s ∈ tls_thread_free 7 [{ thread_id := 7, data := 10 }, { thread_id := 9, data := 11 },
        { thread_id := -1, data := 0 }], s.thread_id ≠ 7 :=
  ⟨by decide, rfl, rfl,
    (tls_free_frame 3 [(7, Op.alloc), (9, Op.alloc), (7, Op.set 10), (9, Op.set 11)] _ rfl 7
      (by decide)).1⟩

end local_storage
namespace local_storage

theorem set_ok_of_scan (T : Int) (d : Nat) (g g' : List tls_data_t)
    (h : set_scan T d g = some g') : apply_op T (Op.set d) g = Except.ok g' := by
  simp [apply_op, set_tls_data, h]

/-- C15 as stated fails on a full table: after thread 5 took the only slot, the first call
of the sequence, `tls_thread_alloc` by thread 7, exits with code 1 and nothing is
returned. -/
theorem tls_lifecycle_counterexample :
    apply_ops [(5, Op.alloc)] (init_storage 1) = Except.ok [{ thread_id := 5, data := 0 }] ∧
    (7 : Int) ≠ -1 ∧
    tls_thread_alloc 7 [{ thread_id := 5, data := 0 }] = Except.error 1 ∧
    apply_ops [(7, Op.alloc), (7, Op.set 10), (7, Op.get), (7, Op.set 11), (7, Op.get),
      (7, Op.free), (7, Op.alloc), (7, Op.get)] [{ thread_id := 5, data := 0 }] =
      Except.error 1 :=
  ⟨rfl, by decide, rfl, rfl⟩

/-- C15 (amended): for every table reached from `init_storage`, every thread id
`T ≠ -1` whose `tls_thread_alloc` succeeds on it, and all pointers `a`, `b`: the calls
`set(a)`, `get`, `set(b)`, `get`, `free`, `alloc`, `get` of `T` that follow all succeed,
and the three `get` return `a`, then `b`, then `NULL`. -/
theorem tls_lifecycle (MAX_THREADS : Nat) (calls : List (Int × Op)) (g : List tls_data_t)
    (hreach : apply_ops calls (init_storage MAX_THREADS) = Except.ok g) (T : Int)
    (hT : T ≠ -1) (a b : Nat) (g1 : List tls_data_t)
    (halloc : tls_thread_alloc T g = Except.ok g1) :
    ∃ g2 g3 g5, set_tls_data T a g1 = Except.ok g2 ∧ get_tls_data T g2 = Except.ok a ∧
      set_tls_data T b g2 = Except.ok g3 ∧ get_tls_data T g3 = Except.ok b ∧
      tls_thread_alloc T (tls_thread_free T g3) = Except.ok g5 ∧
      get_tls_data T g5 = Except.ok 0 := by
  have hU := Uniq_apply_ops calls _ g (Uniq_init MAX_THREADS) hreach
  have hU1 : Uniq g1 := Uniq_apply_op T Op.alloc g g1 hU halloc
  have hh1 := alloc_ok_has_slot T g g1 halloc
  obtain ⟨g2, hg2⟩ := set_scan_of_has_slot T a g1 hh1
  have hU2 : Uniq g2 := Uniq_apply_op T (Op.set a) g1 g2 hU1 (set_ok_of_scan T a g1 g2 hg2)
  have hh2 := set_scan_has_slot T T a g1 g2 hg2 hh1
  obtain ⟨g3, hg3⟩ := set_scan_of_has_slot T b g2 hh2
  have hU3 : Uniq g3 := Uniq_apply_op T (Op.set b) g2 g3 hU2 (set_ok_of_scan T b g2 g3 hg3)
  have hh3 := set_scan_has_slot T T b g2 g3 hg3 hh2
  have hno4 := free_no_slot T hT g3 hU3
  have hfree4 : ∃ s ∈ tls_thread_free T g3, s.thread_id = -1 := by
    rcases free_cases T g3 with ⟨hno, _⟩ | ⟨k, s, hk, _, _, he⟩
    · obtain ⟨s, hs, he⟩ := hh3
      exact absurd he (hno s hs)
    · have hlt : k < g3.length := (List.getElem?_eq_some.mp hk).1
      refine ⟨{ thread_id := -1, data := 0 }, ?_, rfl⟩
      rw [he]
      exact List.mem_iff_getElem?.mpr ⟨k, by simp [List.getElem?_set, hlt]⟩
  cases h5 : tls_thread_alloc T (tls_thread_free T g3) with
  | error code =>
    obtain ⟨s, hs, he⟩ := hfree4
    exact absurd he (((alloc_error_iff T _ code).mp h5).2.2 s hs)
  | ok g5 =>
    refine ⟨g2, g3, g5, by simp [set_tls_data, hg2],
      by simp [get_tls_data, get_scan_set_scan T a g1 g2 hg2], by simp [set_tls_data, hg3],
      by simp [get_tls_data, get_scan_set_scan T b g2 g3 hg3], h5, ?_⟩
    rcases alloc_ok_cases T _ g5 h5 with ⟨⟨s, hs, he⟩, _⟩ | ⟨_, k, s, hk, _, _, he⟩
    · exact absurd he (hno4 s hs)
    · have hlt := (List.getElem?_eq_some.mp hk).1
      rw [he]
      simp [get_tls_data, get_scan_set_new T 0 _ k hlt hno4]

/-- Witness for C15: thread 9 holds the first slot; thread 7 runs the sequence with
`a = 0xA` and `b = 0xB`. -/
theorem tls_lifecycle_witness :
    (7 : Int) ≠ -1 ∧
    apply_ops [(9, Op.alloc), (9, Op.set 5)] (init_storage 2) =
      Except.ok [{ thread_id := 9, data := 5 }, { thread_id := -1, data := 0 }] ∧
    tls_thread_alloc 7 [{ thread_id := 9, data := 5 }, { thread_id := -1, data := 0 }] =
      Except.ok [{ thread_id := 9, data := 5 }, { thread_id := 7, data := 0 }] ∧
    ∃ g2 g3 g5,
      set_tls_data 7 10 [{ thread_id := 9, data := 5 }, { thread_id := 7, data := 0 }] =
        Except.ok g2 ∧ get_tls_data 7 g2 = Except.ok 10 ∧
      set_tls_data 7 11 g2 = Except.ok g3 ∧ get_tls_data 7 g3 = Except.ok 11 ∧
      tls_thread_alloc 7 (tls_thread_free 7 g3) = Except.ok g5 ∧
      get_tls_data 7 g5 = Except.ok 0 :=
  ⟨by decide, rfl, rfl,
    tls_lifecycle 2 [(9, Op.alloc), (9, Op.set 5)] _ rfl 7 (by decide) 10 11 _ rfl⟩

end local_storage
/-! ### Shape of the queue -/

namespace cp_pattern

theorem qinit_InvQ : InvQ qinit.q qinit.enq qinit.deq qinit.node (fun _ => false) := by
  refine ⟨⟨[], rfl, rfl, List.nodup_nil, ?_, rfl, ?_⟩, List.nodup_nil, ?_, ?_, ?_⟩
  · intro a ha; simp at ha
  · intro u a h; cases h
  · intro u a h; cases h
  · intro u v a h; cases h
  · intro u h; cases h

theorem qstep_InvQ (s : QState) (op : QOp)
    (hI : InvQ s.q s.enq s.deq s.node (fun _ => false)) :
    InvQ (qstep s op).q (qstep s op).enq (qstep s op).deq (qstep s op).node
      (fun _ => false) := by
  cases op with
  | enqueue a v =>
    simp only [qstep]
    by_cases hg : a = 0 ∨ a ∈ s.q.live
    · rw [if_pos hg]; exact hI
    · rw [if_neg hg]
      push_neg at hg
      exact InvQ_enqueue a v hg.1 hg.2 hI
  | dequeue u =>
    simp only [qstep]
    by_cases hg : s.q.queue_head = 0
    · rw [if_pos hg]; exact hI
    · rw [if_neg hg]
      have h1 := InvQ_dq u true (fun _ => hg) hI
      have h2 := InvQ_dequeue u (by simp) (by intro w hw; simp [Function.update_noteq hw]) h1
      have e : Function.update (Function.update (fun _ : Nat => false) u true) u false =
          fun _ => false := by
        funext w
        by_cases hw : w = u
        · subst hw; simp
        · simp [Function.update_noteq hw]
      rw [e] at h2
      exact h2
  | free u =>
    simp only [qstep]
    cases hn : s.node u with
    | none => exact hI
    | some a => exact InvQ_free u a hn hI

theorem qrun_InvQ (ops : List QOp) :
    InvQ (qrun ops).q (qrun ops).enq (qrun ops).deq (qrun ops).node (fun _ => false) :=
  runSched_inv qstep (fun s => InvQ s.q s.enq s.deq s.node (fun _ => false))
    (fun s op h => qstep_InvQ s op h) ops qinit qinit_InvQ

/-- C17 (shape of the queue): after any sequence of enqueue steps, dequeue steps (taken
only when `queue_head != NULL`) and `free` calls from the empty queue, `queue_head` is
`NULL` exactly when `queue_tail` is; the nodes reachable from `queue_head` by `next` form
a `NULL`-terminated list whose last node is `queue_tail`; the values enqueued are the
values dequeued followed by the values in that list, in order, so the values are dequeued
in the order they were enqueued. -/
theorem queue_shape (ops : List QOp) :
    ((qrun ops).q.queue_head = 0 ↔ (qrun ops).q.queue_tail = 0) ∧
    (∃ nodes : List (Nat × Nat),
      Chain (qrun ops).q.next (qrun ops).q.value (qrun ops).q.queue_head nodes ∧
      (qrun ops).q.queue_tail = lastAddr nodes ∧
      (qrun ops).enq = (qrun ops).deq ++ nodes.map Prod.snd) ∧
    (qrun ops).deq <+: (qrun ops).enq := by
  obtain ⟨⟨nodes, hch, htail, _, _, henq, _⟩, _⟩ := qrun_InvQ ops
  refine ⟨?_, ⟨nodes, hch, htail, henq⟩, ?_⟩
  · rw [htail, chain_head_zero hch, lastAddr_zero hch]
  · rw [henq]; exact List.prefix_append _ _

end cp_pattern

end OpSys
